import Mathlib

/-!
# Orzo rank/select index: a shallow embedding of `include/orzo/orzo.h`

The index is instantiated with its default template arguments
(`BASIC_BLOCK_COUNT = 512`, `L1L2_COUNT = 128`, `N_L2 = 10`, `use_l0 = true`,
`support_select = true`).

Conventions of the embedding:

* `uint64_t`, `size_t` and `__uint128_t` values are natural numbers; a wrap
  `% 2^64` or `% 2^128` is written wherever the C++ operation can leave the
  range (subtractions, left shifts).  Sums of population counts are not wrapped:
  they are bounded by the number of bits of the buffer, which lives in a 64-bit
  address space.
* every array is a `List`; an access outside the allocated length is undefined
  behaviour in C++ and ends the computation with a `Fault` naming the access.
* loops are structural recursions on the number of remaining iterations.
-/

namespace Orzo

/-! ## Faults -/

/-- Accesses outside an allocation (and an undefined shift), by place in the source. -/
inductive Fault where
  | elementsRead (idx : Nat)
  | bucketWrite (idx : Nat)
  | bvRead (idx : Nat)
  | l0Write (idx : Nat)
  | l1l2Write (idx : Nat)
  | selectL0Write (idx : Nat)
  | l0Read (idx : Nat)
  | l1l2Read (idx : Nat)
  | selectL0Read (idx : Nat)
  | sampleBucketRead (idx : Nat)
  | sampleRead (bucket slot : Nat)
  | shiftCount (count : Nat)
  | fuel
  deriving DecidableEq, Repr

/-! ## Constants (orzo.h lines 47-74) -/

def BASIC_BLOCK_COUNT : Nat := 512
def N_L2 : Nat := 10
def BASIC_BLOCK_WORDS : Nat := BASIC_BLOCK_COUNT / 64
def LOWER_BLOCK_COUNT : Nat := (N_L2 + 1) * 512
def LOWER_BLOCK_WORDS : Nat := LOWER_BLOCK_COUNT / 64
def L2_UNIVERSE : Nat := N_L2 * 512
def EF_UPPER_BV_COUNT : Nat := 2 * N_L2
/-- The source computes `N_L2 * ceil(log2(5120 / 10))`; `log2 512 = 9` exactly. -/
def EF_LOWER_BV_COUNT : Nat := N_L2 * 9
def EF_LOWER_ELE_COUNT : Nat := EF_LOWER_BV_COUNT / N_L2
def EF_TOTAL_COUNT : Nat := EF_UPPER_BV_COUNT + EF_LOWER_BV_COUNT
def UPPER_BLOCK_COUNT : Nat := 259072
def LOWER_PER_UPPER : Nat := UPPER_BLOCK_COUNT / LOWER_BLOCK_COUNT
def BASIC_BLOCK_SIZE : Nat := BASIC_BLOCK_COUNT / 8
/-- The source computes `(63 - countl_zero(N_L2)) + !has_single_bit(N_L2)` with `N_L2 = 10`:
`countl_zero(10) = 60` and 10 is not a power of two. -/
def EF_UPPER_SPLIT_COUNT : Nat := (63 - 60) + 1
/-- The source computes `(L2_UNIVERSE >> (64 - (countl_zero(L2_UNIVERSE) + EF_UPPER_SPLIT_COUNT))) + 1`
with `countl_zero(5120) = 51`. -/
def NUM_BUCKETS : Nat := (L2_UNIVERSE >>> (64 - (51 + EF_UPPER_SPLIT_COUNT))) + 1
def EF_LOWER_MASK : Nat := (2 <<< (EF_LOWER_ELE_COUNT - 1)) - 1
def EF_UPPER_BV_MASK : Nat := (2 <<< (EF_UPPER_BV_COUNT - 1)) - 1
def SELECT_SAMPLE : Nat := 8192
def SELECT_UPPER_BLOCK_COUNT : Nat := 4294895616
def L1L2_PER_SELECT_UPPER : Nat := SELECT_UPPER_BLOCK_COUNT / LOWER_BLOCK_COUNT

/-! ## Machine primitives -/

/-- Subtraction of two `uint64_t` values. -/
def sub64 (a b : Nat) : Nat := (a % 2 ^ 64 + 2 ^ 64 - b % 2 ^ 64) % 2 ^ 64

def popcountAux : Nat → Nat → Nat
  | 0, _ => 0
  | k + 1, w => w % 2 + popcountAux k (w / 2)

/-- The function `std::popcount` on a 64-bit word. -/
def popcount (w : Nat) : Nat := popcountAux 64 w

def tzcntAux : Nat → Nat → Nat
  | 0, _ => 0
  | k + 1, x => if x % 2 = 1 then 0 else 1 + tzcntAux k (x / 2)

/-- The intrinsic `_tzcnt_u64`: the number of trailing zero bits, 64 for a zero operand. -/
def tzcnt (x : Nat) : Nat := tzcntAux 64 x

def pdepAux : Nat → Nat → Nat → Nat
  | 0, _, _ => 0
  | k + 1, src, mask =>
    if mask % 2 = 1 then src % 2 + 2 * pdepAux k (src / 2) (mask / 2)
    else 2 * pdepAux k src (mask / 2)

/-- The intrinsic `_pdep_u64(src, mask)`: the low bits of `src` are deposited, in order, at the
positions of the set bits of the 64-bit `mask`; every other bit of the result is zero. -/
def pdep (src mask : Nat) : Nat := pdepAux 64 src mask

/-! ## Single-precision block counts (orzo.h lines 115-123)

The constructor computes its block counts as
`(size_t) std::ceil((float) bv_count / (float) C)`.  A non-negative `float` is represented by an
exact fraction `(numerator, denominator)`; `roundF32` is IEEE-754 binary32 rounding to nearest,
ties to even, of a non-negative rational (24 significant bits; the values that occur are far from
the subnormal and overflow ranges). -/

def log2Aux : Nat → Nat → Nat
  | 0, _ => 0
  | f + 1, x => if x < 2 then 0 else 1 + log2Aux f (x / 2)

/-- Position of the highest set bit of `x` (0 for `x ≤ 1`). -/
def log2 (x : Nat) : Nat := log2Aux x x

def roundF32 (num den : Nat) : Nat × Nat :=
  if num = 0 ∨ den = 0 then (0, 1)
  else
    let s := 25 + log2 den
    let x := num * 2 ^ s
    let u := 2 ^ (log2 (x / den) - 23)
    let d := den * u
    let m := x / d
    let r := x % d
    let m := if d < 2 * r ∨ (2 * r = d ∧ m % 2 = 1) then m + 1 else m
    (m * u, 2 ^ s)

/-- The value `(size_t) std::ceil((float) bv_count / (float) c)`. -/
def ceilDivF32 (bv_count c : Nat) : Nat :=
  let a := roundF32 bv_count 1
  let b := roundF32 c 1
  let q := roundF32 (a.1 * b.2) (a.2 * b.1)
  (q.1 + q.2 - 1) / q.2

/-! ## Elias-Fano pack of the L2 counts (orzo.h lines 82-107) -/

/-- First loop: `++(buckets[elements[i] >> EF_LOWER_ELE_COUNT])`. -/
def countBuckets : List Nat → List Nat → Except Fault (List Nat)
  | [], buckets => .ok buckets
  | element :: rest, buckets =>
    let upper := element >>> EF_LOWER_ELE_COUNT
    if upper < buckets.length then
      countBuckets rest (buckets.set upper (buckets.getD upper 0 + 1))
    else .error (.bucketWrite upper)

/-- Inner loop over `j < bucket_count`: `result |= (1 << counter); counter++`. Returns
`(counter, result)`. The shift is an `int` shift in the source; `counter` stays below 21. -/
def setRun : Nat → Nat → Nat → Nat × Nat
  | 0, counter, result => (counter, result)
  | k + 1, counter, result => setRun k (counter + 1) (result ||| (1 <<< counter))

/-- Second loop, over the buckets. -/
def unaryLoop : List Nat → Nat → Nat → Nat
  | [], _, result => result
  | bucket_count :: rest, counter, result =>
    let p := setRun bucket_count counter result
    unaryLoop rest (p.1 + 1) p.2

/-- Third loop: `result |= (elements[i] & EF_LOWER_MASK) << (i * EF_LOWER_ELE_COUNT + EF_UPPER_BV_COUNT)`. -/
def lowerLoop : List Nat → Nat → Nat → Nat
  | [], _, result => result
  | element :: rest, i, result =>
    let lower := element &&& EF_LOWER_MASK
    let shift := i * EF_LOWER_ELE_COUNT + EF_UPPER_BV_COUNT
    lowerLoop rest (i + 1) (result ||| ((lower <<< shift) % 2 ^ 128))

def elias_fano_encode (elements : List Nat) : Except Fault Nat :=
  if elements.length < N_L2 then .error (.elementsRead elements.length)
  else
    match countBuckets (elements.take N_L2) (List.replicate NUM_BUCKETS 0) with
    | .error e => .error e
    | .ok buckets => .ok (lowerLoop (elements.take N_L2) 0 (unaryLoop buckets 0 0))

/-- The value `rank1` adds for `iob ≠ 0` (orzo.h lines 255-260): entry `iob - 1` of the
Elias-Fano payload of the record `l1l2`. -/
def ef_decode_rank (l1l2 iob : Nat) : Nat :=
  let iob_dec := iob - 1
  let ef_lower := EF_LOWER_MASK &&& (l1l2 >>> (EF_UPPER_BV_COUNT + iob_dec * EF_LOWER_ELE_COUNT))
  let select_result := tzcnt (pdep (1 <<< iob_dec) (l1l2 % 2 ^ 64)) + 1
  let ef_upper := sub64 select_result iob
  ef_lower ||| ((ef_upper <<< EF_LOWER_ELE_COUNT) % 2 ^ 64)

/-- The value `l2` of the scan in `select1` (orzo.h lines 329-333): entry `idx` of the
Elias-Fano payload of the record `l1l2_entry`. -/
def ef_decode_select (l1l2_entry idx : Nat) : Nat :=
  let l1l2_lower := l1l2_entry >>> EF_UPPER_BV_COUNT
  let ef_upper_bits :=
    ((sub64 (tzcnt (pdep (1 <<< idx) (l1l2_entry % 2 ^ 64))) idx) <<< EF_LOWER_ELE_COUNT) % 2 ^ 64
  let ef_lower_bits := EF_LOWER_MASK &&& (l1l2_lower >>> (idx * EF_LOWER_ELE_COUNT))
  ef_lower_bits ||| ef_upper_bits

/-! ## The index and its construction (orzo.h lines 114-227) -/

structure Index where
  bv_count : Nat
  one_count : Nat
  l0 : List Nat
  select_l0 : List Nat
  select_samples : List (List Nat)
  l1l2 : List Nat
  SELECT_L0_ENTRY_COUNT : Nat
  L1L2_INDEX_COUNT : Nat
  deriving DecidableEq, Repr

/-- Local variables of the constructor that live across iterations of the build loop. -/
structure BuildState where
  l0 : List Nat
  select_l0 : List Nat
  l1l2 : List Nat
  l0_idx : Nat
  select_l0_idx : Nat
  l1l2_idx : Nat
  hot_count_total : Nat
  count_within_upper : Nat
  count_within_lower : Nat
  l2_counts : List Nat
  deriving DecidableEq, Repr

def readAt (fault : Nat → Fault) (arr : List Nat) (idx : Nat) : Except Fault Nat :=
  match arr[idx]? with
  | some w => .ok w
  | none => .error (fault idx)

def writeAt (fault : Nat → Fault) (arr : List Nat) (idx v : Nat) : Except Fault (List Nat) :=
  if idx < arr.length then .ok (arr.set idx v) else .error (fault idx)

/-- The statement `arr[idx] |= v` on an array of `__uint128_t`. -/
def orAt (fault : Nat → Fault) (arr : List Nat) (idx v : Nat) : Except Fault (List Nat) :=
  if idx < arr.length then .ok (arr.set idx (arr.getD idx 0 ||| (v % 2 ^ 128)))
  else .error (fault idx)

/-- Loop over `j < num_words`: `basic_count += popcount(bb_start[j])`. -/
def basicBlockLoop (bv : List Nat) (bb_offset : Nat) : Nat → Nat → Nat → Except Fault Nat
  | 0, _, basic_count => .ok basic_count
  | k + 1, j, basic_count =>
    match readAt .bvRead bv (bb_offset + j) with
    | .error e => .error e
    | .ok w => basicBlockLoop bv bb_offset k (j + 1) (basic_count + popcount w)

/-- Body of `if (end_of_lower)`, also the close-out of the final record (without the two
counter updates that only the loop makes). -/
def writeRecord (l1l2 : List Nat) (l1l2_idx count_within_upper : Nat) (l2_counts : List Nat) :
    Except Fault (List Nat) :=
  match orAt .l1l2Write l1l2 l1l2_idx (count_within_upper <<< EF_TOTAL_COUNT) with
  | .error e => .error e
  | .ok l1l2 =>
    match elias_fano_encode (l2_counts.drop 1) with
    | .error e => .error e
    | .ok elias_fano_l2s => orAt .l1l2Write l1l2 l1l2_idx elias_fano_l2s

def endOfLower (s : BuildState) : Except Fault BuildState :=
  match writeRecord s.l1l2 s.l1l2_idx s.count_within_upper s.l2_counts with
  | .error e => .error e
  | .ok l1l2 =>
    .ok { s with
      l1l2 := l1l2
      count_within_upper := s.count_within_upper + s.count_within_lower
      count_within_lower := 0
      l1l2_idx := s.l1l2_idx + 1 }

def endOfUpper (s : BuildState) : Except Fault BuildState :=
  match writeAt .l0Write s.l0 s.l0_idx s.hot_count_total with
  | .error e => .error e
  | .ok l0 => .ok { s with l0 := l0, count_within_upper := 0, l0_idx := s.l0_idx + 1 }

def endOfSelectUpper (s : BuildState) : Except Fault BuildState :=
  match writeAt .selectL0Write s.select_l0 s.select_l0_idx s.hot_count_total with
  | .error e => .error e
  | .ok select_l0 => .ok { s with select_l0 := select_l0, select_l0_idx := s.select_l0_idx + 1 }

/-- Body of the loop over the basic blocks, for the 1-based block number `i`. -/
def buildStep (bv : List Nat) (i : Nat) (s : BuildState) : Except Fault BuildState :=
  let bb_per_lower := LOWER_BLOCK_COUNT / BASIC_BLOCK_COUNT
  let bb_per_upper := UPPER_BLOCK_COUNT / BASIC_BLOCK_COUNT
  let bb_per_select_upper := SELECT_UPPER_BLOCK_COUNT / BASIC_BLOCK_COUNT
  let bb_offset := (i - 1) * (BASIC_BLOCK_SIZE / 8)
  let num_words := BASIC_BLOCK_SIZE / 8
  match basicBlockLoop bv bb_offset num_words 0 0 with
  | .error e => .error e
  | .ok basic_count =>
    let s := { s with
      hot_count_total := s.hot_count_total + basic_count
      count_within_lower := s.count_within_lower + basic_count
      l2_counts := s.l2_counts.set (i % (N_L2 + 1)) (s.count_within_lower + basic_count) }
    match (if i % bb_per_lower = 0 then endOfLower s else .ok s) with
    | .error e => .error e
    | .ok s =>
      match (if i % bb_per_upper = 0 then endOfUpper s else .ok s) with
      | .error e => .error e
      | .ok s => if i % bb_per_select_upper = 0 then endOfSelectUpper s else .ok s

/-- The loop `for (i = 1; i <= num_basic_blocks; ++i)`, by the number of remaining iterations. -/
def buildLoop (bv : List Nat) : Nat → Nat → BuildState → Except Fault BuildState
  | 0, _, s => .ok s
  | k + 1, i, s =>
    match buildStep bv i s with
    | .error e => .error e
    | .ok s => buildLoop bv k (i + 1) s

/-- Loop over `j < words_in_bucket` of the select sample construction; `base` is
`i * words_per_sel_upper`. Samples are stored as `uint32_t`. -/
def sampleLoop (bv : List Nat) (base : Nat) :
    Nat → Nat → Nat → Nat → List Nat → Except Fault (List Nat)
  | 0, _, _, _, tmp => .ok tmp
  | k + 1, j, cum, next, tmp =>
    match readAt .bvRead bv (base + j) with
    | .error e => .error e
    | .ok w =>
      let cum := cum + popcount w
      if next ≤ cum then
        sampleLoop bv base k (j + 1) cum (next + SELECT_SAMPLE)
          (tmp ++ [(j / LOWER_BLOCK_WORDS) % 2 ^ 32])
      else sampleLoop bv base k (j + 1) cum next tmp

/-- Samples of select upper block `i`, before the fix-up of empty buckets. -/
def sampleBucket (bv : List Nat) (bv_count select_l0_count i : Nat) : Except Fault (List Nat) :=
  let words_per_sel_upper := SELECT_UPPER_BLOCK_COUNT / 64
  let partial_words := (bv_count / 64) % words_per_sel_upper
  let words_in_bucket :=
    if i = select_l0_count - 1 ∧ partial_words ≠ 0 then partial_words else words_per_sel_upper
  sampleLoop bv (i * words_per_sel_upper) words_in_bucket 0 0 1 []

/-- The loop `for (i = 0; i < select_l0_count; ++i)` of the sample construction. -/
def sampleBuckets (bv : List Nat) (bv_count select_l0_count : Nat) :
    Nat → Nat → List (List Nat) → Except Fault (List (List Nat))
  | 0, _, acc => .ok acc
  | k + 1, i, acc =>
    match sampleBucket bv bv_count select_l0_count i with
    | .error e => .error e
    | .ok tmp => sampleBuckets bv bv_count select_l0_count k (i + 1) (acc ++ [tmp])

/-- The copy into `select_samples`: an empty bucket receives the single entry 0. -/
def fixBucket (tmp : List Nat) : List Nat := if tmp.length = 0 then [0] else tmp

def Orzo (bv : List Nat) (bv_count : Nat) : Except Fault Index :=
  let l0_count := ceilDivF32 bv_count UPPER_BLOCK_COUNT
  let num_lower_blocks := ceilDivF32 bv_count LOWER_BLOCK_COUNT
  let num_basic_blocks := ceilDivF32 bv_count BASIC_BLOCK_COUNT
  let select_l0_count := ceilDivF32 bv_count SELECT_UPPER_BLOCK_COUNT
  let init : BuildState :=
    { l0 := List.replicate (l0_count + 1) 0
      select_l0 := List.replicate (select_l0_count + 1) 0
      l1l2 := List.replicate num_lower_blocks 0
      l0_idx := 1
      select_l0_idx := 1
      l1l2_idx := 0
      hot_count_total := 0
      count_within_upper := 0
      count_within_lower := 0
      l2_counts := List.replicate (N_L2 + 1) 0 }
  match buildLoop bv num_basic_blocks 1 init with
  | .error e => .error e
  | .ok s =>
    match writeAt .l0Write s.l0 s.l0_idx s.hot_count_total with
    | .error e => .error e
    | .ok l0 =>
      match writeRecord s.l1l2 s.l1l2_idx s.count_within_upper s.l2_counts with
      | .error e => .error e
      | .ok l1l2 =>
        match writeAt .selectL0Write s.select_l0 s.select_l0_idx s.hot_count_total with
        | .error e => .error e
        | .ok select_l0 =>
          match sampleBuckets bv bv_count select_l0_count select_l0_count 0 [] with
          | .error e => .error e
          | .ok tmp =>
            .ok { bv_count := bv_count
                  one_count := s.hot_count_total
                  l0 := l0
                  select_l0 := select_l0
                  select_samples := tmp.map fixBucket
                  l1l2 := l1l2
                  SELECT_L0_ENTRY_COUNT := select_l0_count
                  L1L2_INDEX_COUNT := num_lower_blocks }

def get_one_count (self : Index) : Nat := self.one_count

/-! ## rank1 (orzo.h lines 241-280) -/

/-- The loop of full-word popcounts: `rank += popcount(bv[bb_offset + ii])`. -/
def rankWordLoop (bv : List Nat) (bb_offset : Nat) : Nat → Nat → Nat → Except Fault Nat
  | 0, _, rank => .ok rank
  | k + 1, ii, rank =>
    match readAt .bvRead bv (bb_offset + ii) with
    | .error e => .error e
    | .ok word => rankWordLoop bv bb_offset k (ii + 1) (rank + popcount word)

def rank1 (self : Index) (bv : List Nat) (i : Nat) : Except Fault Nat :=
  let l1l2_idx := i / LOWER_BLOCK_COUNT
  match readAt .l1l2Read self.l1l2 l1l2_idx with
  | .error e => .error e
  | .ok l1l2 =>
    let l1_count := (l1l2 >>> EF_TOTAL_COUNT) % 2 ^ 64
    match readAt .l0Read self.l0 (i / UPPER_BLOCK_COUNT) with
    | .error e => .error e
    | .ok l0_count =>
      let rank := l1_count + l0_count
      let j := i - l1l2_idx * LOWER_BLOCK_COUNT
      let iob := j / BASIC_BLOCK_COUNT
      let rank := if iob ≠ 0 then rank + ef_decode_rank l1l2 iob else rank
      let bb_offset := (i / BASIC_BLOCK_COUNT) * 8
      let bits_considered := i % BASIC_BLOCK_COUNT
      let num_popcounts := bits_considered / 64
      match rankWordLoop bv bb_offset num_popcounts 0 rank with
      | .error e => .error e
      | .ok rank =>
        let bits_considered := bits_considered % 64
        if bits_considered ≠ 0 then
          match readAt .bvRead bv (bb_offset + num_popcounts) with
          | .error e => .error e
          | .ok word =>
            let shift := 64 - bits_considered
            .ok (rank + popcount ((word <<< shift) % 2 ^ 64))
        else .ok rank

def rank0 (self : Index) (bv : List Nat) (i : Nat) : Except Fault Nat :=
  match rank1 self bv i with
  | .error e => .error e
  | .ok r => .ok ((1 + sub64 i r) % 2 ^ 64)

/-! ## select1 (orzo.h lines 286-352) -/

/-- The scan of `select_l0`, by the remaining distance `SELECT_L0_ENTRY_COUNT - (l0_idx + 1)`. -/
def selectL0Scan (select_l0 : List Nat) (i : Nat) : Nat → Nat → Except Fault Nat
  | 0, l0_idx => .ok l0_idx
  | k + 1, l0_idx =>
    match readAt .selectL0Read select_l0 (l0_idx + 1) with
    | .error e => .error e
    | .ok v => if v < i then selectL0Scan select_l0 i k (l0_idx + 1) else .ok l0_idx

/-- The walk over the L1L2 records, by the remaining distance `limit - (l1l2_idx + 1)`.
Returns `(l1l2_idx, full_rank)`. -/
def lowerWalk (self : Index) (i : Nat) : Nat → Nat → Nat → Except Fault (Nat × Nat)
  | 0, l1l2_idx, full_rank => .ok (l1l2_idx, full_rank)
  | k + 1, l1l2_idx, full_rank =>
    match readAt .l0Read self.l0 ((l1l2_idx + 1) / LOWER_PER_UPPER) with
    | .error e => .error e
    | .ok a =>
      match readAt .l1l2Read self.l1l2 (l1l2_idx + 1) with
      | .error e => .error e
      | .ok b =>
        let full_next_rank := a + (b >>> EF_TOTAL_COUNT)
        if i ≤ full_next_rank then .ok (l1l2_idx, full_rank)
        else lowerWalk self i k (l1l2_idx + 1) full_next_rank

/-- The Elias-Fano scan `for (; idx < N_L2; ++idx)`. Returns `(idx, full_rank)`. -/
def efScan (l1l2_entry full_next_rank i : Nat) : Nat → Nat → Nat → Nat × Nat
  | 0, idx, full_rank => (idx, full_rank)
  | k + 1, idx, full_rank =>
    let l2 := ef_decode_select l1l2_entry idx
    if i ≤ full_next_rank + l2 then (idx, full_rank)
    else efScan l1l2_entry full_next_rank i k (idx + 1) l2

/-- The scan over the words of the basic block, by the remaining distance to the end of the
buffer; it has no other bound in the source. Returns `(start_position, rank)`. -/
def wordScan (bv : List Nat) : Nat → Nat → Nat → Except Fault (Nat × Nat)
  | 0, start_position, _ =>
    match readAt .bvRead bv start_position with
    | .error e => .error e
    | .ok _ => .error .fuel
  | k + 1, start_position, rank =>
    match readAt .bvRead bv start_position with
    | .error e => .error e
    | .ok w =>
      let popc := popcount w
      if popc < rank then wordScan bv k (start_position + 1) (sub64 rank popc)
      else .ok (start_position, rank)

def select1 (self : Index) (bv : List Nat) (i : Nat) : Except Fault Nat :=
  match selectL0Scan self.select_l0 i (self.SELECT_L0_ENTRY_COUNT - 1) 0 with
  | .error e => .error e
  | .ok l0_idx =>
    match readAt .selectL0Read self.select_l0 l0_idx with
    | .error e => .error e
    | .ok l0 =>
      let rank := sub64 i l0
      match self.select_samples[l0_idx]? with
      | none => .error (.sampleBucketRead l0_idx)
      | some sample_bucket =>
        let slot := sub64 rank 1 / SELECT_SAMPLE
        match sample_bucket[slot]? with
        | none => .error (.sampleRead l0_idx slot)
        | some sample =>
          let l1l2_idx := sample + l0_idx * L1L2_PER_SELECT_UPPER
          match readAt .l0Read self.l0 (l1l2_idx / LOWER_PER_UPPER) with
          | .error e => .error e
          | .ok a =>
            match readAt .l1l2Read self.l1l2 l1l2_idx with
            | .error e => .error e
            | .ok b =>
              let full_rank := a + (b >>> EF_TOTAL_COUNT)
              let last_in_upper := L1L2_PER_SELECT_UPPER * l0_idx + L1L2_PER_SELECT_UPPER
              let limit := min self.L1L2_INDEX_COUNT last_in_upper
              match lowerWalk self i (limit - (l1l2_idx + 1)) l1l2_idx full_rank with
              | .error e => .error e
              | .ok (l1l2_idx, full_rank) =>
                let full_next_rank := full_rank
                let rank := sub64 rank (sub64 full_rank l0)
                match readAt .l1l2Read self.l1l2 l1l2_idx with
                | .error e => .error e
                | .ok l1l2_entry =>
                  let (idx, full_rank) := efScan l1l2_entry full_next_rank i N_L2 0 0
                  let rank := sub64 rank full_rank
                  let start_position := l1l2_idx * LOWER_BLOCK_WORDS + idx * BASIC_BLOCK_WORDS
                  match wordScan bv (bv.length - start_position) start_position rank with
                  | .error e => .error e
                  | .ok (start_position, rank) =>
                    match readAt .bvRead bv start_position with
                    | .error e => .error e
                    | .ok word =>
                      let count := sub64 rank 1
                      if 64 ≤ count then .error (.shiftCount count)
                      else .ok (start_position * 64 + tzcnt (pdep (1 <<< count) word))

/-! ## The bit-vector container (bitvector.h) -/

/-- Undefined operations of the container, by place in the source. -/
inductive BvFault where
  | divisionByZero
  | read (idx : Nat)
  | write (idx : Nat)
  | shiftCount (count : Nat)
  deriving DecidableEq, Repr

/-- The class `OrzoBitvector`: its only member is the buffer `bv`. -/
structure OrzoBitvector where
  bv : List Nat
  deriving DecidableEq, Repr

/-- The constructor `OrzoBitvector(n, multiple_of, alignment)` (bitvector.h lines 18-36); the
alignment concerns the address of the buffer only. -/
def OrzoBitvector.construct (n multiple_of : Nat) : Except BvFault OrzoBitvector :=
  let num_words := n / 64
  let mow := multiple_of / 64
  if mow = 0 then .error .divisionByZero
  else
    let num_words := num_words + num_words % mow
    .ok { bv := List.replicate num_words 0 }

def OrzoBitvector.data (self : OrzoBitvector) : List Nat := self.bv

/-- The statement `bv[word_idx] |= (1ul << (i % 64))` (bitvector.h lines 46-49). -/
def OrzoBitvector.set_bit (self : OrzoBitvector) (i : Nat) : Except BvFault OrzoBitvector :=
  let word_idx := i / 64
  match self.bv[word_idx]? with
  | none => .error (.write word_idx)
  | some w => .ok { bv := self.bv.set word_idx ((w ||| (1 <<< (i % 64))) % 2 ^ 64) }

/-- The operand `(1 << count)` of `get_bit` for `count < 32`: the shift is done on the 32-bit
`int` 1, and the result is converted to `uint64_t` for the `&` (sign extension). -/
def intShiftMask (count : Nat) : Nat :=
  let shifted : Int := (2 ^ count + 2 ^ 31) % 2 ^ 32 - 2 ^ 31
  (shifted % 2 ^ 64).toNat

/-- The expression `(bool) (bv[word_idx] & (1 << (i % 64)))` (bitvector.h lines 51-54); a shift
of an `int` by 32 or more is undefined. -/
def OrzoBitvector.get_bit (self : OrzoBitvector) (i : Nat) : Except BvFault Bool :=
  let word_idx := i / 64
  match self.bv[word_idx]? with
  | none => .error (.read word_idx)
  | some w =>
    let count := i % 64
    if 32 ≤ count then .error (.shiftCount count)
    else .ok (decide (w &&& intShiftMask count ≠ 0))

/-- The calls `set_bit(i)` for the positions of a list, in order. -/
def setBits : OrzoBitvector → List Nat → Except BvFault OrzoBitvector
  | b, [] => .ok b
  | b, i :: rest =>
    match b.set_bit i with
    | .error e => .error e
    | .ok b1 => setBits b1 rest

/-- The driver of comparison.cc (lines 65-90) up to the construction of the index: the container
is created for `size` bits with pad multiple 5632, the positions `sets` are set in order, and
the index is built over `data()`. A fault of the container is the outer error. -/
def compareBuild (size : Nat) (sets : List Nat) : Except BvFault (Except Fault Index) :=
  match OrzoBitvector.construct size 5632 with
  | .error e => .error e
  | .ok pssg_bv =>
    match setBits pssg_bv sets with
    | .error e => .error e
    | .ok pssg_bv => .ok (Orzo pssg_bv.data size)

/-! ## Reference notions of the specification -/

/-- Bit `p` of the sequence B stored in `bv`: word `p / 64`, position `p % 64`. -/
def bitAt (bv : List Nat) (p : Nat) : Nat := (bv.getD (p / 64) 0 >>> (p % 64)) % 2

/-- Naive popcount: the number of set bits among B[0..i). -/
def countOnes (bv : List Nat) (i : Nat) : Nat := ((List.range i).map (bitAt bv)).sum

/-- Ceiling of `n / c` over the integers. -/
def ceilDiv (n c : Nat) : Nat := (n + c - 1) / c

/-- The word count the container is specified to allocate: `ceil(n / 64)` words rounded up to
the next multiple of `pad_multiple / 64` words. -/
def paddedWordCount (n pad_multiple : Nat) : Nat :=
  ceilDiv (ceilDiv n 64) (pad_multiple / 64) * (pad_multiple / 64)

/-- The upper parts `v[0] >> 9, ..., v[9] >> 9` of a sequence, in non-decreasing order: entry
`j` is the `j`-th smallest upper part, counted from 0 and with multiplicity. -/
def sortedUpperParts (v : List Nat) : List Nat :=
  (v.map (fun e => e >>> EF_LOWER_ELE_COUNT)).insertionSort (· ≤ ·)

/-- The requirements on the caller's buffer: `n > 0`, the buffer holds whole basic blocks up to
bit `n`, its entries are 64-bit words and every bit at a position `≥ n` is zero. -/
def Padded (bv : List Nat) (n : Nat) : Prop :=
  0 < n ∧ BASIC_BLOCK_WORDS * ceilDiv n BASIC_BLOCK_COUNT ≤ bv.length ∧
    ∀ k, k < bv.length → bv.getD k 0 < 2 ^ min 64 (n - 64 * k)

instance (bv : List Nat) (n : Nat) : Decidable (Padded bv n) := by
  unfold Padded; infer_instance

/-! ## Concrete buffers -/

/-- One basic block of ones followed by one basic block of zeros (1024 bits). -/
def onesThenZeros : List Nat := List.replicate 8 (2 ^ 64 - 1) ++ List.replicate 8 0

/-- One basic block of ones followed by a basic block whose first bit alone is set (1024 bits). -/
def onesThenOne : List Nat := List.replicate 8 (2 ^ 64 - 1) ++ [1] ++ List.replicate 7 0

/-- Nine basic blocks (4608 bits): the third is all ones, the ninth has its first bit set, the
others are zero. -/
def sparseNineBlocks : List Nat :=
  List.replicate 16 0 ++ List.replicate 8 (2 ^ 64 - 1) ++ List.replicate 40 0 ++ [1] ++
    List.replicate 7 0

/-- One lower block (5632 bits) of zeros. -/
def zeroLowerBlock : List Nat := List.replicate 88 0

/-- One lower block (5632 bits) of ones. -/
def onesLowerBlock : List Nat := List.replicate 88 (2 ^ 64 - 1)

/-- 8193 ones: 128 full words and the lowest bit of word 128, padded to 17 basic blocks. -/
def ones8193 : List Nat := List.replicate 128 (2 ^ 64 - 1) ++ [1] ++ List.replicate 7 0

/-- 5632 ones followed by 512 zeros (`n = 6144`). -/
def onesThenZeros6144 : List Nat := List.replicate 88 (2 ^ 64 - 1) ++ List.replicate 8 0

/-- 11263 ones, padded to 22 basic blocks (`n = 11263`). -/
def ones11263 : List Nat := List.replicate 175 (2 ^ 64 - 1) ++ [2 ^ 63 - 1]

/-- A buffer of `a` zero words, `b` words of ones and `c` zero words. -/
def zerosOnesZeros (a b c : Nat) : List Nat :=
  List.replicate a 0 ++ List.replicate b (2 ^ 64 - 1) ++ List.replicate c 0

/-- Buffer for `n = 137439043583`: zero except for word 2147484944, the first word of lower
block 24403238, which is all ones. -/
def onesInLastCompleteBlock : List Nat := zerosOnesZeros 2147484944 1 111

/-- Buffer for `n = 73013225536`: zero except for the 129 words from word 1073723905, the
second word of select upper block 16, which are all ones. -/
def onesAfterFirstWord : List Nat := zerosOnesZeros 1073723905 129 67107622

/-- Buffer for `n = 73013225536`: zero except for word 1073723992, word 88 of select upper
block 16, which is all ones. -/
def onesInSecondLowerBlock : List Nat := zerosOnesZeros 1073723992 1 67107663

/-! ## Auxiliary notions of the proofs -/

/-- Value of a list of bits, least significant first. -/
def ofBits : List Bool → Nat
  | [] => 0
  | b :: bs => b.toNat + 2 * ofBits bs

/-- Index of the `j`-th `true` (counted from 0) of a list of bits. -/
def nthTrue : List Bool → Nat → Option Nat
  | [], _ => none
  | true :: _, 0 => some 0
  | true :: bs, j + 1 => (nthTrue bs j).map (· + 1)
  | false :: bs, j => (nthTrue bs j).map (· + 1)

/-- The unary bit vector of a list of bucket counts: each bucket is a run of ones closed by a
zero. -/
def unaryBits : List Nat → List Bool
  | [] => []
  | c :: cs => List.replicate c true ++ false :: unaryBits cs

/-- Bucket of the `j`-th one (counted from 0) of the unary bit vector of `cs`. -/
def upperAt : List Nat → Nat → Nat
  | [], _ => 0
  | c :: cs, j => if j < c then 0 else 1 + upperAt cs (j - c)

/-- The bucket counts `elias_fano_encode` computes for `v`. -/
def bucketCounts (v : List Nat) : List Nat :=
  (List.range NUM_BUCKETS).map (fun b => v.countP (fun e => decide (e >>> EF_LOWER_ELE_COUNT = b)))

/-- The lower parts of `v`, 9 bits each, first element lowest. -/
def packLower : List Nat → Nat
  | [] => 0
  | e :: es => e % 512 + 512 * packLower es

/-- Sum of the popcounts of the first `k` words of the buffer. -/
def wordSum (bv : List Nat) (k : Nat) : Nat := ((bv.take k).map popcount).sum

/-- The ten cumulative counts of lower block `k`: entry `j` is the number of set bits of the
block up to and including its basic block `j + 1`. -/
def blockCounts (bv : List Nat) (k : Nat) : List Nat :=
  (List.range 10).map (fun j => wordSum bv (88 * k + 8 * (j + 1)) - wordSum bv (88 * k))

/-- State of the build loop after `i` basic blocks, for arrays of `nl0 + 1`, `nsel + 1` and
`nlb` entries. A lower block is 11 basic blocks (88 words), an upper block 506 basic blocks
(46 lower blocks, 4048 words), a select upper block 8388468 basic blocks (67107744 words). -/
structure BuildInv (bv : List Nat) (nl0 nsel nlb i : Nat) (s : BuildState) : Prop where
  hot : s.hot_count_total = wordSum bv (8 * i)
  l1l2_idx : s.l1l2_idx = i / 11
  l0_idx : s.l0_idx = 1 + i / 506
  select_l0_idx : s.select_l0_idx = 1 + i / 8388468
  cwl : s.count_within_lower = wordSum bv (8 * i) - wordSum bv (88 * (i / 11))
  cwu : s.count_within_upper = wordSum bv (88 * (i / 11)) - wordSum bv (4048 * (i / 506))
  l2_len : s.l2_counts.length = 11
  l2_bound : ∀ t, 1 ≤ t → t ≤ 10 → s.l2_counts.getD t 0 ≤ 5120
  l0_len : s.l0.length = nl0 + 1
  sel_len : s.select_l0.length = nsel + 1
  l1l2_len : s.l1l2.length = nlb
  l2_fresh : ∀ t, 1 ≤ t → t ≤ i % 11 →
    s.l2_counts.getD t 0 = wordSum bv (88 * (i / 11) + 8 * t) - wordSum bv (88 * (i / 11))
  l0_content : ∀ k, k ≤ i / 506 → s.l0.getD k 0 = wordSum bv (4048 * k)
  sel_content : ∀ k, k ≤ i / 8388468 → s.select_l0.getD k 0 = wordSum bv (67107744 * k)
  l1l2_written : ∀ k, k < i / 11 → ∃ ef, elias_fano_encode (blockCounts bv k) = .ok ef ∧
    ef < 2 ^ 110 ∧
    s.l1l2.getD k 0 = (wordSum bv (88 * k) - wordSum bv (4048 * (k / 46))) * 2 ^ 110 + ef
  l1l2_unwritten : ∀ k, i / 11 ≤ k → s.l1l2.getD k 0 = 0
  bv_ok : 8 * i ≤ bv.length
  lb_ok : i / 11 ≤ nlb
  l0_ok : i / 506 ≤ nl0
  sel_ok : i / 8388468 ≤ nsel

/-- What the constructor stores, in terms of the word sums of the buffer; `nbb` is the number of
basic blocks the loop visits. -/
structure BuiltIndex (bv : List Nat) (n : Nat) (idx : Index) : Prop where
  one_count : idx.one_count = wordSum bv (8 * ceilDivF32 n BASIC_BLOCK_COUNT)
  l0_len : idx.l0.length = ceilDivF32 n UPPER_BLOCK_COUNT + 1
  l0_content : ∀ k, k ≤ ceilDivF32 n BASIC_BLOCK_COUNT / 506 →
    idx.l0.getD k 0 = wordSum bv (4048 * k)
  l0_last : idx.l0.getD (1 + ceilDivF32 n BASIC_BLOCK_COUNT / 506) 0 =
    wordSum bv (8 * ceilDivF32 n BASIC_BLOCK_COUNT)
  l1l2_len : idx.l1l2.length = ceilDivF32 n LOWER_BLOCK_COUNT
  l1l2_count : idx.L1L2_INDEX_COUNT = ceilDivF32 n LOWER_BLOCK_COUNT
  l1l2_complete : ∀ k, k < ceilDivF32 n BASIC_BLOCK_COUNT / 11 →
    ∃ ef, elias_fano_encode (blockCounts bv k) = .ok ef ∧ ef < 2 ^ 110 ∧
      idx.l1l2.getD k 0 = (wordSum bv (88 * k) - wordSum bv (4048 * (k / 46))) * 2 ^ 110 + ef
  l1l2_last : ∃ ef, ef < 2 ^ 110 ∧
    idx.l1l2.getD (ceilDivF32 n BASIC_BLOCK_COUNT / 11) 0 =
      (wordSum bv (88 * (ceilDivF32 n BASIC_BLOCK_COUNT / 11)) -
        wordSum bv (4048 * (ceilDivF32 n BASIC_BLOCK_COUNT / 506))) * 2 ^ 110 + ef
  sel_len : idx.select_l0.length = ceilDivF32 n SELECT_UPPER_BLOCK_COUNT + 1
  sel_content : ∀ k, k ≤ ceilDivF32 n BASIC_BLOCK_COUNT / 8388468 →
    idx.select_l0.getD k 0 = wordSum bv (67107744 * k)
  sel_last : idx.select_l0.getD (1 + ceilDivF32 n BASIC_BLOCK_COUNT / 8388468) 0 =
    wordSum bv (8 * ceilDivF32 n BASIC_BLOCK_COUNT)
  samples_len : idx.select_samples.length = ceilDivF32 n SELECT_UPPER_BLOCK_COUNT
  sel_count : idx.SELECT_L0_ENTRY_COUNT = ceilDivF32 n SELECT_UPPER_BLOCK_COUNT

/-- Number of words the sample construction scans in select upper block `i`. -/
def wordsInBucket (bv_count select_l0_count i : Nat) : Nat :=
  if i = select_l0_count - 1 ∧ (bv_count / 64) % (SELECT_UPPER_BLOCK_COUNT / 64) ≠ 0 then
    (bv_count / 64) % (SELECT_UPPER_BLOCK_COUNT / 64)
  else SELECT_UPPER_BLOCK_COUNT / 64

/-- 2^24 zero bits followed by a one at position 2^24, padded to whole basic blocks. -/
def zerosThenOne : List Nat := List.replicate 262144 0 ++ [1] ++ List.replicate 7 0

/-- 2^34 + 1000 zero bits, padded to whole basic blocks. -/
def zeros2p34 : List Nat := List.replicate 268435472 0

set_option maxRecDepth 100000

/-! ## Elias-Fano: encode and decode -/

theorem pdepAux_zero (k m : Nat) : pdepAux k 0 m = 0 := by
  induction k generalizing m with
  | zero => rfl
  | succ k ih => simp [pdepAux, ih]

theorem tzcntAux_two_pow (p : Nat) : ∀ fuel, p < fuel → tzcntAux fuel (2 ^ p) = p := by
  induction p with
  | zero =>
    intro fuel h
    obtain ⟨k, rfl⟩ : ∃ k, fuel = k + 1 := ⟨fuel - 1, by omega⟩
    simp [tzcntAux]
  | succ p ih =>
    intro fuel h
    obtain ⟨k, rfl⟩ : ∃ k, fuel = k + 1 := ⟨fuel - 1, by omega⟩
    have h1 : 2 ^ (p + 1) % 2 = 0 := by rw [Nat.pow_succ]; omega
    have h2 : 2 ^ (p + 1) / 2 = 2 ^ p := by rw [Nat.pow_succ]; omega
    simp [tzcntAux, h1, h2, ih k (by omega)]
    omega

theorem half_mod (m x K : Nat) (h : m % (2 * K) = x % (2 * K)) : (m / 2) % K = (x / 2) % K := by
  have h1 : (m % (2 * K)) / 2 = (m / 2) % K := Nat.mod_mul_right_div_self m 2 K
  have h2 : (x % (2 * K)) / 2 = (x / 2) % K := Nat.mod_mul_right_div_self x 2 K
  rw [← h1, ← h2, h]

theorem low_mod (m x K : Nat) (h : m % (2 * K) = x % (2 * K)) : m % 2 = x % 2 := by
  have h1 : m % (2 * K) % 2 = m % 2 := Nat.mod_mul_right_mod m 2 K
  have h2 : x % (2 * K) % 2 = x % 2 := Nat.mod_mul_right_mod x 2 K
  rw [← h1, ← h2, h]

theorem pdepAux_nthTrue (bs : List Bool) : ∀ (fuel j p m : Nat), nthTrue bs j = some p →
    m % 2 ^ (p + 1) = ofBits bs % 2 ^ (p + 1) → p < fuel → pdepAux fuel (2 ^ j) m = 2 ^ p := by
  induction bs with
  | nil => intro fuel j p m h; simp [nthTrue] at h
  | cons b bs ih =>
    intro fuel j p m h hm hp
    obtain ⟨k, rfl⟩ : ∃ k, fuel = k + 1 := ⟨fuel - 1, by omega⟩
    have hm' : m % (2 * 2 ^ p) = (b.toNat + 2 * ofBits bs) % (2 * 2 ^ p) := by
      rw [Nat.pow_succ, Nat.mul_comm] at hm; exact hm
    have hlow : m % 2 = b.toNat := by
      have := low_mod m _ (2 ^ p) hm'
      rw [this]; cases b <;> simp
    have hhalf : (m / 2) % 2 ^ p = ofBits bs % 2 ^ p := by
      have := half_mod m _ (2 ^ p) hm'
      rw [this]; cases b <;> simp <;> congr 1 <;> omega
    cases b with
    | false =>
      simp only [nthTrue, Option.map_eq_some'] at h
      obtain ⟨p', hp', rfl⟩ := h
      simp only [Bool.toNat_false] at hlow
      rw [pdepAux, if_neg (by omega), ih k j p' (m / 2) hp' hhalf (by omega), Nat.pow_succ]
      omega
    | true =>
      simp only [Bool.toNat_true] at hlow
      cases j with
      | zero =>
        simp only [nthTrue, Option.some.injEq] at h
        subst h
        rw [pdepAux, if_pos hlow]
        simp [pdepAux_zero]
      | succ j =>
        simp only [nthTrue, Option.map_eq_some'] at h
        obtain ⟨p', hp', rfl⟩ := h
        have h1 : 2 ^ (j + 1) % 2 = 0 := by rw [Nat.pow_succ]; omega
        have h2 : 2 ^ (j + 1) / 2 = 2 ^ j := by rw [Nat.pow_succ]; omega
        rw [pdepAux, if_pos hlow, h1, h2, ih k j p' (m / 2) hp' hhalf (by omega), Nat.pow_succ]
        omega

theorem ofBits_append (as bs : List Bool) :
    ofBits (as ++ bs) = ofBits as + 2 ^ as.length * ofBits bs := by
  induction as with
  | nil => simp [ofBits]
  | cons a as ih =>
    show ofBits (a :: (as ++ bs)) = _
    rw [ofBits, ih, ofBits, List.length_cons, Nat.pow_succ]; ring

theorem ofBits_lt (bs : List Bool) : ofBits bs < 2 ^ bs.length := by
  induction bs with
  | nil => simp [ofBits]
  | cons b bs ih =>
    simp only [ofBits, List.length_cons, Nat.pow_succ]
    cases b <;> simp <;> omega

theorem or_two_pow_of_lt (a n : Nat) (h : a < 2 ^ n) : a ||| (1 <<< n) = a + 2 ^ n := by
  rw [Nat.shiftLeft_eq, Nat.one_mul, Nat.lor_comm]
  have := Nat.mul_add_lt_is_or h 1
  simp at this
  omega

theorem setRun_eq (c : Nat) : ∀ counter result, result < 2 ^ counter →
    setRun c counter result =
      (counter + c, result + 2 ^ counter * ofBits (List.replicate c true)) := by
  induction c with
  | zero => intro counter result _; simp [setRun, ofBits]
  | succ c ih =>
    intro counter result h
    have h1 := or_two_pow_of_lt result counter h
    rw [setRun, h1, ih (counter + 1) _ (by rw [Nat.pow_succ]; omega)]
    simp only [List.replicate_succ, ofBits, Bool.toNat_true, Nat.pow_succ, Prod.mk.injEq]
    constructor
    · omega
    · ring

theorem unaryLoop_eq (cs : List Nat) : ∀ counter result, result < 2 ^ counter →
    unaryLoop cs counter result = result + 2 ^ counter * ofBits (unaryBits cs) := by
  induction cs with
  | nil => intro counter result _; simp [unaryLoop, unaryBits, ofBits]
  | cons c cs ih =>
    intro counter result h
    have hlt := ofBits_lt (List.replicate c true)
    simp only [List.length_replicate] at hlt
    have hb : result + 2 ^ counter * ofBits (List.replicate c true) < 2 ^ (counter + c + 1) := by
      have : 2 ^ counter * ofBits (List.replicate c true) + 2 ^ counter ≤ 2 ^ counter * 2 ^ c := by
        have : ofBits (List.replicate c true) + 1 ≤ 2 ^ c := hlt
        calc 2 ^ counter * ofBits (List.replicate c true) + 2 ^ counter
            = 2 ^ counter * (ofBits (List.replicate c true) + 1) := by ring
          _ ≤ 2 ^ counter * 2 ^ c := Nat.mul_le_mul_left _ this
      rw [Nat.pow_succ, Nat.pow_add]
      omega
    rw [unaryLoop, setRun_eq c counter result h]
    simp only
    rw [ih _ _ hb, unaryBits, ofBits_append]
    simp only [List.length_replicate, ofBits, Bool.toNat_false, Nat.pow_succ, Nat.pow_add]
    ring

theorem nthTrue_replicate_append (c : Nat) (rest : List Bool) : ∀ j,
    nthTrue (List.replicate c true ++ rest) j =
      if j < c then some j else (nthTrue rest (j - c)).map (· + c) := by
  induction c with
  | zero => intro j; simp
  | succ c ih =>
    intro j
    cases j with
    | zero => simp [List.replicate_succ, nthTrue]
    | succ j =>
      show nthTrue (true :: (List.replicate c true ++ rest)) (j + 1) = _
      rw [nthTrue, ih j]
      by_cases hj : j < c
      · simp [hj]
      · simp only [hj, if_false, Nat.add_lt_add_iff_right, Nat.add_sub_add_right, Option.map_map]
        congr 1

theorem upperAt_lt (cs : List Nat) : ∀ j, j < cs.sum → upperAt cs j < cs.length := by
  induction cs with
  | nil => intro j h; simp at h
  | cons c cs ih =>
    intro j h
    simp only [upperAt, List.length_cons]
    by_cases hj : j < c
    · simp [hj]
    · simp only [hj, if_false]
      have := ih (j - c) (by simp at h; omega)
      omega

theorem nthTrue_unaryBits (cs : List Nat) : ∀ j, j < cs.sum →
    nthTrue (unaryBits cs) j = some (j + upperAt cs j) := by
  induction cs with
  | nil => intro j h; simp at h
  | cons c cs ih =>
    intro j h
    rw [unaryBits, nthTrue_replicate_append, upperAt]
    by_cases hj : j < c
    · simp [hj]
    · simp only [hj, if_false, nthTrue]
      rw [ih (j - c) (by simp at h; omega)]
      simp
      omega

theorem upperAt_eq (cs : List Nat) : ∀ j k, k < cs.length → (cs.take k).sum ≤ j →
    j < (cs.take (k + 1)).sum → upperAt cs j = k := by
  induction cs with
  | nil => intro j k h; simp at h
  | cons c cs ih =>
    intro j k hk h1 h2
    cases k with
    | zero =>
      simp at h2
      simp [upperAt, h2]
    | succ k =>
      simp only [List.take_succ_cons, List.sum_cons] at h1 h2
      simp only [List.length_cons] at hk
      have := ih (j - c) k (by omega) (by omega) (by omega)
      rw [upperAt, if_neg (by omega), this]
      omega

theorem countP_lt_succ (f : Nat → Nat) (es : List Nat) (k : Nat) :
    es.countP (fun e => decide (f e < k + 1)) =
      es.countP (fun e => decide (f e < k)) + es.countP (fun e => decide (f e = k)) := by
  induction es with
  | nil => rfl
  | cons e es ih =>
    simp only [List.countP_cons, ih]
    by_cases h1 : f e < k
    · have h2 : f e < k + 1 := by omega
      have h3 : ¬ f e = k := by omega
      simp [h1, h2, h3]; omega
    · by_cases h3 : f e = k
      · have h2 : f e < k + 1 := by omega
        simp [h1, h2, h3]; omega
      · have h2 : ¬ f e < k + 1 := by omega
        simp [h1, h2, h3]

theorem sum_take_counts (f : Nat → Nat) (es cs : List Nat)
    (h : ∀ b, b < cs.length → cs.getD b 0 = es.countP (fun e => decide (f e = b))) :
    ∀ k, k ≤ cs.length → (cs.take k).sum = es.countP (fun e => decide (f e < k)) := by
  intro k
  induction k with
  | zero => intro _; simp
  | succ k ih =>
    intro hk
    have hk' : k < cs.length := by omega
    rw [List.take_succ, List.sum_append, ih (by omega), countP_lt_succ, ← h k hk']
    simp [List.getElem?_eq_getElem hk', List.getD_eq_getElem _ _ hk']

theorem countBuckets_ok (es : List Nat) : ∀ bk : List Nat,
    (∀ e ∈ es, e >>> EF_LOWER_ELE_COUNT < bk.length) →
    ∃ bk', countBuckets es bk = .ok bk' ∧ bk'.length = bk.length ∧
      ∀ b, b < bk.length → bk'.getD b 0 =
        bk.getD b 0 + es.countP (fun e => decide (e >>> EF_LOWER_ELE_COUNT = b)) := by
  induction es with
  | nil => intro bk _; exact ⟨bk, rfl, rfl, by simp⟩
  | cons e es ih =>
    intro bk h
    have he : e >>> EF_LOWER_ELE_COUNT < bk.length := h e (by simp)
    obtain ⟨bk', h1, h2, h3⟩ := ih (bk.set (e >>> EF_LOWER_ELE_COUNT)
      (bk.getD (e >>> EF_LOWER_ELE_COUNT) 0 + 1)) (by
        intro x hx; simp only [List.length_set]; exact h x (by simp [hx]))
    refine ⟨bk', ?_, ?_, ?_⟩
    · simp only [countBuckets, he, if_true]; exact h1
    · simpa using h2
    · intro b hb
      rw [h3 b (by simpa using hb), List.countP_cons]
      by_cases hb' : e >>> EF_LOWER_ELE_COUNT = b
      · subst hb'
        simp [List.getD_eq_getElem?_getD, List.getElem?_set, he]
        omega
      · simp [List.getD_eq_getElem?_getD, List.getElem?_set, hb']

theorem unaryBits_snoc (cs : List Nat) (h : cs ≠ []) : ∃ bs, unaryBits cs = bs ++ [false] := by
  induction cs with
  | nil => exact absurd rfl h
  | cons c cs ih =>
    by_cases hcs : cs = []
    · subst hcs; exact ⟨List.replicate c true, by simp [unaryBits]⟩
    · obtain ⟨bs, hbs⟩ := ih hcs
      exact ⟨List.replicate c true ++ false :: bs, by simp [unaryBits, hbs]⟩

theorem length_unaryBits (cs : List Nat) : (unaryBits cs).length = cs.sum + cs.length := by
  induction cs with
  | nil => rfl
  | cons c cs ih => simp [unaryBits, ih]; omega

theorem ofBits_unaryBits_lt (cs : List Nat) (h : cs ≠ []) :
    2 * ofBits (unaryBits cs) < 2 ^ (cs.sum + cs.length) := by
  obtain ⟨bs, hbs⟩ := unaryBits_snoc cs h
  have hl := length_unaryBits cs
  rw [hbs] at hl
  simp only [List.length_append, List.length_singleton] at hl
  rw [hbs, ofBits_append, ← hl, Nat.pow_succ]
  have := ofBits_lt bs
  simp [ofBits]
  omega

theorem packLower_lt (es : List Nat) : packLower es < 512 ^ es.length := by
  induction es with
  | nil => simp [packLower]
  | cons e es ih =>
    simp only [packLower, List.length_cons, Nat.pow_succ]
    have := Nat.mod_lt e (show 0 < 512 by decide)
    omega

theorem packLower_get (es : List Nat) : ∀ j, (packLower es / 512 ^ j) % 512 = es.getD j 0 % 512 := by
  induction es with
  | nil => intro j; simp [packLower]
  | cons e es ih =>
    intro j
    cases j with
    | zero => simp [packLower]
    | succ j =>
      have h : (e % 512 + 512 * packLower es) / 512 ^ (j + 1) = packLower es / 512 ^ j := by
        rw [Nat.pow_succ, Nat.mul_comm (512 ^ j) 512, ← Nat.div_div_eq_div_mul]
        congr 1
        omega
      simp only [packLower, h, ih j, List.getD_cons_succ]

theorem lowerLoop_eq (es : List Nat) : ∀ i result, result < 2 ^ (20 + 9 * i) →
    i + es.length ≤ 12 →
    lowerLoop es i result = result + 2 ^ (20 + 9 * i) * packLower es := by
  induction es with
  | nil => intro i result _ _; simp [lowerLoop, packLower]
  | cons e es ih =>
    intro i result h hi
    simp only [List.length_cons] at hi
    have hmask : e &&& EF_LOWER_MASK = e % 512 := Nat.and_pow_two_sub_one_eq_mod e 9
    have hshift : i * EF_LOWER_ELE_COUNT + EF_UPPER_BV_COUNT = 20 + 9 * i := by
      show i * 9 + 20 = _; omega
    have hlt : e % 512 < 512 := Nat.mod_lt e (by decide)
    have hpow : 2 ^ (20 + 9 * (i + 1)) = 512 * 2 ^ (20 + 9 * i) := by
      rw [show 20 + 9 * (i + 1) = (20 + 9 * i) + 9 by ring, Nat.pow_add]; norm_num; ring
    have hle : 2 ^ (20 + 9 * (i + 1)) ≤ 2 ^ 128 :=
      Nat.pow_le_pow_right (by decide) (by omega)
    have hpos : 0 < 2 ^ (20 + 9 * i) := Nat.pow_pos (by decide)
    have hsmall : (e % 512) * 2 ^ (20 + 9 * i) < 2 ^ 128 := by
      have : (e % 512) * 2 ^ (20 + 9 * i) < 512 * 2 ^ (20 + 9 * i) :=
        Nat.mul_lt_mul_of_pos_right hlt hpos
      omega
    have hor : result ||| (e % 512) * 2 ^ (20 + 9 * i) =
        result + 2 ^ (20 + 9 * i) * (e % 512) := by
      rw [Nat.lor_comm, Nat.mul_comm, ← Nat.mul_add_lt_is_or h]; ring
    have hnext : result + 2 ^ (20 + 9 * i) * (e % 512) < 2 ^ (20 + 9 * (i + 1)) := by
      rw [hpow]
      have : 2 ^ (20 + 9 * i) * (e % 512) ≤ 2 ^ (20 + 9 * i) * 511 :=
        Nat.mul_le_mul_left _ (by omega)
      omega
    rw [lowerLoop]
    simp only [hmask, hshift, Nat.shiftLeft_eq, Nat.mod_eq_of_lt hsmall, hor]
    rw [ih (i + 1) _ hnext (by omega), packLower, hpow]
    ring

theorem elias_fano_encode_eq (v : List Nat) (hlen : v.length = 10) (hv : ∀ e ∈ v, e < 5632) :
    elias_fano_encode v = .ok (ofBits (unaryBits (bucketCounts v)) + 2 ^ 20 * packLower v) ∧
      2 * ofBits (unaryBits (bucketCounts v)) < 2 ^ 21 ∧ (bucketCounts v).sum = 10 := by
  have hup : ∀ e ∈ v, e >>> EF_LOWER_ELE_COUNT < (List.replicate NUM_BUCKETS 0).length := by
    intro e he
    have := hv e he
    show e >>> 9 < (List.replicate 11 0).length
    rw [Nat.shiftRight_eq_div_pow, List.length_replicate]
    omega
  obtain ⟨bk, h1, h2, h3⟩ := countBuckets_ok v _ hup
  have hbk : bk = bucketCounts v := by
    apply List.ext_getElem
    · simp [h2, bucketCounts]
    · intro b hb1 hb2
      have hb : b < (List.replicate NUM_BUCKETS 0).length := by rw [← h2]; exact hb1
      have := h3 b hb
      rw [List.getD_eq_getElem _ _ hb1, List.getD_eq_getElem _ _ hb] at this
      simp [this, bucketCounts]
  subst hbk
  have hlen11 : (bucketCounts v).length = 11 := by simp [bucketCounts]; rfl
  have hsum : (bucketCounts v).sum = 10 := by
    have hs := sum_take_counts (fun e => e >>> EF_LOWER_ELE_COUNT) v (bucketCounts v) (by
      intro b hb
      have := h3 b (by rw [← h2]; exact hb)
      rw [this, List.getD_eq_getElem _ _ (by rw [← h2]; exact hb)]
      simp) 11 (by omega)
    rw [← hlen11, List.take_length] at hs
    rw [hs, hlen11, ← hlen, List.countP_eq_length]
    intro e he
    have := hup e he
    simpa using this
  have hne : bucketCounts v ≠ [] := by
    intro h; rw [h] at hlen11; simp at hlen11
  have hU := ofBits_unaryBits_lt (bucketCounts v) hne
  rw [hsum, hlen11] at hU
  refine ⟨?_, hU, hsum⟩
  have htake : v.take N_L2 = v := List.take_of_length_le (by rw [hlen]; decide)
  have hnlt : ¬ v.length < N_L2 := by rw [hlen]; decide
  rw [elias_fano_encode, if_neg hnlt, htake, h1]
  simp only
  rw [unaryLoop_eq _ 0 0 (by decide)]
  simp only [Nat.pow_zero, Nat.one_mul, Nat.zero_add]
  rw [lowerLoop_eq v 0 _ (by norm_num; omega) (by omega)]

theorem sub64_of_le (a b : Nat) (h : b ≤ a) (ha : a < 2 ^ 64) : sub64 a b = a - b := by
  have h64 : (2 : Nat) ^ 64 = 18446744073709551616 := by norm_num
  unfold sub64
  rw [h64] at *
  omega

/-- Value of the upper part the decoders extract from an encoded record. -/
theorem decode_upper (v : List Nat) (hlen : v.length = 10) (hv : ∀ e ∈ v, e < 5632)
    (hi : Nat) (j : Nat) (hj : j < 10) :
    tzcnt (pdep (1 <<< j)
      ((ofBits (unaryBits (bucketCounts v)) + 2 ^ 20 * hi) % 2 ^ 64)) =
      j + upperAt (bucketCounts v) j ∧ upperAt (bucketCounts v) j ≤ 10 := by
  obtain ⟨_, _, hsum⟩ := elias_fano_encode_eq v hlen hv
  have hlen11 : (bucketCounts v).length = 11 := by simp [bucketCounts]; rfl
  have hup := upperAt_lt (bucketCounts v) j (by omega)
  have hnth := nthTrue_unaryBits (bucketCounts v) j (by omega)
  have hp : j + upperAt (bucketCounts v) j + 1 ≤ 20 := by omega
  have hmod : ((ofBits (unaryBits (bucketCounts v)) + 2 ^ 20 * hi) % 2 ^ 64) %
      2 ^ (j + upperAt (bucketCounts v) j + 1) =
      ofBits (unaryBits (bucketCounts v)) % 2 ^ (j + upperAt (bucketCounts v) j + 1) := by
    rw [Nat.mod_mod_of_dvd _ (Nat.pow_dvd_pow 2 (by omega))]
    obtain ⟨d, hd⟩ := Nat.pow_dvd_pow 2 hp
    rw [hd, Nat.mul_assoc, Nat.add_mul_mod_self_left]
  refine ⟨?_, by omega⟩
  rw [pdep, Nat.shiftLeft_eq, Nat.one_mul,
    pdepAux_nthTrue _ 64 j _ _ hnth hmod (by omega), tzcnt, tzcntAux_two_pow _ 64 (by omega)]

/-- Value of the lower part the decoders extract from a record. -/
theorem decode_lower (v : List Nat) (lo hi : Nat) (hlo : lo < 2 ^ 20) (j : Nat) (hj : j < 10) :
    EF_LOWER_MASK &&& ((lo + 2 ^ 20 * (packLower v + 2 ^ 90 * hi)) >>> (20 + j * 9)) =
      v.getD j 0 % 512 := by
  have hmask : ∀ x, EF_LOWER_MASK &&& x = x % 512 := by
    intro x; rw [Nat.land_comm]; exact Nat.and_pow_two_sub_one_eq_mod x 9
  have h90 : (2 : Nat) ^ 90 = 512 ^ j * (512 * 512 ^ (9 - j)) := by
    rw [← Nat.pow_succ', ← Nat.pow_add, show j + (9 - j + 1) = 10 by omega]; norm_num
  rw [hmask, Nat.shiftRight_eq_div_pow, Nat.pow_add, ← Nat.div_div_eq_div_mul,
    Nat.add_mul_div_left _ _ (by norm_num), Nat.div_eq_of_lt hlo, Nat.zero_add,
    Nat.pow_mul', show (2 : Nat) ^ 9 = 512 by norm_num, h90, Nat.mul_assoc,
    Nat.add_mul_div_left _ _ (Nat.pow_pos (by decide)), Nat.mul_assoc,
    Nat.add_mul_mod_self_left, packLower_get]

theorem or_shift9 (lo up : Nat) (hlo : lo < 512) : lo ||| up * 512 = up * 512 + lo := by
  have := Nat.mul_add_lt_is_or (show lo < 2 ^ 9 by omega) up
  rw [Nat.lor_comm, Nat.mul_comm up 512]
  exact this.symm

/-- Decoding entry `j` of an encoded record below an L1 field, for an input in any order: the
upper part is the bucket of the `j`-th unary one, the lower part is that of `v[j]`. -/
theorem decode_encode_general (v : List Nat) (hlen : v.length = 10) (hv : ∀ e ∈ v, e < 5632)
    (l1 : Nat) (j : Nat) (hj : j < 10) :
    ∃ r, elias_fano_encode v = .ok r ∧ r < 2 ^ 110 ∧
      ef_decode_select (l1 * 2 ^ 110 + r) j =
        upperAt (bucketCounts v) j * 512 + v.getD j 0 % 512 ∧
      ef_decode_rank (l1 * 2 ^ 110 + r) (j + 1) =
        upperAt (bucketCounts v) j * 512 + v.getD j 0 % 512 := by
  obtain ⟨henc, hU, _⟩ := elias_fano_encode_eq v hlen hv
  have hP := packLower_lt v
  rw [hlen] at hP
  have hU' : ofBits (unaryBits (bucketCounts v)) < 2 ^ 20 := by omega
  have hr : l1 * 2 ^ 110 + (ofBits (unaryBits (bucketCounts v)) + 2 ^ 20 * packLower v) =
      ofBits (unaryBits (bucketCounts v)) + 2 ^ 20 * (packLower v + 2 ^ 90 * l1) := by ring
  obtain ⟨hup, hup10⟩ := decode_upper v hlen hv (packLower v + 2 ^ 90 * l1) j hj
  have hlow := decode_lower v _ l1 hU' j hj
  have hlt : v.getD j 0 % 512 < 512 := Nat.mod_lt _ (by decide)
  have hsub : sub64 (j + upperAt (bucketCounts v) j) j = upperAt (bucketCounts v) j := by
    rw [sub64_of_le _ _ (by omega) (by norm_num; omega)]; omega
  have hshl : (upperAt (bucketCounts v) j <<< EF_LOWER_ELE_COUNT) % 2 ^ 64 =
      upperAt (bucketCounts v) j * 512 := by
    show (upperAt (bucketCounts v) j <<< 9) % 2 ^ 64 = _
    rw [Nat.shiftLeft_eq, Nat.mod_eq_of_lt (by norm_num; omega)]
  have hsub1 : sub64 (j + upperAt (bucketCounts v) j + 1) (j + 1) =
      upperAt (bucketCounts v) j := by
    rw [sub64_of_le _ _ (by omega) (by norm_num; omega)]; omega
  have e1 : EF_UPPER_BV_COUNT = 20 := rfl
  have e2 : EF_LOWER_ELE_COUNT = 9 := rfl
  refine ⟨_, henc, by norm_num at hP hU' ⊢; omega, ?_, ?_⟩
  · rw [hr]
    unfold ef_decode_select
    simp only
    rw [hup, hsub, hshl, ← Nat.shiftRight_add, e1, e2, hlow, or_shift9 _ _ hlt]
  · rw [hr]
    unfold ef_decode_rank
    simp only [Nat.add_sub_cancel]
    rw [hup, hsub1, hshl, e1, e2, hlow, or_shift9 _ _ hlt]

theorem sorted_countP_lt (f : Nat → Nat) (hf : ∀ a b, a ≤ b → f a ≤ f b) (v : List Nat)
    (hs : v.Pairwise (· ≤ ·)) (j : Nat) (hj : j < v.length) :
    v.countP (fun e => decide (f e < f (v.getD j 0))) ≤ j ∧
      j < v.countP (fun e => decide (f e < f (v.getD j 0) + 1)) := by
  have hget : v.getD j 0 = v[j] := List.getD_eq_getElem _ _ hj
  rw [hget]
  have hpw := List.pairwise_iff_getElem.mp hs
  constructor
  · have hsplit := List.take_append_drop j v
    have h0 : (v.drop j).countP (fun e => decide (f e < f v[j])) = 0 := by
      rw [List.countP_eq_zero]
      intro x hx
      obtain ⟨i, hi, rfl⟩ := List.getElem_of_mem hx
      rw [List.getElem_drop]
      have hi' : j + i < v.length := by simp at hi; omega
      have : v[j] ≤ v[j + i] := by
        by_cases h : i = 0
        · subst h; simp
        · exact hpw j (j + i) hj hi' (by omega)
      have := hf _ _ this
      simp; omega
    have h1 : (v.take j).countP (fun e => decide (f e < f v[j])) ≤ j := by
      have := List.countP_le_length (fun e => decide (f e < f v[j])) (l := v.take j)
      simp at this; omega
    calc v.countP (fun e => decide (f e < f v[j]))
        = (v.take j ++ v.drop j).countP (fun e => decide (f e < f v[j])) := by rw [hsplit]
      _ ≤ j := by rw [List.countP_append, h0]; omega
  · have hsplit := List.take_append_drop (j + 1) v
    have h1 : (v.take (j + 1)).countP (fun e => decide (f e < f v[j] + 1)) = j + 1 := by
      have hl : (v.take (j + 1)).length = j + 1 := by simp; omega
      refine Eq.trans (List.countP_eq_length.mpr ?_) hl
      intro x hx
      obtain ⟨i, hi, rfl⟩ := List.getElem_of_mem hx
      rw [List.getElem_take]
      have hi' : i < j + 1 := by rw [hl] at hi; exact hi
      have : v[i] ≤ v[j] := by
        by_cases h : i = j
        · subst h; exact Nat.le_refl _
        · exact hpw i j (by omega) hj (by omega)
      have := hf _ _ this
      simp; omega
    calc j < (v.take (j + 1)).countP (fun e => decide (f e < f v[j] + 1)) := by rw [h1]; omega
      _ ≤ (v.take (j + 1) ++ v.drop (j + 1)).countP (fun e => decide (f e < f v[j] + 1)) := by
          rw [List.countP_append]; omega
      _ = v.countP (fun e => decide (f e < f v[j] + 1)) := by rw [hsplit]

theorem bucketCounts_getD (v : List Nat) (b : Nat) (hb : b < (bucketCounts v).length) :
    (bucketCounts v).getD b 0 = v.countP (fun e => decide (e >>> EF_LOWER_ELE_COUNT = b)) := by
  rw [List.getD_eq_getElem _ _ hb]
  simp [bucketCounts]

/-- For a non-decreasing input the `j`-th unary one lies in the bucket of `v[j]`. -/
theorem upperAt_sorted (v : List Nat) (hlen : v.length = 10) (hv : ∀ e ∈ v, e < 5632)
    (hs : v.Pairwise (· ≤ ·)) (j : Nat) (hj : j < 10) :
    upperAt (bucketCounts v) j = v.getD j 0 / 512 := by
  have hlen11 : (bucketCounts v).length = 11 := by simp [bucketCounts]; rfl
  have hmem : v.getD j 0 ∈ v := by
    rw [List.getD_eq_getElem _ _ (by omega)]; exact List.getElem_mem _
  have hk : v.getD j 0 / 512 < 11 := by have := hv _ hmem; omega
  have hmono : ∀ a b : Nat, a ≤ b → a >>> EF_LOWER_ELE_COUNT ≤ b >>> EF_LOWER_ELE_COUNT := by
    intro a b hab
    show a >>> 9 ≤ b >>> 9
    rw [Nat.shiftRight_eq_div_pow, Nat.shiftRight_eq_div_pow]
    exact Nat.div_le_div_right hab
  have hup : v.getD j 0 >>> EF_LOWER_ELE_COUNT = v.getD j 0 / 512 := by
    show v.getD j 0 >>> 9 = _
    rw [Nat.shiftRight_eq_div_pow]
  obtain ⟨h1, h2⟩ := sorted_countP_lt (fun e => e >>> EF_LOWER_ELE_COUNT) hmono v hs j (by omega)
  simp only [hup] at h1 h2
  have hs1 := sum_take_counts (fun e => e >>> EF_LOWER_ELE_COUNT) v (bucketCounts v)
    (bucketCounts_getD v) (v.getD j 0 / 512) (by omega)
  have hs2 := sum_take_counts (fun e => e >>> EF_LOWER_ELE_COUNT) v (bucketCounts v)
    (bucketCounts_getD v) (v.getD j 0 / 512 + 1) (by omega)
  exact upperAt_eq _ j _ (by omega) (by rw [hs1]; exact h1) (by rw [hs2]; exact h2)

/-- C5: for every non-decreasing sequence `v` of `N_L2 = 10` values in `[0, L2_UNIVERSE]`,
`elias_fano_encode` returns a record `r`, and decoding entry `j` of `r` the way `select1` does
(and the way `rank1` does, for `iob = j + 1`) returns `v[j]`, for every `j` in `0..9`. -/
theorem elias_fano_round_trip (v : List Nat) (hlen : v.length = N_L2)
    (hsorted : v.Pairwise (· ≤ ·)) (hbound : ∀ e ∈ v, e ≤ L2_UNIVERSE) :
    ∃ r, elias_fano_encode v = .ok r ∧
      ∀ j, j < N_L2 → ef_decode_select r j = v.getD j 0 ∧
        ef_decode_rank r (j + 1) = v.getD j 0 := by
  have hlen' : v.length = 10 := hlen
  have hv : ∀ e ∈ v, e < 5632 := by
    intro e he
    have : e ≤ 5120 := hbound e he
    omega
  obtain ⟨henc, _, _⟩ := elias_fano_encode_eq v hlen' hv
  refine ⟨_, henc, ?_⟩
  intro j hj
  obtain ⟨r, hr, _, h1, h2⟩ := decode_encode_general v hlen' hv 0 j hj
  rw [henc] at hr
  cases hr
  rw [Nat.zero_mul, Nat.zero_add] at h1 h2
  rw [h1, h2, upperAt_sorted v hlen' hv hsorted j hj]
  constructor <;> omega

/-- C5, instance: the round trip at `v = [1, 2, 3, 600, 700, 1024, 2000, 2000, 5000, 5120]`. -/
theorem elias_fano_round_trip_witness :
    ([1, 2, 3, 600, 700, 1024, 2000, 2000, 5000, 5120].length = N_L2 ∧
      [1, 2, 3, 600, 700, 1024, 2000, 2000, 5000, 5120].Pairwise (· ≤ ·) ∧
      ∀ e ∈ [1, 2, 3, 600, 700, 1024, 2000, 2000, 5000, 5120], e ≤ L2_UNIVERSE) ∧
    ∃ r, elias_fano_encode [1, 2, 3, 600, 700, 1024, 2000, 2000, 5000, 5120] = .ok r ∧
      ∀ j, j < N_L2 →
        ef_decode_select r j = [1, 2, 3, 600, 700, 1024, 2000, 2000, 5000, 5120].getD j 0 ∧
        ef_decode_rank r (j + 1) = [1, 2, 3, 600, 700, 1024, 2000, 2000, 5000, 5120].getD j 0 :=
  ⟨⟨by rfl, by decide, by decide⟩,
    elias_fano_round_trip _ (by rfl) (by decide) (by decide)⟩

/-- The encoder returns a record below `2^110` for ten values below 5632, in any order. -/
theorem elias_fano_encode_ok (v : List Nat) (hlen : v.length = 10) (hv : ∀ e ∈ v, e < 5632) :
    ∃ r, elias_fano_encode v = .ok r ∧ r < 2 ^ 110 := by
  obtain ⟨r, h1, h2, _⟩ := decode_encode_general v hlen hv 0 0 (by decide)
  exact ⟨r, h1, h2⟩

/-! ## Word sums and the naive popcount -/

theorem popcountAux_eq_sum (k : Nat) : ∀ w : Nat,
    popcountAux k w = ((List.range k).map (fun b => (w >>> b) % 2)).sum := by
  induction k with
  | zero => intro w; rfl
  | succ k ih =>
    intro w
    rw [popcountAux, ih, List.range_succ_eq_map, List.map_cons, List.sum_cons, List.map_map]
    congr 2
    apply List.map_congr_left
    intro b _
    simp only [Function.comp, Nat.shiftRight_eq_div_pow, Nat.pow_succ, Nat.div_div_eq_div_mul,
      Nat.mul_comm]
  
theorem popcountAux_le (k : Nat) : ∀ w : Nat, popcountAux k w ≤ k := by
  induction k with
  | zero => intro w; simp [popcountAux]
  | succ k ih => intro w; have := ih (w / 2); rw [popcountAux]; omega

theorem popcount_le (w : Nat) : popcount w ≤ 64 := by
  unfold popcount; exact popcountAux_le 64 w

theorem popcount_zero : popcount 0 = 0 := by rfl

theorem wordSum_succ (bv : List Nat) (k : Nat) :
    wordSum bv (k + 1) = wordSum bv k + popcount (bv.getD k 0) := by
  have h : ((bv[k]?.toList).map popcount).sum = popcount (bv.getD k 0) := by
    by_cases h : k < bv.length
    · simp [List.getElem?_eq_getElem h, List.getD_eq_getElem _ _ h]
    · simp [List.getElem?_eq_none (Nat.le_of_not_lt h),
        List.getD_eq_default _ _ (Nat.le_of_not_lt h), popcount_zero]
  unfold wordSum
  rw [List.take_succ, List.map_append, List.sum_append, h]

theorem wordSum_zero (bv : List Nat) : wordSum bv 0 = 0 := by simp [wordSum]

theorem wordSum_add_le (bv : List Nat) (a : Nat) : ∀ m,
    wordSum bv a ≤ wordSum bv (a + m) ∧ wordSum bv (a + m) ≤ wordSum bv a + 64 * m := by
  intro m
  induction m with
  | zero => simp
  | succ m ih =>
    rw [← Nat.add_assoc, wordSum_succ]
    have := popcount_le (bv.getD (a + m) 0)
    omega

theorem wordSum_mono (bv : List Nat) {a b : Nat} (h : a ≤ b) : wordSum bv a ≤ wordSum bv b := by
  obtain ⟨m, rfl⟩ := Nat.exists_eq_add_of_le h
  exact (wordSum_add_le bv a m).1

theorem countOnes_succ (bv : List Nat) (i : Nat) :
    countOnes bv (i + 1) = countOnes bv i + bitAt bv i := by
  simp [countOnes, List.range_succ]

theorem countOnes_add (bv : List Nat) (a b : Nat) :
    countOnes bv (a + b) = countOnes bv a + ((List.range b).map (fun t => bitAt bv (a + t))).sum := by
  induction b with
  | zero => simp
  | succ b ih =>
    rw [← Nat.add_assoc, countOnes_succ, ih, List.range_succ, List.map_append, List.sum_append]
    simp
    omega

theorem countOnes_word (bv : List Nat) (k : Nat) :
    countOnes bv (64 * (k + 1)) = countOnes bv (64 * k) + popcount (bv.getD k 0) := by
  rw [show 64 * (k + 1) = 64 * k + 64 by ring, countOnes_add, popcount, popcountAux_eq_sum]
  congr 2
  apply List.map_congr_left
  intro b hb
  have hb' : b < 64 := by simpa using hb
  unfold bitAt
  rw [show (64 * k + b) / 64 = k by omega, show (64 * k + b) % 64 = b by omega]

/-- The naive popcount of whole words is the sum of the word popcounts. -/
theorem countOnes_words (bv : List Nat) (k : Nat) : countOnes bv (64 * k) = wordSum bv k := by
  induction k with
  | zero => simp [countOnes, wordSum]
  | succ k ih => rw [countOnes_word, wordSum_succ, ih]

theorem readAt_ok {fault : Nat → Fault} {arr : List Nat} {idx : Nat} (h : idx < arr.length) :
    readAt fault arr idx = .ok (arr.getD idx 0) := by
  simp [readAt, List.getElem?_eq_getElem h, List.getD_eq_getElem _ _ h]

theorem basicBlockLoop_ok (bv : List Nat) (off : Nat) : ∀ k j acc, off + j + k ≤ bv.length →
    basicBlockLoop bv off k j acc =
      .ok (acc + (wordSum bv (off + j + k) - wordSum bv (off + j))) := by
  intro k
  induction k with
  | zero => intro j acc _; simp [basicBlockLoop]
  | succ k ih =>
    intro j acc h
    rw [basicBlockLoop, readAt_ok (by omega)]
    simp only
    rw [ih (j + 1) _ (by omega)]
    have h1 := wordSum_succ bv (off + j)
    have h2 := wordSum_mono bv (show off + j + 1 ≤ off + (j + 1) + k by omega)
    rw [show off + (j + 1) + k = off + j + (k + 1) by omega] at *
    rw [show off + (j + 1) = off + j + 1 by omega] at *
    have h3 : acc + popcount (bv.getD (off + j) 0) +
        (wordSum bv (off + j + (k + 1)) - wordSum bv (off + j + 1)) =
        acc + (wordSum bv (off + j + (k + 1)) - wordSum bv (off + j)) := by omega
    rw [h3]

/-! ## The build pass -/

theorem writeRecord_ok (l1l2 : List Nat) (idx cwu : Nat) (l2 : List Nat)
    (hidx : idx < l1l2.length) (hlen : l2.length = 11)
    (hb : ∀ t, 1 ≤ t → t ≤ 10 → l2.getD t 0 ≤ 5120) :
    ∃ ef, elias_fano_encode (l2.drop 1) = .ok ef ∧ ef < 2 ^ 110 ∧
      writeRecord l1l2 idx cwu l2 = .ok (l1l2.set idx
        ((l1l2.getD idx 0 ||| (cwu <<< EF_TOTAL_COUNT) % 2 ^ 128) ||| ef % 2 ^ 128)) := by
  have hv : ∀ e ∈ l2.drop 1, e < 5632 := by
    intro e he
    obtain ⟨t, ht, rfl⟩ := List.getElem_of_mem he
    have ht' : t < 10 := by simp [hlen] at ht; omega
    have := hb (1 + t) (by omega) (by omega)
    rw [List.getD_eq_getElem _ _ (by omega)] at this
    rw [List.getElem_drop]
    omega
  obtain ⟨ef, hef, hlt⟩ := elias_fano_encode_ok (l2.drop 1) (by simp [hlen]) hv
  refine ⟨ef, hef, hlt, ?_⟩
  simp only [writeRecord, orAt, hidx, if_true, hef, List.length_set, List.set_set]
  congr 2
  simp [List.getD_eq_getElem?_getD, List.getElem?_set, hidx]

theorem getD_set_le (l : List Nat) (a v t B : Nat) (hv : t = a → v ≤ B) (hl : l.getD t 0 ≤ B) :
    (l.set a v).getD t 0 ≤ B := by
  rw [List.getD_eq_getElem?_getD, List.getElem?_set]
  by_cases h : a = t
  · subst h
    by_cases h2 : a < l.length
    · simp [h2]; exact hv rfl
    · simp [h2]
  · simp only [h, if_false]
    rw [← List.getD_eq_getElem?_getD]; exact hl

theorem getD_set_self (l : List Nat) (a v : Nat) (h : a < l.length) :
    (l.set a v).getD a 0 = v := by
  rw [List.getD_eq_getElem?_getD, List.getElem?_set]
  simp [h]

theorem getD_set_ne (l : List Nat) (a v k : Nat) (h : a ≠ k) :
    (l.set a v).getD k 0 = l.getD k 0 := by
  rw [List.getD_eq_getElem?_getD, List.getElem?_set, if_neg h, ← List.getD_eq_getElem?_getD]

/-- At the end of a lower block the slots 1..10 of `l2_counts` are the counts of that block. -/
theorem drop_one_eq_blockCounts (bv l2 : List Nat) (K : Nat) (hlen : l2.length = 11)
    (h : ∀ t, 1 ≤ t → t ≤ 10 →
      l2.getD t 0 = wordSum bv (88 * K + 8 * t) - wordSum bv (88 * K)) :
    l2.drop 1 = blockCounts bv K := by
  apply List.ext_getElem
  · simp [hlen, blockCounts]
  · intro j h1 h2
    have hj : j < 10 := by simpa [blockCounts] using h2
    have := h (1 + j) (by omega) (by omega)
    rw [List.getD_eq_getElem _ _ (by omega)] at this
    rw [List.getElem_drop, this]
    simp only [blockCounts, List.getElem_map, List.getElem_range]
    rw [show 1 + j = j + 1 by omega]

/-- Value of a record assembled from an L1 count below `2^18` and a payload below `2^110`. -/
theorem record_value (l1 ef : Nat) (h1 : l1 < 2 ^ 18) (h2 : ef < 2 ^ 110) :
    (0 ||| (l1 <<< EF_TOTAL_COUNT) % 2 ^ 128) ||| ef % 2 ^ 128 = l1 * 2 ^ 110 + ef := by
  have e : EF_TOTAL_COUNT = 110 := rfl
  have hlt : l1 * 2 ^ 110 < 2 ^ 128 := by
    have : l1 * 2 ^ 110 < 2 ^ 18 * 2 ^ 110 := Nat.mul_lt_mul_of_pos_right h1 (by norm_num)
    rw [← Nat.pow_add] at this
    exact this
  rw [e, Nat.zero_or, Nat.shiftLeft_eq, Nat.mod_eq_of_lt hlt,
    Nat.mod_eq_of_lt (Nat.lt_trans h2 (by norm_num)), Nat.mul_comm,
    ← Nat.mul_add_lt_is_or h2]

theorem content_set (l : List Nat) (f : Nat → Nat) (m v : Nat) (hlen : 1 + m < l.length)
    (h : ∀ k, k ≤ m → l.getD k 0 = f k) (hv : v = f (m + 1)) :
    ∀ k, k ≤ m + 1 → (l.set (1 + m) v).getD k 0 = f k := by
  intro k hk
  by_cases hkm : k = m + 1
  · subst hkm
    rw [show 1 + m = m + 1 by omega, getD_set_self _ _ _ (by omega), hv]
  · rw [getD_set_ne _ _ _ _ (by omega)]
    exact h k (by omega)

theorem buildStep_ok (bv : List Nat) (nl0 nsel nlb i : Nat) (s : BuildState)
    (inv : BuildInv bv nl0 nsel nlb i s) (hbv : 8 * (i + 1) ≤ bv.length)
    (hlb : (i + 1) % 11 = 0 → i / 11 < nlb)
    (hl0 : (i + 1) % 506 = 0 → i / 506 < nl0)
    (hsel : (i + 1) % 8388468 = 0 → i / 8388468 < nsel) :
    ∃ s', buildStep bv (i + 1) s = .ok s' ∧ BuildInv bv nl0 nsel nlb (i + 1) s' := by
  obtain ⟨l0, sel, l1l2, l0i, seli, l1i, hot, cwu, cwl, l2⟩ := s
  obtain ⟨h1, h2, h3, h4, h5, h6, h7, h8, h9, h10, h11, h12, h13, h14, h15, h16, h17, h18, h19,
    h20⟩ := inv
  simp only at h1 h2 h3 h4 h5 h6 h7 h8 h9 h10 h11 h12 h13 h14 h15 h16 h17 h18 h19 h20
  subst h1 h2 h3 h4
  have hbb := basicBlockLoop_ok bv (i * 8) 8 0 0 (by omega)
  have e1 : i * 8 + 0 + 8 = 8 * (i + 1) := by ring
  have e2 : i * 8 + 0 = 8 * i := by ring
  rw [e1, e2, Nat.zero_add] at hbb
  have m1 := wordSum_add_le bv (8 * i) 8
  rw [show 8 * i + 8 = 8 * (i + 1) by ring] at m1
  have m2 := wordSum_add_le bv (88 * (i / 11)) (8 * (i % 11))
  rw [show 88 * (i / 11) + 8 * (i % 11) = 8 * i by omega] at m2
  have m3 := wordSum_mono bv (show 4048 * (i / 506) ≤ 88 * (i / 11) by omega)
  have m4 := wordSum_add_le bv (4048 * (i / 506)) (88 * (i / 11) - 4048 * (i / 506))
  rw [show 4048 * (i / 506) + (88 * (i / 11) - 4048 * (i / 506)) = 88 * (i / 11) by omega] at m4
  have c1 : LOWER_BLOCK_COUNT / BASIC_BLOCK_COUNT = 11 := rfl
  have c2 : UPPER_BLOCK_COUNT / BASIC_BLOCK_COUNT = 506 := rfl
  have c3 : SELECT_UPPER_BLOCK_COUNT / BASIC_BLOCK_COUNT = 8388468 := rfl
  have c4 : BASIC_BLOCK_SIZE / 8 = 8 := rfl
  have c5 : N_L2 + 1 = 11 := rfl
  have hV : cwl + (wordSum bv (8 * (i + 1)) - wordSum bv (8 * i)) =
      wordSum bv (8 * (i + 1)) - wordSum bv (88 * (i / 11)) := by omega
  have hH : wordSum bv (8 * i) + (wordSum bv (8 * (i + 1)) - wordSum bv (8 * i)) =
      wordSum bv (8 * (i + 1)) := by omega
  have hl2len : (l2.set ((i + 1) % 11)
      (wordSum bv (8 * (i + 1)) - wordSum bv (88 * (i / 11)))).length = 11 := by
    simpa using h7
  have hl2b : ∀ t, 1 ≤ t → t ≤ 10 →
      (l2.set ((i + 1) % 11) (wordSum bv (8 * (i + 1)) - wordSum bv (88 * (i / 11)))).getD t 0
        ≤ 5120 := by
    intro t ht1 ht2
    apply getD_set_le _ _ _ _ _ _ (h8 t ht1 ht2)
    intro ht
    omega
  -- the fresh slots after the write into `l2_counts`
  have hfresh : ∀ t, 1 ≤ t → t ≤ (i % 11) + 1 → t ≤ 10 →
      (l2.set ((i + 1) % 11) (wordSum bv (8 * (i + 1)) - wordSum bv (88 * (i / 11)))).getD t 0 =
        wordSum bv (88 * (i / 11) + 8 * t) - wordSum bv (88 * (i / 11)) := by
    intro t ht1 ht2 ht3
    by_cases ht : t = (i % 11) + 1
    · have hidx : (i + 1) % 11 = t := by omega
      rw [hidx, getD_set_self _ _ _ (by omega),
        show 88 * (i / 11) + 8 * t = 8 * (i + 1) by omega]
    · rw [getD_set_ne _ _ _ _ (by omega)]
      exact h12 t ht1 (by omega)
  unfold buildStep
  simp only [c1, c2, c3, c4, c5, Nat.add_sub_cancel, hbb, hV, hH]
  by_cases hL : (i + 1) % 11 = 0
  · -- end of a lower block
    obtain ⟨ef, hef, heflt, hw⟩ := writeRecord_ok l1l2 (i / 11) cwu _
      (by rw [h11]; exact hlb hL) hl2len hl2b
    have hbc := drop_one_eq_blockCounts bv _ (i / 11) hl2len
      (fun t ht1 ht2 => hfresh t ht1 (by omega) ht2)
    rw [hbc] at hef
    have hcwu : cwu < 2 ^ 18 := by norm_num; omega
    have hrec := record_value cwu ef hcwu heflt
    rw [h16 (i / 11) (Nat.le_refl _), hrec] at hw
    have eL : 88 * (i / 11 + 1) = 8 * (i + 1) := by omega
    have eL' : (i + 1) / 11 = i / 11 + 1 := by omega
    have eLm : (i + 1) % 11 = 0 := hL
    have hlbL : i / 11 < nlb := hlb hL
    simp only [hL] at hw hl2b hl2len
    simp only [hL, if_true, endOfLower, hw]
    have hwritten : ∀ k, k < i / 11 + 1 → ∃ ef', elias_fano_encode (blockCounts bv k) = .ok ef' ∧
        ef' < 2 ^ 110 ∧ (l1l2.set (i / 11) (cwu * 2 ^ 110 + ef)).getD k 0 =
          (wordSum bv (88 * k) - wordSum bv (4048 * (k / 46))) * 2 ^ 110 + ef' := by
      intro k hk
      by_cases hki : k = i / 11
      · subst hki
        refine ⟨ef, hef, heflt, ?_⟩
        rw [getD_set_self _ _ _ (by rw [h11]; exact hlb hL),
          show i / 11 / 46 = i / 506 by omega, h6]
      · obtain ⟨ef', he1, he2, he3⟩ := h15 k (by omega)
        exact ⟨ef', he1, he2, by rw [getD_set_ne _ _ _ _ (by omega)]; exact he3⟩
    have hunwritten : ∀ k, i / 11 + 1 ≤ k →
        (l1l2.set (i / 11) (cwu * 2 ^ 110 + ef)).getD k 0 = 0 := by
      intro k hk
      rw [getD_set_ne _ _ _ _ (by omega)]
      exact h16 k (by omega)
    by_cases hU : (i + 1) % 506 = 0
    · have eU : 4048 * (i / 506 + 1) = 8 * (i + 1) := by omega
      have eU' : (i + 1) / 506 = i / 506 + 1 := by omega
      have hidx : 1 + i / 506 < l0.length := by rw [h9]; have := hl0 hU; omega
      have hl0U : i / 506 < nl0 := hl0 hU
      have hl0c := content_set l0 (fun k => wordSum bv (4048 * k)) (i / 506)
        (wordSum bv (8 * (i + 1))) hidx h13 (by simp only [eU])
      simp only [hU, if_true, endOfUpper, writeAt, hidx]
      by_cases hS : (i + 1) % 8388468 = 0
      · have eS : 67107744 * (i / 8388468 + 1) = 8 * (i + 1) := by omega
        have eS' : (i + 1) / 8388468 = i / 8388468 + 1 := by omega
        have hidx2 : 1 + i / 8388468 < sel.length := by rw [h10]; have := hsel hS; omega
        have hselS : i / 8388468 < nsel := hsel hS
        have hselc := content_set sel (fun k => wordSum bv (67107744 * k)) (i / 8388468)
          (wordSum bv (8 * (i + 1))) hidx2 h14 (by simp only [eS])
        simp only [hS, if_true, endOfSelectUpper, writeAt, hidx2]
        refine ⟨_, rfl, ?_⟩
        constructor
        rotate_left 11
        · intro t ht1 ht2; rw [hL] at ht2; omega
        · simp only [eU']; exact hl0c
        · simp only [eS']; exact hselc
        · simp only [eL']; exact hwritten
        · simp only [eL']; exact hunwritten
        all_goals try simp only [List.length_set, eL', eU', eS', eL, eU]
        all_goals first | assumption | omega
      · have eS' : (i + 1) / 8388468 = i / 8388468 := by omega
        simp only [hS, if_false]
        refine ⟨_, rfl, ?_⟩
        constructor
        rotate_left 11
        · intro t ht1 ht2; rw [hL] at ht2; omega
        · simp only [eU']; exact hl0c
        · simp only [eS']; exact h14
        · simp only [eL']; exact hwritten
        · simp only [eL']; exact hunwritten
        all_goals try simp only [List.length_set, eL', eU', eS', eL, eU]
        all_goals first | assumption | omega
    · have eU' : (i + 1) / 506 = i / 506 := by omega
      have hS : ¬ (i + 1) % 8388468 = 0 := by omega
      have eS' : (i + 1) / 8388468 = i / 8388468 := by omega
      simp only [hU, hS, if_false]
      refine ⟨_, rfl, ?_⟩
      constructor
      rotate_left 11
      · intro t ht1 ht2; rw [hL] at ht2; omega
      · simp only [eU']; exact h13
      · simp only [eS']; exact h14
      · simp only [eL']; exact hwritten
      · simp only [eL']; exact hunwritten
      all_goals try simp only [List.length_set, eL', eU', eS', eL]
      all_goals first | assumption | omega
  · have eL' : (i + 1) / 11 = i / 11 := by omega
    have eLm : (i + 1) % 11 = i % 11 + 1 := by omega
    have hU : ¬ (i + 1) % 506 = 0 := by omega
    have eU' : (i + 1) / 506 = i / 506 := by omega
    have hS : ¬ (i + 1) % 8388468 = 0 := by omega
    have eS' : (i + 1) / 8388468 = i / 8388468 := by omega
    simp only [hL, hU, hS, if_false]
    refine ⟨_, rfl, ?_⟩
    constructor
    rotate_left 11
    ·
      intro t ht1 ht2
      simp only [eL']
      exact hfresh t ht1 (by omega) (by omega)
    · simp only [eU']; exact h13
    · simp only [eS']; exact h14
    · simp only [eL']; exact h15
    · simp only [eL']; exact h16
    all_goals try simp only [List.length_set, eL', eU', eS']
    all_goals assumption

theorem buildLoop_ok (bv : List Nat) (nl0 nsel nlb : Nat) : ∀ (k i : Nat) (s : BuildState),
    BuildInv bv nl0 nsel nlb i s → 8 * (i + k) ≤ bv.length → (i + k) / 11 ≤ nlb →
    (i + k) / 506 ≤ nl0 → (i + k) / 8388468 ≤ nsel →
    ∃ s', buildLoop bv k (i + 1) s = .ok s' ∧ BuildInv bv nl0 nsel nlb (i + k) s' := by
  intro k
  induction k with
  | zero => intro i s inv _ _ _ _; exact ⟨s, rfl, inv⟩
  | succ k ih =>
    intro i s inv hbv hlb hl0 hsel
    obtain ⟨s1, hs1, inv1⟩ := buildStep_ok bv nl0 nsel nlb i s inv (by omega)
      (by intro h; omega) (by intro h; omega) (by intro h; omega)
    obtain ⟨s2, hs2, inv2⟩ := ih (i + 1) s1 inv1 (by omega)
      (by rw [show i + 1 + k = i + (k + 1) by omega]; exact hlb)
      (by rw [show i + 1 + k = i + (k + 1) by omega]; exact hl0)
      (by rw [show i + 1 + k = i + (k + 1) by omega]; exact hsel)
    refine ⟨s2, ?_, ?_⟩
    · rw [buildLoop, hs1]; exact hs2
    · rw [show i + (k + 1) = i + 1 + k by omega]; exact inv2

theorem sampleLoop_ok (bv : List Nat) (base : Nat) : ∀ k j cum next tmp,
    base + j + k ≤ bv.length → ∃ r, sampleLoop bv base k j cum next tmp = .ok r := by
  intro k
  induction k with
  | zero => intro j cum next tmp _; exact ⟨tmp, rfl⟩
  | succ k ih =>
    intro j cum next tmp h
    rw [sampleLoop, readAt_ok (by omega)]
    simp only
    split
    · exact ih _ _ _ _ (by omega)
    · exact ih _ _ _ _ (by omega)

theorem sampleBuckets_ok (bv : List Nat) (n nsel : Nat) : ∀ k i acc,
    (∀ t, i ≤ t → t < i + k →
      t * (SELECT_UPPER_BLOCK_COUNT / 64) + wordsInBucket n nsel t ≤ bv.length) →
    ∃ r, sampleBuckets bv n nsel k i acc = .ok r ∧ r.length = acc.length + k := by
  intro k
  induction k with
  | zero => intro i acc _; exact ⟨acc, rfl, rfl⟩
  | succ k ih =>
    intro i acc h
    have hi := h i (Nat.le_refl _) (by omega)
    obtain ⟨tmp, htmp⟩ := sampleLoop_ok bv (i * (SELECT_UPPER_BLOCK_COUNT / 64))
      (wordsInBucket n nsel i) 0 0 1 [] (by omega)
    obtain ⟨r, hr, hlen⟩ := ih (i + 1) (acc ++ [tmp]) (by intro t h1 h2; exact h t (by omega) (by omega))
    refine ⟨r, ?_, by rw [hlen]; simp; omega⟩
    rw [sampleBuckets]
    have : sampleBucket bv n nsel i = .ok tmp := htmp
    rw [this]
    exact hr

theorem buildInv_init (bv : List Nat) (nl0 nsel nlb : Nat) :
    BuildInv bv nl0 nsel nlb 0
      { l0 := List.replicate (nl0 + 1) 0
        select_l0 := List.replicate (nsel + 1) 0
        l1l2 := List.replicate nlb 0
        l0_idx := 1
        select_l0_idx := 1
        l1l2_idx := 0
        hot_count_total := 0
        count_within_upper := 0
        count_within_lower := 0
        l2_counts := List.replicate (N_L2 + 1) 0 } := by
  have hrep : ∀ m k : Nat, (List.replicate m 0).getD k 0 = 0 := by
    intro m k
    rw [List.getD_eq_getElem?_getD, List.getElem?_replicate]
    split <;> rfl
  constructor
  rotate_left 11
  · intro t ht1 ht2; omega
  · intro k hk
    have : k = 0 := by omega
    subst this
    simp only [hrep]
    rfl
  · intro k hk
    have : k = 0 := by omega
    subst this
    simp only [hrep]
    rfl
  · intro k hk; omega
  · intro k _; exact hrep _ _
  all_goals simp [wordSum]
  all_goals rfl

/-- The constructor succeeds when all its accesses are in range, and then stores the word sums
described by `BuiltIndex`. -/
theorem Orzo_ok (bv : List Nat) (n : Nat)
    (hbv : 8 * ceilDivF32 n BASIC_BLOCK_COUNT ≤ bv.length)
    (hlb : ceilDivF32 n BASIC_BLOCK_COUNT / 11 < ceilDivF32 n LOWER_BLOCK_COUNT)
    (hl0 : ceilDivF32 n BASIC_BLOCK_COUNT / 506 < ceilDivF32 n UPPER_BLOCK_COUNT)
    (hsel : ceilDivF32 n BASIC_BLOCK_COUNT / 8388468 < ceilDivF32 n SELECT_UPPER_BLOCK_COUNT)
    (hsamp : ∀ t, t < ceilDivF32 n SELECT_UPPER_BLOCK_COUNT →
      t * (SELECT_UPPER_BLOCK_COUNT / 64) +
        wordsInBucket n (ceilDivF32 n SELECT_UPPER_BLOCK_COUNT) t ≤ bv.length) :
    ∃ idx, Orzo bv n = .ok idx ∧ BuiltIndex bv n idx := by
  obtain ⟨s, hs, inv⟩ := buildLoop_ok bv (ceilDivF32 n UPPER_BLOCK_COUNT)
    (ceilDivF32 n SELECT_UPPER_BLOCK_COUNT) (ceilDivF32 n LOWER_BLOCK_COUNT)
    (ceilDivF32 n BASIC_BLOCK_COUNT) 0 _ (buildInv_init bv _ _ _)
    (by omega) (by omega) (by omega) (by omega)
  rw [Nat.zero_add] at hs inv
  obtain ⟨h1, h2, h3, h4, h5, h6, h7, h8, h9, h10, h11, h12, h13, h14, h15, h16, h17, h18, h19,
    h20⟩ := inv
  have hw0 : s.l0_idx < s.l0.length := by rw [h3, h9]; omega
  obtain ⟨ef, _, heflt, hw⟩ := writeRecord_ok s.l1l2 s.l1l2_idx s.count_within_upper s.l2_counts
    (by rw [h2, h11]; exact hlb) h7 h8
  have hws : s.select_l0_idx < s.select_l0.length := by rw [h4, h10]; omega
  obtain ⟨tmp, htmp, htl⟩ := sampleBuckets_ok bv n (ceilDivF32 n SELECT_UPPER_BLOCK_COUNT)
    (ceilDivF32 n SELECT_UPPER_BLOCK_COUNT) 0 [] (by
      intro t _ ht; exact hsamp t (by omega))
  have m3 := wordSum_add_le bv (4048 * (ceilDivF32 n BASIC_BLOCK_COUNT / 506))
    (88 * (ceilDivF32 n BASIC_BLOCK_COUNT / 11) - 4048 * (ceilDivF32 n BASIC_BLOCK_COUNT / 506))
  rw [show 4048 * (ceilDivF32 n BASIC_BLOCK_COUNT / 506) +
    (88 * (ceilDivF32 n BASIC_BLOCK_COUNT / 11) - 4048 * (ceilDivF32 n BASIC_BLOCK_COUNT / 506)) =
    88 * (ceilDivF32 n BASIC_BLOCK_COUNT / 11) by omega] at m3
  have hcwu : s.count_within_upper < 2 ^ 18 := by rw [h6]; norm_num; omega
  have hrec := record_value s.count_within_upper ef hcwu heflt
  rw [h2, h16 _ (Nat.le_refl _), hrec] at hw
  refine ⟨{ bv_count := n,
             one_count := s.hot_count_total,
             l0 := s.l0.set s.l0_idx s.hot_count_total,
             select_l0 := s.select_l0.set s.select_l0_idx s.hot_count_total,
             select_samples := tmp.map fixBucket,
             l1l2 := s.l1l2.set (ceilDivF32 n BASIC_BLOCK_COUNT / 11)
               (s.count_within_upper * 2 ^ 110 + ef),
             SELECT_L0_ENTRY_COUNT := ceilDivF32 n SELECT_UPPER_BLOCK_COUNT,
             L1L2_INDEX_COUNT := ceilDivF32 n LOWER_BLOCK_COUNT }, ?_, ?_⟩
  · unfold Orzo
    simp only [hs, writeAt, hw0, hws, if_true, h2, hw, htmp]
  · constructor
    · exact h1
    · simp only [List.length_set]; exact h9
    · intro k hk
      simp only [h3]
      rw [getD_set_ne _ _ _ _ (by omega)]
      exact h13 k hk
    · simp only [h3, h1]
      exact getD_set_self _ _ _ (by rw [h9]; omega)
    · simp only [List.length_set]; exact h11
    · rfl
    · intro k hk
      obtain ⟨ef', he1, he2, he3⟩ := h15 k hk
      refine ⟨ef', he1, he2, ?_⟩
      simp only
      rw [getD_set_ne _ _ _ _ (by omega)]
      exact he3
    · refine ⟨ef, heflt, ?_⟩
      simp only
      rw [getD_set_self _ _ _ (by rw [h11]; exact hlb), h6]
    · simp only [List.length_set]; exact h10
    · intro k hk
      simp only [h4]
      rw [getD_set_ne _ _ _ _ (by omega)]
      exact h14 k hk
    · simp only [h4, h1]
      exact getD_set_self _ _ _ (by rw [h10]; omega)
    · simp only [List.length_map]; rw [htl]; simp
    · rfl

theorem readAt_ok_lt {fault : Nat → Fault} {arr : List Nat} {idx v : Nat}
    (h : readAt fault arr idx = .ok v) : idx < arr.length := by
  by_contra hlt
  rw [readAt, List.getElem?_eq_none (Nat.le_of_not_lt hlt)] at h
  cases h

theorem basicBlockLoop_ok_le (bv : List Nat) (off : Nat) : ∀ k j acc v,
    basicBlockLoop bv off k j acc = .ok v → k = 0 ∨ off + j + k ≤ bv.length := by
  intro k
  induction k with
  | zero => intro j acc v _; exact Or.inl rfl
  | succ k ih =>
    intro j acc v h
    rw [basicBlockLoop] at h
    cases hr : readAt Fault.bvRead bv (off + j) with
    | error e => rw [hr] at h; cases h
    | ok w =>
      rw [hr] at h
      have hlt := readAt_ok_lt hr
      rcases ih (j + 1) _ v h with h0 | hle
      · right; omega
      · right; omega

theorem orAt_ok_lt {fault : Nat → Fault} {arr : List Nat} {idx v : Nat} {r : List Nat}
    (h : orAt fault arr idx v = .ok r) : idx < arr.length := by
  by_contra hlt
  rw [orAt, if_neg hlt] at h
  cases h

theorem writeAt_ok_lt {fault : Nat → Fault} {arr : List Nat} {idx v : Nat} {r : List Nat}
    (h : writeAt fault arr idx v = .ok r) : idx < arr.length := by
  by_contra hlt
  rw [writeAt, if_neg hlt] at h
  cases h

theorem writeRecord_ok_lt {l1l2 : List Nat} {idx cwu : Nat} {l2 r : List Nat}
    (h : writeRecord l1l2 idx cwu l2 = .ok r) : idx < l1l2.length := by
  rw [writeRecord] at h
  cases ho : orAt Fault.l1l2Write l1l2 idx (cwu <<< EF_TOTAL_COUNT) with
  | error e => rw [ho] at h; cases h
  | ok l => exact orAt_ok_lt ho

/-- A step of the build loop that returns has made all its accesses in range. -/
theorem buildStep_in_range (bv : List Nat) (i : Nat) (s s' : BuildState)
    (h : buildStep bv (i + 1) s = .ok s') :
    8 * (i + 1) ≤ bv.length ∧
      ((i + 1) % 11 = 0 → s.l1l2_idx < s.l1l2.length) ∧
      ((i + 1) % 506 = 0 → s.l0_idx < s.l0.length) ∧
      ((i + 1) % 8388468 = 0 → s.select_l0_idx < s.select_l0.length) := by
  have c1 : LOWER_BLOCK_COUNT / BASIC_BLOCK_COUNT = 11 := rfl
  have c2 : UPPER_BLOCK_COUNT / BASIC_BLOCK_COUNT = 506 := rfl
  have c3 : SELECT_UPPER_BLOCK_COUNT / BASIC_BLOCK_COUNT = 8388468 := rfl
  have c4 : BASIC_BLOCK_SIZE / 8 = 8 := rfl
  have c5 : N_L2 + 1 = 11 := rfl
  unfold buildStep at h
  simp only [c1, c2, c3, c4, c5, Nat.add_sub_cancel] at h
  cases hbb : basicBlockLoop bv (i * 8) 8 0 0 with
  | error e => rw [hbb] at h; cases h
  | ok bc =>
    rw [hbb] at h
    simp only at h
    have hle := basicBlockLoop_ok_le bv (i * 8) 8 0 0 bc hbb
    refine ⟨by omega, ?_, ?_, ?_⟩
    · intro hL
      simp only [hL, if_true] at h
      simp only [hL] at *
      cases hw : writeRecord s.l1l2 s.l1l2_idx s.count_within_upper
          (s.l2_counts.set 0 (s.count_within_lower + bc)) with
      | error e => simp only [endOfLower, hw] at h; cases h
      | ok r => exact writeRecord_ok_lt hw
    · intro hU
      have hL : (i + 1) % 11 = 0 := by omega
      simp only [hL, hU, if_true] at h
      simp only [hL] at *
      cases hw : writeRecord s.l1l2 s.l1l2_idx s.count_within_upper
          (s.l2_counts.set 0 (s.count_within_lower + bc)) with
      | error e => simp only [endOfLower, hw] at h; cases h
      | ok r =>
        simp only [endOfLower, hw, endOfUpper] at h
        by_contra hlt
        simp only [writeAt, if_neg hlt] at h
        cases h
    · intro hS
      have hL : (i + 1) % 11 = 0 := by omega
      have hU : (i + 1) % 506 = 0 := by omega
      simp only [hL, hU, hS, if_true] at h
      simp only [hL] at *
      cases hw : writeRecord s.l1l2 s.l1l2_idx s.count_within_upper
          (s.l2_counts.set 0 (s.count_within_lower + bc)) with
      | error e => simp only [endOfLower, hw] at h; cases h
      | ok r =>
        simp only [endOfLower, hw, endOfUpper] at h
        by_cases hlt0 : s.l0_idx < s.l0.length
        · simp only [writeAt, if_pos hlt0, endOfSelectUpper] at h
          by_contra hlt
          simp only [if_neg hlt] at h
          cases h
        · simp only [writeAt, if_neg hlt0] at h
          cases h

/-- A step of the build loop that returns preserves the invariant. -/
theorem buildStep_sound (bv : List Nat) (nl0 nsel nlb i : Nat) (s s' : BuildState)
    (inv : BuildInv bv nl0 nsel nlb i s) (h : buildStep bv (i + 1) s = .ok s') :
    BuildInv bv nl0 nsel nlb (i + 1) s' := by
  obtain ⟨hbv, hlb, hl0, hsel⟩ := buildStep_in_range bv i s s' h
  obtain ⟨s'', hs'', inv''⟩ := buildStep_ok bv nl0 nsel nlb i s inv hbv
    (by intro hL; have := hlb hL; rw [inv.l1l2_idx, inv.l1l2_len] at this; exact this)
    (by intro hU; have := hl0 hU; rw [inv.l0_idx, inv.l0_len] at this; omega)
    (by intro hS; have := hsel hS; rw [inv.select_l0_idx, inv.sel_len] at this; omega)
  rw [hs''] at h
  cases h
  exact inv''

theorem buildLoop_sound (bv : List Nat) (nl0 nsel nlb : Nat) : ∀ (k i : Nat) (s s' : BuildState),
    BuildInv bv nl0 nsel nlb i s → buildLoop bv k (i + 1) s = .ok s' →
    BuildInv bv nl0 nsel nlb (i + k) s' := by
  intro k
  induction k with
  | zero => intro i s s' inv h; rw [buildLoop] at h; cases h; exact inv
  | succ k ih =>
    intro i s s' inv h
    rw [buildLoop] at h
    cases hs : buildStep bv (i + 1) s with
    | error e => rw [hs] at h; cases h
    | ok s1 =>
      rw [hs] at h
      have inv1 := buildStep_sound bv nl0 nsel nlb i s s1 inv hs
      have := ih (i + 1) s1 s' inv1 h
      rw [show i + (k + 1) = i + 1 + k by omega]
      exact this

theorem sampleLoop_ok_le (bv : List Nat) (base : Nat) : ∀ k j cum next tmp r,
    sampleLoop bv base k j cum next tmp = .ok r → k = 0 ∨ base + j + k ≤ bv.length := by
  intro k
  induction k with
  | zero => intro j cum next tmp r _; exact Or.inl rfl
  | succ k ih =>
    intro j cum next tmp r h
    rw [sampleLoop] at h
    cases hr : readAt Fault.bvRead bv (base + j) with
    | error e => rw [hr] at h; cases h
    | ok w =>
      rw [hr] at h
      have hlt := readAt_ok_lt hr
      simp only at h
      split at h
      · rcases ih _ _ _ _ r h with h0 | hle <;> right <;> omega
      · rcases ih _ _ _ _ r h with h0 | hle <;> right <;> omega

theorem wordsInBucket_pos (n nsel t : Nat) : 0 < wordsInBucket n nsel t := by
  unfold wordsInBucket
  split
  · rename_i h; omega
  · decide

theorem sampleBuckets_ok_le (bv : List Nat) (n nsel : Nat) : ∀ k i acc r,
    sampleBuckets bv n nsel k i acc = .ok r →
    ∀ t, i ≤ t → t < i + k →
      t * (SELECT_UPPER_BLOCK_COUNT / 64) + wordsInBucket n nsel t ≤ bv.length := by
  intro k
  induction k with
  | zero => intro i acc r _ t h1 h2; omega
  | succ k ih =>
    intro i acc r h t h1 h2
    rw [sampleBuckets] at h
    cases hb : sampleBucket bv n nsel i with
    | error e => rw [hb] at h; cases h
    | ok tmp =>
      rw [hb] at h
      by_cases hti : t = i
      · subst hti
        have hb' : sampleLoop bv (t * (SELECT_UPPER_BLOCK_COUNT / 64))
            (wordsInBucket n nsel t) 0 0 1 [] = .ok tmp := hb
        have := sampleLoop_ok_le _ _ _ _ _ _ _ _ hb'
        have hpos := wordsInBucket_pos n nsel t
        omega
      · exact ih (i + 1) _ r h t (by omega) (by omega)

/-- An index the constructor returns was built with all accesses in range. -/
theorem Orzo_in_range (bv : List Nat) (n : Nat) (idx : Index) (h : Orzo bv n = .ok idx) :
    8 * ceilDivF32 n BASIC_BLOCK_COUNT ≤ bv.length ∧
      ceilDivF32 n BASIC_BLOCK_COUNT / 11 < ceilDivF32 n LOWER_BLOCK_COUNT ∧
      ceilDivF32 n BASIC_BLOCK_COUNT / 506 < ceilDivF32 n UPPER_BLOCK_COUNT ∧
      ceilDivF32 n BASIC_BLOCK_COUNT / 8388468 < ceilDivF32 n SELECT_UPPER_BLOCK_COUNT ∧
      ∀ t, t < ceilDivF32 n SELECT_UPPER_BLOCK_COUNT →
        t * (SELECT_UPPER_BLOCK_COUNT / 64) +
          wordsInBucket n (ceilDivF32 n SELECT_UPPER_BLOCK_COUNT) t ≤ bv.length := by
  unfold Orzo at h
  simp only at h
  cases hs : buildLoop bv (ceilDivF32 n BASIC_BLOCK_COUNT) 1
      { l0 := List.replicate (ceilDivF32 n UPPER_BLOCK_COUNT + 1) 0
        select_l0 := List.replicate (ceilDivF32 n SELECT_UPPER_BLOCK_COUNT + 1) 0
        l1l2 := List.replicate (ceilDivF32 n LOWER_BLOCK_COUNT) 0
        l0_idx := 1
        select_l0_idx := 1
        l1l2_idx := 0
        hot_count_total := 0
        count_within_upper := 0
        count_within_lower := 0
        l2_counts := List.replicate (N_L2 + 1) 0 } with
  | error e => rw [hs] at h; cases h
  | ok s =>
    rw [hs] at h
    simp only at h
    have inv := buildLoop_sound bv _ _ _ _ 0 _ s (buildInv_init bv
      (ceilDivF32 n UPPER_BLOCK_COUNT) (ceilDivF32 n SELECT_UPPER_BLOCK_COUNT)
      (ceilDivF32 n LOWER_BLOCK_COUNT)) hs
    rw [Nat.zero_add] at inv
    cases h0 : writeAt Fault.l0Write s.l0 s.l0_idx s.hot_count_total with
    | error e => rw [h0] at h; cases h
    | ok l0 =>
      rw [h0] at h
      simp only at h
      have hl0 := writeAt_ok_lt h0
      rw [inv.l0_idx, inv.l0_len] at hl0
      cases h1 : writeRecord s.l1l2 s.l1l2_idx s.count_within_upper s.l2_counts with
      | error e => rw [h1] at h; cases h
      | ok l1l2 =>
        rw [h1] at h
        simp only at h
        have hlb := writeRecord_ok_lt h1
        rw [inv.l1l2_idx, inv.l1l2_len] at hlb
        cases h2 : writeAt Fault.selectL0Write s.select_l0 s.select_l0_idx s.hot_count_total with
        | error e => rw [h2] at h; cases h
        | ok sel =>
          rw [h2] at h
          simp only at h
          have hsel := writeAt_ok_lt h2
          rw [inv.select_l0_idx, inv.sel_len] at hsel
          cases h3 : sampleBuckets bv n (ceilDivF32 n SELECT_UPPER_BLOCK_COUNT)
              (ceilDivF32 n SELECT_UPPER_BLOCK_COUNT) 0 [] with
          | error e => rw [h3] at h; cases h
          | ok tmp =>
            refine ⟨inv.bv_ok, hlb, by omega, by omega, ?_⟩
            intro t ht
            exact sampleBuckets_ok_le bv n _ _ 0 [] tmp h3 t (Nat.zero_le _) (by omega)

/-- Every index the constructor returns stores the word sums described by `BuiltIndex`. -/
theorem Orzo_built (bv : List Nat) (n : Nat) (idx : Index) (h : Orzo bv n = .ok idx) :
    BuiltIndex bv n idx := by
  obtain ⟨h1, h2, h3, h4, h5⟩ := Orzo_in_range bv n idx h
  obtain ⟨idx', hidx', hb⟩ := Orzo_ok bv n h1 h2 h3 h4 h5
  rw [hidx'] at h
  cases h
  exact hb

theorem shiftRight_record (l1 ef : Nat) (h : ef < 2 ^ 110) :
    (l1 * 2 ^ 110 + ef) >>> EF_TOTAL_COUNT = l1 := by
  show (l1 * 2 ^ 110 + ef) >>> 110 = l1
  rw [Nat.shiftRight_eq_div_pow, Nat.add_comm, Nat.add_mul_div_right _ _ (by norm_num),
    Nat.div_eq_of_lt h, Nat.zero_add]

/-- L0/L1 consistency of the records the constructor writes: the records of the complete lower
blocks and the record written by the close-out. -/
theorem built_l0_l1_consistency (bv : List Nat) (n : Nat) (idx : Index)
    (hb : BuiltIndex bv n idx) (k : Nat) (hk : k ≤ ceilDivF32 n BASIC_BLOCK_COUNT / 11) :
    idx.l0.getD (k / LOWER_PER_UPPER) 0 + (idx.l1l2.getD k 0 >>> EF_TOTAL_COUNT) =
      countOnes bv (k * LOWER_BLOCK_COUNT) := by
  have hc : k * LOWER_BLOCK_COUNT = 64 * (88 * k) := by
    show k * 5632 = 64 * (88 * k); ring
  have hl : k / LOWER_PER_UPPER = k / 46 := rfl
  have hm := wordSum_mono bv (show 4048 * (k / 46) ≤ 88 * k by omega)
  rw [hc, countOnes_words, hl, hb.l0_content (k / 46) (by omega)]
  by_cases hlast : k = ceilDivF32 n BASIC_BLOCK_COUNT / 11
  · obtain ⟨ef, h1, h2⟩ := hb.l1l2_last
    rw [← hlast, show ceilDivF32 n BASIC_BLOCK_COUNT / 506 = k / 46 by omega] at h2
    rw [h2, shiftRight_record _ _ h1]
    omega
  · obtain ⟨ef, _, h1, h2⟩ := hb.l1l2_complete k (by omega)
    rw [h2, shiftRight_record _ _ h1]
    omega

/-- The L0 entries the constructor writes are prefix counts of B. -/
theorem built_l0_prefix (bv : List Nat) (n : Nat) (idx : Index) (hb : BuiltIndex bv n idx) :
    (∀ k, k ≤ ceilDivF32 n BASIC_BLOCK_COUNT / 506 →
      idx.l0.getD k 0 = countOnes bv (k * UPPER_BLOCK_COUNT)) ∧
    idx.l0.getD (1 + ceilDivF32 n BASIC_BLOCK_COUNT / 506) 0 =
      countOnes bv (ceilDivF32 n BASIC_BLOCK_COUNT * BASIC_BLOCK_COUNT) ∧
    get_one_count idx = countOnes bv (ceilDivF32 n BASIC_BLOCK_COUNT * BASIC_BLOCK_COUNT) := by
  have hc : ceilDivF32 n BASIC_BLOCK_COUNT * BASIC_BLOCK_COUNT =
      64 * (8 * ceilDivF32 n BASIC_BLOCK_COUNT) := by
    show ceilDivF32 n BASIC_BLOCK_COUNT * 512 = _; ring
  refine ⟨?_, ?_, ?_⟩
  · intro k hk
    rw [show k * UPPER_BLOCK_COUNT = 64 * (4048 * k) by show k * 259072 = _; ring,
      countOnes_words]
    exact hb.l0_content k hk
  · rw [hc, countOnes_words]; exact hb.l0_last
  · rw [hc, countOnes_words]; exact hb.one_count

theorem blockCounts_props (bv : List Nat) (k : Nat) :
    (blockCounts bv k).length = 10 ∧ (blockCounts bv k).Pairwise (· ≤ ·) ∧
      (∀ e ∈ blockCounts bv k, e ≤ 5120) ∧
      ∀ j, j < 10 → (blockCounts bv k).getD j 0 =
        wordSum bv (88 * k + 8 * (j + 1)) - wordSum bv (88 * k) := by
  have hlen : (blockCounts bv k).length = 10 := by simp [blockCounts]
  have hget : ∀ j (hj : j < (blockCounts bv k).length), (blockCounts bv k)[j] =
      wordSum bv (88 * k + 8 * (j + 1)) - wordSum bv (88 * k) := by
    intro j hj
    simp [blockCounts]
  refine ⟨hlen, ?_, ?_, ?_⟩
  · rw [List.pairwise_iff_getElem]
    intro a b ha hb hab
    rw [hget a ha, hget b hb]
    have := wordSum_mono bv (show 88 * k + 8 * (a + 1) ≤ 88 * k + 8 * (b + 1) by omega)
    omega
  · intro e he
    obtain ⟨j, hj, rfl⟩ := List.getElem_of_mem he
    rw [hget j hj]
    have := (wordSum_add_le bv (88 * k) (8 * (j + 1))).2
    rw [hlen] at hj
    omega
  · intro j hj
    rw [List.getD_eq_getElem _ _ (by rw [hlen]; exact hj)]
    exact hget j _

/-- The payload of the record of a complete lower block decodes to the cumulative counts of the
block, with the decoder of `select1` and with that of `rank1`. -/
theorem built_payload_complete (bv : List Nat) (n : Nat) (idx : Index)
    (hb : BuiltIndex bv n idx) (k : Nat) (hk : k < ceilDivF32 n BASIC_BLOCK_COUNT / 11)
    (j : Nat) (hj : j < N_L2) :
    ef_decode_select (idx.l1l2.getD k 0) j =
        countOnes bv (k * LOWER_BLOCK_COUNT + (j + 1) * BASIC_BLOCK_COUNT) -
          countOnes bv (k * LOWER_BLOCK_COUNT) ∧
      ef_decode_rank (idx.l1l2.getD k 0) (j + 1) =
        countOnes bv (k * LOWER_BLOCK_COUNT + (j + 1) * BASIC_BLOCK_COUNT) -
          countOnes bv (k * LOWER_BLOCK_COUNT) := by
  have hj' : j < 10 := hj
  obtain ⟨hlen, hsorted, hbound, hget⟩ := blockCounts_props bv k
  have hv : ∀ e ∈ blockCounts bv k, e < 5632 := by
    intro e he; have := hbound e he; omega
  obtain ⟨ef, he1, _, he3⟩ := hb.l1l2_complete k hk
  obtain ⟨r, hr1, _, hr3, hr4⟩ := decode_encode_general (blockCounts bv k) hlen hv
    (wordSum bv (88 * k) - wordSum bv (4048 * (k / 46))) j hj'
  rw [he1] at hr1
  cases hr1
  have hup := upperAt_sorted (blockCounts bv k) hlen hv hsorted j hj'
  have hc1 : k * LOWER_BLOCK_COUNT + (j + 1) * BASIC_BLOCK_COUNT = 64 * (88 * k + 8 * (j + 1)) := by
    show k * 5632 + (j + 1) * 512 = _; ring
  have hc2 : k * LOWER_BLOCK_COUNT = 64 * (88 * k) := by
    show k * 5632 = _; ring
  rw [he3, hr3, hr4, hup, hc1, hc2, countOnes_words, countOnes_words, hget j hj']
  constructor <;> omega

theorem bitAt_of_padded (bv : List Nat) (n : Nat) (hp : Padded bv n) (p : Nat) (h : n ≤ p) :
    bitAt bv p = 0 := by
  unfold bitAt
  by_cases hk : p / 64 < bv.length
  · have hw := hp.2.2 (p / 64) hk
    have hlt : bv.getD (p / 64) 0 < 2 ^ (p % 64) := by
      refine Nat.lt_of_lt_of_le hw (Nat.pow_le_pow_right (by decide) ?_)
      have : n - 64 * (p / 64) ≤ p % 64 := by omega
      exact Nat.le_trans (Nat.min_le_right _ _) this
    rw [Nat.shiftRight_eq_div_pow, Nat.div_eq_of_lt hlt]
  · rw [List.getD_eq_default _ _ (Nat.le_of_not_lt hk)]
    simp

/-- Bits at positions `≥ n` are zero, so counting beyond `n` adds nothing. -/
theorem countOnes_of_padded (bv : List Nat) (n : Nat) (hp : Padded bv n) (m : Nat) (h : n ≤ m) :
    countOnes bv m = countOnes bv n := by
  obtain ⟨t, rfl⟩ := Nat.exists_eq_add_of_le h
  induction t with
  | zero => rfl
  | succ t ih =>
    rw [← Nat.add_assoc, countOnes_succ, ih (by omega), bitAt_of_padded bv n hp _ (by omega)]
    rfl

/-- L0/L1 consistency for every record index below `ceil(n / LOWER_BLOCK_COUNT)`, when the
number of basic blocks the constructor computed is the exact ceiling. -/
theorem l0_l1_consistency_exact_blocks (bv : List Nat) (n : Nat) (idx : Index)
    (h : Orzo bv n = .ok idx)
    (hexact : ceilDivF32 n BASIC_BLOCK_COUNT = ceilDiv n BASIC_BLOCK_COUNT)
    (k : Nat) (hk : k < ceilDiv n LOWER_BLOCK_COUNT) :
    k < idx.l1l2.length ∧
      idx.l0.getD (k / LOWER_PER_UPPER) 0 + (idx.l1l2.getD k 0 >>> EF_TOTAL_COUNT) =
        countOnes bv (k * LOWER_BLOCK_COUNT) := by
  have hb := Orzo_built bv n idx h
  obtain ⟨_, hlb, _⟩ := Orzo_in_range bv n idx h
  have hk' : k ≤ ceilDivF32 n BASIC_BLOCK_COUNT / 11 := by
    rw [hexact]
    have h1 : k < (n + 5632 - 1) / 5632 := hk
    show k ≤ (n + 512 - 1) / 512 / 11
    omega
  refine ⟨?_, built_l0_l1_consistency bv n idx hb k hk'⟩
  rw [hb.l1l2_len]
  omega

/-- The L0 entries are the prefix counts of B at the upper block boundaries and its total, when
the number of basic blocks the constructor computed is the exact ceiling. -/
theorem l0_prefix_exact_blocks (bv : List Nat) (n : Nat) (idx : Index) (hp : Padded bv n)
    (h : Orzo bv n = .ok idx)
    (hexact : ceilDivF32 n BASIC_BLOCK_COUNT = ceilDiv n BASIC_BLOCK_COUNT) :
    idx.l0.getD 0 0 = 0 ∧
      (∀ k, 1 ≤ k → k ≤ ceilDiv n UPPER_BLOCK_COUNT →
        idx.l0.getD k 0 = countOnes bv (min (k * UPPER_BLOCK_COUNT) n)) ∧
      get_one_count idx = countOnes bv n := by
  have hb := Orzo_built bv n idx h
  obtain ⟨h1, h2, h3⟩ := built_l0_prefix bv n idx hb
  rw [hexact] at h1 h2 h3
  have hnbb : ceilDiv n BASIC_BLOCK_COUNT = (n + 512 - 1) / 512 := rfl
  have hn : n ≤ ceilDiv n BASIC_BLOCK_COUNT * BASIC_BLOCK_COUNT := by
    show n ≤ ceilDiv n BASIC_BLOCK_COUNT * 512
    rw [hnbb]; omega
  have htot := countOnes_of_padded bv n hp _ hn
  refine ⟨?_, ?_, by rw [h3, htot]⟩
  · have := h1 0 (Nat.zero_le _)
    rw [this]
    rfl
  · intro k hk1 hk2
    have hk2' : k ≤ (n + 259072 - 1) / 259072 := hk2
    by_cases hlast : k ≤ ceilDiv n BASIC_BLOCK_COUNT / 506
    · rw [h1 k hlast]
      have hkU : k * UPPER_BLOCK_COUNT = k * 259072 := rfl
      by_cases hle : k * UPPER_BLOCK_COUNT ≤ n
      · rw [Nat.min_eq_left hle]
      · rw [Nat.min_eq_right (by omega)]
        exact countOnes_of_padded bv n hp _ (by omega)
    · have hk : k = 1 + ceilDiv n BASIC_BLOCK_COUNT / 506 := by
        rw [hnbb] at hlast ⊢
        omega
      have hge : n ≤ k * UPPER_BLOCK_COUNT := by
        show n ≤ k * 259072
        rw [hk, hnbb]
        omega
      rw [Nat.min_eq_right hge, hk, h2, htot]

/-- Instance of `l0_l1_consistency_exact_blocks` and `l0_prefix_exact_blocks`: `n = 1024`, 512
ones followed by 512 zeros. -/
theorem exact_blocks_instance :
    Padded onesThenZeros 1024 ∧
      ceilDivF32 1024 BASIC_BLOCK_COUNT = ceilDiv 1024 BASIC_BLOCK_COUNT ∧
      ∃ idx, Orzo onesThenZeros 1024 = .ok idx ∧
        idx.l0.getD (0 / LOWER_PER_UPPER) 0 + (idx.l1l2.getD 0 0 >>> EF_TOTAL_COUNT) =
          countOnes onesThenZeros (0 * LOWER_BLOCK_COUNT) ∧
        idx.l0.getD 1 0 = countOnes onesThenZeros (min (1 * UPPER_BLOCK_COUNT) 1024) :=
  ⟨by decide, by rfl,
    { bv_count := 1024, one_count := 512, l0 := [0, 512], select_l0 := [0, 512],
      select_samples := [[0]], l1l2 := [1791], SELECT_L0_ENTRY_COUNT := 1,
      L1L2_INDEX_COUNT := 1 },
    by rfl,
    (l0_l1_consistency_exact_blocks onesThenZeros 1024 _ (by rfl) (by rfl) 0 (by decide)).2,
    (l0_prefix_exact_blocks onesThenZeros 1024 _ (by decide) (by rfl) (by rfl)).2.1 1
      (by decide) (by decide)⟩

theorem wordSum_replicate_zero (m k : Nat) (rest : List Nat) (h : k ≤ m) :
    wordSum (List.replicate m 0 ++ rest) k = 0 := by
  unfold wordSum
  rw [List.take_append_of_le_length (by rw [List.length_replicate]; exact h),
    List.take_replicate, List.map_replicate, popcount_zero, List.sum_replicate]
  exact Nat.mul_zero _

theorem getD_zeros_one (m k : Nat) :
    (List.replicate m 0 ++ [1] ++ List.replicate 7 0).getD k 0 = if k = m then 1 else 0 := by
  rw [List.append_assoc, List.getD_eq_getElem?_getD, List.getElem?_append]
  by_cases h1 : k < m
  · rw [if_pos (by rw [List.length_replicate]; exact h1), List.getElem?_replicate, if_pos h1,
      if_neg (by omega)]
    rfl
  · rw [if_neg (by rw [List.length_replicate]; exact h1), List.length_replicate]
    by_cases h2 : k = m
    · subst h2
      rw [Nat.sub_self, if_pos rfl]
      rfl
    · rw [if_neg h2, show k - m = (k - m - 1) + 1 by omega, List.singleton_append,
        List.getElem?_cons_succ, List.getElem?_replicate]
      split <;> rfl

theorem length_zeros_one (m : Nat) :
    (List.replicate m 0 ++ [1] ++ List.replicate 7 0).length = m + 8 := by
  rw [List.length_append, List.length_append, List.length_replicate, List.length_replicate]
  rfl

theorem padded_zeros_one (m : Nat) :
    Padded (List.replicate m 0 ++ [1] ++ List.replicate 7 0) (64 * m + 1) := by
  refine ⟨by omega, ?_, ?_⟩
  · rw [length_zeros_one]
    show 8 * ((64 * m + 1 + 512 - 1) / 512) ≤ m + 8
    omega
  · intro k _
    rw [getD_zeros_one]
    by_cases h : k = m
    · subst h
      rw [if_pos rfl, show 64 * k + 1 - 64 * k = 1 by omega]
      decide
    · rw [if_neg h]
      exact Nat.pow_pos (by decide)

theorem countOnes_zeros_one (m : Nat) :
    countOnes (List.replicate m 0 ++ [1] ++ List.replicate 7 0) (64 * m + 1) = 1 := by
  rw [countOnes_succ, countOnes_words, List.append_assoc,
    wordSum_replicate_zero m m _ (Nat.le_refl _), ← List.append_assoc]
  unfold bitAt
  rw [show 64 * m / 64 = m by omega, show 64 * m % 64 = 0 by omega, getD_zeros_one, if_pos rfl]
  rfl

theorem padded_zeros (m n : Nat) (hn : 0 < n) (hm : 8 * ((n + 512 - 1) / 512) ≤ m) :
    Padded (List.replicate m 0) n := by
  refine ⟨hn, ?_, ?_⟩
  · rw [List.length_replicate]; exact hm
  · intro k _
    rw [List.getD_eq_getElem?_getD, List.getElem?_replicate]
    have : (if k < m then some 0 else none).getD 0 = 0 := by split <;> rfl
    rw [this]
    exact Nat.pow_pos (by decide)

/-- C8, evaluated at a failing input: for `n = 2^24 + 1` and B zero except for bit `2^24`, the
constructor computes `(float) n = 2^24`, visits 32768 of the 32769 basic blocks and stores
`L0[65] = 0` as the last entry of `L0` (and `get_one_count() = 0`), although one bit is set among
the first `min(65 * UPPER_BLOCK_COUNT, n) = n` bits. -/
theorem l0_last_entry_misses_bit :
    Padded zerosThenOne 16777217 ∧
      ceilDiv 16777217 UPPER_BLOCK_COUNT = 65 ∧
      countOnes zerosThenOne (min (65 * UPPER_BLOCK_COUNT) 16777217) = 1 ∧
      ceilDivF32 16777217 BASIC_BLOCK_COUNT = 32768 ∧
      ceilDiv 16777217 BASIC_BLOCK_COUNT = 32769 ∧
      ∃ idx, Orzo zerosThenOne 16777217 = .ok idx ∧ idx.l0.length = 66 ∧
        idx.l0.getD 65 0 = 0 ∧ get_one_count idx = 0 := by
  have hbb : ceilDivF32 16777217 BASIC_BLOCK_COUNT = 32768 := by rfl
  have hlb : ceilDivF32 16777217 LOWER_BLOCK_COUNT = 2979 := by rfl
  have hl0 : ceilDivF32 16777217 UPPER_BLOCK_COUNT = 65 := by rfl
  have hsel : ceilDivF32 16777217 SELECT_UPPER_BLOCK_COUNT = 1 := by rfl
  have hlen : zerosThenOne.length = 262152 := length_zeros_one 262144
  obtain ⟨idx, h1, hb⟩ := Orzo_ok zerosThenOne 16777217
    (by rw [hbb, hlen]; decide) (by rw [hbb, hlb]; decide) (by rw [hbb, hl0]; decide)
    (by rw [hbb, hsel]; decide)
    (by
      rw [hsel, hlen]
      intro t ht
      have : t = 0 := by omega
      subst this
      decide)
  have hw : wordSum zerosThenOne (8 * 32768) = 0 := by
    unfold zerosThenOne
    rw [List.append_assoc]
    exact wordSum_replicate_zero 262144 _ _ (by decide)
  have h2 := hb.one_count
  have h3 := hb.l0_len
  have h4 := hb.l0_last
  rw [hbb, hw] at h2 h4
  rw [hl0] at h3
  refine ⟨padded_zeros_one 262144, by rfl, ?_, hbb, by rfl, idx, h1, h3, h4, h2⟩
  rw [show min (65 * UPPER_BLOCK_COUNT) 16777217 = 64 * 262144 + 1 by rfl]
  exact countOnes_zeros_one 262144

/-- C7, evaluated at a failing input: for `n = 2^34 + 1000` (B all zeros) the constructor
computes `(float) n = 2^34` and allocates 3050403 records, so the record index
`k = 3050403 < ceil(n / LOWER_BLOCK_COUNT) = 3050404` has no record `L1L2[k]`. -/
theorem l1l2_record_missing :
    Padded zeros2p34 17179870184 ∧
      ceilDiv 17179870184 LOWER_BLOCK_COUNT = 3050404 ∧
      ceilDivF32 17179870184 LOWER_BLOCK_COUNT = 3050403 ∧
      ∃ idx, Orzo zeros2p34 17179870184 = .ok idx ∧ idx.l1l2.length = 3050403 ∧
        readAt .l1l2Read idx.l1l2 3050403 = .error (.l1l2Read 3050403) := by
  have hbb : ceilDivF32 17179870184 BASIC_BLOCK_COUNT = 33554432 := by rfl
  have hlb : ceilDivF32 17179870184 LOWER_BLOCK_COUNT = 3050403 := by rfl
  have hl0 : ceilDivF32 17179870184 UPPER_BLOCK_COUNT = 66314 := by rfl
  have hsel : ceilDivF32 17179870184 SELECT_UPPER_BLOCK_COUNT = 5 := by rfl
  have hlen : zeros2p34.length = 268435472 := List.length_replicate _ _
  obtain ⟨idx, h1, hb⟩ := Orzo_ok zeros2p34 17179870184
    (by rw [hbb, hlen]; decide) (by rw [hbb, hlb]; decide) (by rw [hbb, hl0]; decide)
    (by rw [hbb, hsel]; decide)
    (by
      rw [hsel, hlen]
      intro t ht
      have : t = 0 ∨ t = 1 ∨ t = 2 ∨ t = 3 ∨ t = 4 := by omega
      rcases this with rfl | rfl | rfl | rfl | rfl <;> decide)
  have h5 := hb.l1l2_len
  rw [hlb] at h5
  refine ⟨padded_zeros _ _ (by decide) (by decide), by rfl, hlb, idx, h1, h5, ?_⟩
  unfold readAt
  rw [List.getElem?_eq_none (by rw [h5])]

/-! ## Evaluations of the code at concrete inputs -/

/-- C1, evaluated at a failing input: for `n = 1024` and B = 512 ones followed by 512 zeros the
index is built and `rank1(B, 512)` returns 0, although 512 bits are set among B[0..512). -/
theorem rank1_partial_lower_block_undercounts :
    Padded onesThenZeros 1024 ∧ countOnes onesThenZeros 512 = 512 ∧
      (Orzo onesThenZeros 1024 >>= fun idx => rank1 idx onesThenZeros 512) = .ok 0 :=
  ⟨by decide, by rfl, by rfl⟩

/-- C2, evaluated at a failing input: for `n = 1024` and B = 512 ones followed by a single one
at position 512, `select1(B, 1)` returns 512, a position with 512 set bits before it, instead of
position 0. -/
theorem select1_partial_lower_block_wrong_position :
    Padded onesThenOne 1024 ∧ countOnes onesThenOne 1024 = 513 ∧
      countOnes onesThenOne 512 = 512 ∧
      (Orzo onesThenOne 1024 >>= fun idx => select1 idx onesThenOne 1) = .ok 512 :=
  ⟨by decide, by rfl, by rfl, by rfl⟩

/-- C3, evaluated at a failing input: for `n = 4608` and B with bits 1024..1535 and bit 4096
set (`total_ones = 513`), `select1(B, 1)` returns 4096 and `rank1(B, 4096 + 1)` returns 513, not
1. -/
theorem round_trip_fails_in_partial_lower_block :
    Padded sparseNineBlocks 4608 ∧ countOnes sparseNineBlocks 4608 = 513 ∧
      (Orzo sparseNineBlocks 4608 >>= fun idx => select1 idx sparseNineBlocks 1) = .ok 4096 ∧
      (Orzo sparseNineBlocks 4608 >>= fun idx => select1 idx sparseNineBlocks 1 >>= fun p =>
        rank1 idx sparseNineBlocks (p + 1)) = .ok 513 :=
  ⟨by decide, (countOnes_words sparseNineBlocks 72).trans (by rfl), by rfl, by rfl⟩

/-- C4, evaluated at failing inputs: for `n = 5632` and B all zeros the constructor writes the
record `l1l2[1]` of an array of one record, so there is no index to query; and for `n = 1024`,
B = 512 ones followed by 512 zeros, `rank1(B, 1024)` returns 0 while `get_one_count()` is 512. -/
theorem rank1_at_n_not_one_count :
    Padded zeroLowerBlock 5632 ∧ Orzo zeroLowerBlock 5632 = .error (.l1l2Write 1) ∧
      Padded onesThenZeros 1024 ∧
      (Orzo onesThenZeros 1024 >>= fun idx => pure (get_one_count idx)) = .ok 512 ∧
      (Orzo onesThenZeros 1024 >>= fun idx => rank1 idx onesThenZeros 1024) = .ok 0 :=
  ⟨by decide, by rfl, by decide, by rfl, by rfl⟩

/-- C6, evaluated at a failing input: for `n = 1024` and B = 512 ones followed by 512 zeros, the
only lower block is partial; entry 0 of the payload of `L1L2[0]` decodes to 0 (with the decoder
of `select1` and with that of `rank1`), although its first basic block holds 512 set bits. -/
theorem partial_lower_block_payload_wrong :
    Padded onesThenZeros 1024 ∧ countOnes onesThenZeros 512 = 512 ∧
      (Orzo onesThenZeros 1024 >>= fun idx => readAt .l1l2Read idx.l1l2 0 >>= fun r =>
        pure (ef_decode_select r 0, ef_decode_rank r 1)) = .ok (0, 0) :=
  ⟨by decide, by rfl, by rfl⟩

/-- C9, evaluated at a failing input: for `n = 5632` (one lower block of ones) one record is
allocated and the close-out after the loop writes `l1l2[1]`. -/
theorem build_writes_past_l1l2 :
    Padded onesLowerBlock 5632 ∧ ceilDivF32 5632 LOWER_BLOCK_COUNT = 1 ∧
      ceilDiv 5632 LOWER_BLOCK_COUNT = 1 ∧
      Orzo onesLowerBlock 5632 = .error (.l1l2Write 1) :=
  ⟨by decide, by rfl, by rfl, by rfl⟩

/-- C10, evaluated at a failing input: for `n = 8193` and B all ones (`total_ones = 8193`), the
only select upper block stores one sample, and `select1(B, 8193)` reads slot 1 of it. -/
theorem select_sample_lookup_out_of_bounds :
    Padded ones8193 8193 ∧ countOnes ones8193 8193 = 8193 ∧
      (Orzo ones8193 8193 >>= fun idx => pure (get_one_count idx, idx.select_samples)) =
        .ok (8193, [[0]]) ∧
      (Orzo ones8193 8193 >>= fun idx => select1 idx ones8193 8193) = .error (.sampleRead 0 1) :=
  ⟨by decide,
    ((countOnes_succ ones8193 8192).trans
      (congrArg (· + bitAt ones8193 8192) (countOnes_words ones8193 128))).trans (by rfl),
    by rfl, by rfl⟩

/-! ## Bit layout of the pack -/

theorem testBit_ofBits (bs : List Bool) : ∀ p, (ofBits bs).testBit p = bs.getD p false := by
  induction bs with
  | nil => intro p; simp [ofBits]
  | cons b bs ih =>
    intro p
    cases p with
    | zero =>
      rw [Nat.testBit_zero]
      show decide ((b.toNat + 2 * ofBits bs) % 2 = 1) = b
      cases b <;> simp [Nat.add_mul_mod_self_left]
    | succ p =>
      rw [Nat.testBit_succ]
      show ((b.toNat + 2 * ofBits bs) / 2).testBit p = bs.getD p false
      have : (b.toNat + 2 * ofBits bs) / 2 = ofBits bs := by
        cases b
        · show (0 + 2 * ofBits bs) / 2 = ofBits bs
          omega
        · show (1 + 2 * ofBits bs) / 2 = ofBits bs
          omega
      rw [this, ih]

theorem nthTrue_getD (bs : List Bool) : ∀ j p, nthTrue bs j = some p → bs.getD p false = true := by
  induction bs with
  | nil => intro j p h; simp [nthTrue] at h
  | cons b bs ih =>
    intro j p h
    cases b with
    | true =>
      cases j with
      | zero =>
        simp only [nthTrue, Option.some.injEq] at h
        subst h
        rfl
      | succ j =>
        simp only [nthTrue, Option.map_eq_some'] at h
        obtain ⟨q, hq, rfl⟩ := h
        exact ih j q hq
    | false =>
      simp only [nthTrue, Option.map_eq_some'] at h
      obtain ⟨q, hq, rfl⟩ := h
      exact ih j q hq

theorem getD_nthTrue (bs : List Bool) : ∀ p, bs.getD p false = true →
    ∃ j, nthTrue bs j = some p := by
  induction bs with
  | nil => intro p h; simp at h
  | cons b bs ih =>
    intro p h
    cases p with
    | zero =>
      have hb : b = true := h
      subst hb
      exact ⟨0, rfl⟩
    | succ p =>
      obtain ⟨j, hj⟩ := ih p h
      cases b with
      | true => exact ⟨j + 1, by simp only [nthTrue, hj, Option.map_some']⟩
      | false => exact ⟨j, by simp only [nthTrue, hj, Option.map_some']⟩

theorem nthTrue_lt_count (bs : List Bool) : ∀ j p, nthTrue bs j = some p →
    j < bs.count true := by
  induction bs with
  | nil => intro j p h; simp [nthTrue] at h
  | cons b bs ih =>
    intro j p h
    cases b with
    | true =>
      rw [List.count_cons_self]
      cases j with
      | zero => omega
      | succ j =>
        simp only [nthTrue, Option.map_eq_some'] at h
        obtain ⟨q, hq, _⟩ := h
        have := ih j q hq
        omega
    | false =>
      rw [List.count_cons_of_ne (by decide)]
      simp only [nthTrue, Option.map_eq_some'] at h
      obtain ⟨q, hq, _⟩ := h
      exact ih j q hq

theorem count_unaryBits (cs : List Nat) : (unaryBits cs).count true = cs.sum := by
  induction cs with
  | nil => rfl
  | cons c cs ih =>
    show (List.replicate c true ++ false :: unaryBits cs).count true = _
    rw [List.count_append, List.count_replicate_self, List.count_cons_of_ne (by decide), ih,
      List.sum_cons]

/-- Bit `p` of the unary part of a record is set exactly when `p` is the position of one of
the ones of the unary bit vector. -/
theorem testBit_unary (cs : List Nat) (p : Nat) :
    (ofBits (unaryBits cs)).testBit p = true ↔ ∃ j, j < cs.sum ∧ p = j + upperAt cs j := by
  rw [testBit_ofBits]
  constructor
  · intro h
    obtain ⟨j, hj⟩ := getD_nthTrue _ p h
    have hlt : j < cs.sum := by
      rw [← count_unaryBits]; exact nthTrue_lt_count _ j p hj
    rw [nthTrue_unaryBits cs j hlt] at hj
    exact ⟨j, hlt, (Option.some.inj hj).symm⟩
  · rintro ⟨j, hlt, rfl⟩
    exact nthTrue_getD _ j _ (nthTrue_unaryBits cs j hlt)

/-- C17: for every non-decreasing sequence `v` of `N_L2 = 10` values in `[0, L2_UNIVERSE]`,
`elias_fano_encode` returns a record `r` such that, among the bits `[0, 20)` of `r`, exactly the
bits at the positions `(v[i] >> 9) + i`, `i = 0..9`, are set; bits `[20 + 9i, 29 + 9i)` of `r`
hold `v[i] & 511`; and every bit of `r` at a position `≥ EF_TOTAL_COUNT = 110` is zero. -/
theorem elias_fano_encode_layout (v : List Nat) (hlen : v.length = N_L2)
    (hsorted : v.Pairwise (· ≤ ·)) (hbound : ∀ e ∈ v, e ≤ L2_UNIVERSE) :
    ∃ r, elias_fano_encode v = .ok r ∧
      (∀ p, p < EF_UPPER_BV_COUNT →
        (r.testBit p = true ↔ ∃ i, i < N_L2 ∧ p = (v.getD i 0 >>> 9) + i)) ∧
      (∀ i, i < N_L2 →
        (r >>> (EF_UPPER_BV_COUNT + EF_LOWER_ELE_COUNT * i)) % 2 ^ EF_LOWER_ELE_COUNT =
          v.getD i 0 &&& 511) ∧
      (∀ p, EF_TOTAL_COUNT ≤ p → r.testBit p = false) := by
  have hlen' : v.length = 10 := hlen
  have hv : ∀ e ∈ v, e < 5632 := by
    intro e he
    have : e ≤ 5120 := hbound e he
    omega
  obtain ⟨henc, hU, hsum⟩ := elias_fano_encode_eq v hlen' hv
  have hU' : ofBits (unaryBits (bucketCounts v)) < 2 ^ 20 := by omega
  have hP := packLower_lt v
  rw [hlen'] at hP
  refine ⟨_, henc, ?_, ?_, ?_⟩
  · intro p hp
    have hp' : p < 20 := hp
    rw [Nat.add_comm, Nat.testBit_mul_pow_two_add _ hU', if_pos hp', testBit_unary, hsum]
    constructor
    · rintro ⟨j, hj, rfl⟩
      refine ⟨j, hj, ?_⟩
      rw [upperAt_sorted v hlen' hv hsorted j hj, Nat.shiftRight_eq_div_pow]
      omega
    · rintro ⟨i, hi, rfl⟩
      refine ⟨i, hi, ?_⟩
      rw [upperAt_sorted v hlen' hv hsorted i hi, Nat.shiftRight_eq_div_pow]
      omega
  · intro i hi
    have h := decode_lower v _ 0 hU' i hi
    have hmask : ∀ x, EF_LOWER_MASK &&& x = x % 512 := by
      intro x; rw [Nat.land_comm]; exact Nat.and_pow_two_sub_one_eq_mod x 9
    rw [hmask, Nat.mul_zero, Nat.add_zero] at h
    show (_ >>> (20 + 9 * i)) % 2 ^ 9 = _
    rw [Nat.mul_comm 9 i, show (2 : Nat) ^ 9 = 512 by norm_num, h]
    exact (Nat.and_pow_two_sub_one_eq_mod (v.getD i 0) 9).symm
  · intro p hp
    have hp' : 110 ≤ p := hp
    apply Nat.testBit_lt_two_pow
    have h1 : (2 : Nat) ^ 110 ≤ 2 ^ p := Nat.pow_le_pow_right (by decide) hp'
    have h2 : (512 : Nat) ^ 10 = 2 ^ 90 := by norm_num
    have h3 : (2 : Nat) ^ 110 = 2 ^ 20 * 2 ^ 90 := by norm_num
    rw [h2] at hP
    have h4 : 2 ^ 20 * packLower v + 2 ^ 20 ≤ 2 ^ 20 * 2 ^ 90 := by
      rw [← Nat.mul_succ]
      exact Nat.mul_le_mul_left _ hP
    omega

/-- C17, instance: the layout at `v = [0, 511, 512, 513, 1024, 3000, 3000, 4095, 5119, 5120]`. -/
theorem elias_fano_encode_layout_witness :
    ([0, 511, 512, 513, 1024, 3000, 3000, 4095, 5119, 5120].length = N_L2 ∧
      [0, 511, 512, 513, 1024, 3000, 3000, 4095, 5119, 5120].Pairwise (· ≤ ·) ∧
      ∀ e ∈ [0, 511, 512, 513, 1024, 3000, 3000, 4095, 5119, 5120], e ≤ L2_UNIVERSE) ∧
    ∃ r, elias_fano_encode [0, 511, 512, 513, 1024, 3000, 3000, 4095, 5119, 5120] = .ok r ∧
      (∀ p, p < EF_UPPER_BV_COUNT →
        (r.testBit p = true ↔ ∃ i, i < N_L2 ∧
          p = ([0, 511, 512, 513, 1024, 3000, 3000, 4095, 5119, 5120].getD i 0 >>> 9) + i)) ∧
      (∀ i, i < N_L2 →
        (r >>> (EF_UPPER_BV_COUNT + EF_LOWER_ELE_COUNT * i)) % 2 ^ EF_LOWER_ELE_COUNT =
          [0, 511, 512, 513, 1024, 3000, 3000, 4095, 5119, 5120].getD i 0 &&& 511) ∧
      (∀ p, EF_TOTAL_COUNT ≤ p → r.testBit p = false) :=
  ⟨⟨by rfl, by decide, by decide⟩, elias_fano_encode_layout _ (by rfl) (by decide) (by decide)⟩

/-! ## The pack performs no validation -/

/-- C11, counterexample: the 10-element input `[1, 0, 0, 0, 0, 0, 0, 0, 0, 0]` is not
non-decreasing, and the input `[0, 0, 0, 0, 0, 0, 0, 0, 0, 5631]` contains a value greater than
`L2_UNIVERSE = 5120`; `elias_fano_encode` returns a record for both. -/
theorem elias_fano_encode_accepts_invalid_input :
    [1, 0, 0, 0, 0, 0, 0, 0, 0, 0].length = N_L2 ∧
      ¬ [1, 0, 0, 0, 0, 0, 0, 0, 0, 0].Pairwise (· ≤ ·) ∧
      elias_fano_encode [1, 0, 0, 0, 0, 0, 0, 0, 0, 0] = .ok 1049599 ∧
      [0, 0, 0, 0, 0, 0, 0, 0, 0, 5631].length = N_L2 ∧
      (∃ e ∈ [0, 0, 0, 0, 0, 0, 0, 0, 0, 5631], L2_UNIVERSE < e) ∧
      elias_fano_encode [0, 0, 0, 0, 0, 0, 0, 0, 0, 5631] =
        .ok 1295538913433250448329630676419071 :=
  ⟨by rfl, by decide, by rfl, by rfl, by decide, by rfl⟩

/-- C11, as amended: `elias_fano_encode` validates nothing; for every 10-element input whose
values are below `NUM_BUCKETS * 512 = 5632`, non-decreasing or not, it returns a record, and the
record is below `2^EF_TOTAL_COUNT`. -/
theorem elias_fano_encode_returns_record (v : List Nat) (hlen : v.length = N_L2)
    (hv : ∀ e ∈ v, e < NUM_BUCKETS * 512) :
    ∃ r, elias_fano_encode v = .ok r ∧ r < 2 ^ EF_TOTAL_COUNT := by
  obtain ⟨r, h1, h2, _⟩ := decode_encode_general v hlen hv 0 0 (by decide)
  exact ⟨r, h1, h2⟩

/-- C11, instance of the amended statement at `v = [5631, 7, 5121, 0, 512, 3, 3, 4000, 1, 2]`. -/
theorem elias_fano_encode_returns_record_witness :
    ([5631, 7, 5121, 0, 512, 3, 3, 4000, 1, 2].length = N_L2 ∧
      ∀ e ∈ [5631, 7, 5121, 0, 512, 3, 3, 4000, 1, 2], e < NUM_BUCKETS * 512) ∧
    ∃ r, elias_fano_encode [5631, 7, 5121, 0, 512, 3, 3, 4000, 1, 2] = .ok r ∧
      r < 2 ^ EF_TOTAL_COUNT :=
  ⟨⟨by rfl, by decide⟩, elias_fano_encode_returns_record _ (by rfl) (by decide)⟩

/-! ## rank0 -/

/-- C12: whenever `rank1(B, i)` returns `r`, `rank0(B, i)` returns the value of the expression
`1 + (i - r)` on 64-bit unsigned integers, which is the number `1 + (i - r)` when `r ≤ i` and
`i + 1 < 2^64`. -/
theorem rank0_is_one_plus_i_minus_rank1 (self : Index) (bv : List Nat) (i r : Nat)
    (h : rank1 self bv i = .ok r) :
    rank0 self bv i = .ok ((1 + sub64 i r) % 2 ^ 64) ∧
      (r ≤ i → i + 1 < 2 ^ 64 → rank0 self bv i = .ok (1 + (i - r))) := by
  have h0 : rank0 self bv i = .ok ((1 + sub64 i r) % 2 ^ 64) := by
    unfold rank0
    rw [h]
  refine ⟨h0, ?_⟩
  intro hr hi
  rw [h0]
  have h64 : (2 : Nat) ^ 64 = 18446744073709551616 := by norm_num
  have hs : sub64 i r = i - r := by
    unfold sub64
    rw [h64] at *
    omega
  rw [hs, Nat.mod_eq_of_lt (by omega)]

/-- C12, instance: the index built for `n = 1024` over 512 ones followed by 512 zeros, at
`i = 300`, where `rank1` returns 300 and `rank0` returns 1. -/
theorem rank0_is_one_plus_i_minus_rank1_witness :
    ∃ idx, Orzo onesThenZeros 1024 = .ok idx ∧ rank1 idx onesThenZeros 300 = .ok 300 ∧
      rank0 idx onesThenZeros 300 = .ok ((1 + sub64 300 300) % 2 ^ 64) ∧
      ((300 : Nat) ≤ 300 → 300 + 1 < 2 ^ 64 → rank0 idx onesThenZeros 300 = .ok (1 + (300 - 300))) :=
  ⟨{ bv_count := 1024, one_count := 512, l0 := [0, 512], select_l0 := [0, 512],
      select_samples := [[0]], l1l2 := [1791], SELECT_L0_ENTRY_COUNT := 1,
      L1L2_INDEX_COUNT := 1 },
    by rfl, by rfl, rank0_is_one_plus_i_minus_rank1 _ onesThenZeros 300 300 (by rfl)⟩

/-! ## Boundary and field width of the stored counts -/

/-- On every index the constructor returns, `rank1(B, 0)` returns 0. -/
theorem rank1_zero (bv : List Nat) (n : Nat) (idx : Index) (h : Orzo bv n = .ok idx) :
    rank1 idx bv 0 = .ok 0 := by
  have hb := Orzo_built bv n idx h
  obtain ⟨_, hlb, _, _, _⟩ := Orzo_in_range bv n idx h
  have hc := built_l0_l1_consistency bv n idx hb 0 (Nat.zero_le _)
  have h0 : countOnes bv (0 * LOWER_BLOCK_COUNT) = 0 := by rfl
  rw [h0, show 0 / LOWER_PER_UPPER = 0 by rfl] at hc
  obtain ⟨hl0, hl1⟩ := Nat.add_eq_zero_iff.mp hc
  have r1 : readAt .l1l2Read idx.l1l2 0 = .ok (idx.l1l2.getD 0 0) :=
    readAt_ok (by rw [hb.l1l2_len]; omega)
  have r0 : readAt .l0Read idx.l0 0 = .ok (idx.l0.getD 0 0) :=
    readAt_ok (by rw [hb.l0_len]; omega)
  unfold rank1
  simp only [Nat.zero_div, r1, r0, hl0, hl1]
  rfl

/-- Instance of `rank1_zero`: the index built for `n = 1024` over 512 ones followed by 512
zeros. -/
theorem rank1_zero_witness :
    ∃ idx, Orzo onesThenZeros 1024 = .ok idx ∧ rank1 idx onesThenZeros 0 = .ok 0 :=
  ⟨{ bv_count := 1024, one_count := 512, l0 := [0, 512], select_l0 := [0, 512],
      select_samples := [[0]], l1l2 := [1791], SELECT_L0_ENTRY_COUNT := 1,
      L1L2_INDEX_COUNT := 1 },
    by rfl, rank1_zero onesThenZeros 1024 _ (by rfl)⟩

/-- C13, evaluated at failing inputs: for `n = 5632` and for `n = 259072` the constructor
returns no index, whatever the buffer, because the close-out writes `l1l2[num_lower_blocks]`;
over the padded buffer of 5632 ones, building the index and asking `rank1(B, 0)` ends in the
write of `l1l2[1]` instead of the value 0. -/
theorem rank1_zero_has_no_index :
    (∀ bv idx, Orzo bv 5632 ≠ .ok idx) ∧ (∀ bv idx, Orzo bv 259072 ≠ .ok idx) ∧
      Padded onesLowerBlock 5632 ∧
      (Orzo onesLowerBlock 5632 >>= fun idx => rank1 idx onesLowerBlock 0) =
        .error (.l1l2Write 1) := by
  refine ⟨?_, ?_, by decide, by rfl⟩
  · intro bv idx h
    obtain ⟨_, hlb, _⟩ := Orzo_in_range bv 5632 idx h
    rw [show ceilDivF32 5632 BASIC_BLOCK_COUNT = 11 by rfl,
      show ceilDivF32 5632 LOWER_BLOCK_COUNT = 1 by rfl] at hlb
    exact absurd hlb (by decide)
  · intro bv idx h
    obtain ⟨_, hlb, _⟩ := Orzo_in_range bv 259072 idx h
    rw [show ceilDivF32 259072 BASIC_BLOCK_COUNT = 506 by rfl,
      show ceilDivF32 259072 LOWER_BLOCK_COUNT = 46 by rfl] at hlb
    exact absurd hlb (by decide)

/-- The records behind the last one the constructor writes keep the zero of the allocation. -/
theorem Orzo_l1l2_tail (bv : List Nat) (n : Nat) (idx : Index) (h : Orzo bv n = .ok idx) :
    ∀ k, ceilDivF32 n BASIC_BLOCK_COUNT / 11 < k → idx.l1l2.getD k 0 = 0 := by
  obtain ⟨hbv, hlb, hl0, hsel, hsamp⟩ := Orzo_in_range bv n idx h
  obtain ⟨s, hs, inv⟩ := buildLoop_ok bv (ceilDivF32 n UPPER_BLOCK_COUNT)
    (ceilDivF32 n SELECT_UPPER_BLOCK_COUNT) (ceilDivF32 n LOWER_BLOCK_COUNT)
    (ceilDivF32 n BASIC_BLOCK_COUNT) 0 _ (buildInv_init bv _ _ _)
    (by omega) (by omega) (by omega) (by omega)
  rw [Nat.zero_add] at hs inv
  obtain ⟨h1, h2, h3, h4, h5, h6, h7, h8, h9, h10, h11, h12, h13, h14, h15, h16, h17, h18, h19,
    h20⟩ := inv
  have hw0 : s.l0_idx < s.l0.length := by rw [h3, h9]; omega
  obtain ⟨ef, _, heflt, hw⟩ := writeRecord_ok s.l1l2 s.l1l2_idx s.count_within_upper s.l2_counts
    (by rw [h2, h11]; exact hlb) h7 h8
  have hws : s.select_l0_idx < s.select_l0.length := by rw [h4, h10]; omega
  obtain ⟨tmp, htmp, htl⟩ := sampleBuckets_ok bv n (ceilDivF32 n SELECT_UPPER_BLOCK_COUNT)
    (ceilDivF32 n SELECT_UPPER_BLOCK_COUNT) 0 [] (by
      intro t _ ht; exact hsamp t (by omega))
  rw [h2] at hw
  unfold Orzo at h
  simp only [hs, writeAt, hw0, hws, if_true, h2, hw, htmp] at h
  cases h
  intro k hk
  show (s.l1l2.set _ _).getD k 0 = 0
  rw [getD_set_ne _ _ _ _ (by omega)]
  exact h16 k (by omega)

/-- C14: on every index the constructor returns, for every record `k` of `L1L2`, the stored L1
plus the number of set bits of lower block `k` of the buffer is at most `2^18 = 262144`; the
stored L1 is below `2^18` and the record is below `2^128`. -/
theorem l1_fits_its_field (bv : List Nat) (n : Nat) (idx : Index) (h : Orzo bv n = .ok idx)
    (k : Nat) :
    (idx.l1l2.getD k 0 >>> EF_TOTAL_COUNT) +
        (countOnes bv ((k + 1) * LOWER_BLOCK_COUNT) - countOnes bv (k * LOWER_BLOCK_COUNT)) ≤
        2 ^ 18 ∧
      idx.l1l2.getD k 0 >>> EF_TOTAL_COUNT < 2 ^ 18 ∧ idx.l1l2.getD k 0 < 2 ^ 128 := by
  have hb := Orzo_built bv n idx h
  have hc1 : (k + 1) * LOWER_BLOCK_COUNT = 64 * (88 * k + 88) := by
    show (k + 1) * 5632 = 64 * (88 * k + 88); ring
  have hc0 : k * LOWER_BLOCK_COUNT = 64 * (88 * k) := by
    show k * 5632 = 64 * (88 * k); ring
  rw [hc1, hc0, countOnes_words, countOnes_words]
  have hblk := wordSum_add_le bv (88 * k) 88
  have hpow : (2 : Nat) ^ 18 = 262144 := by norm_num
  rw [hpow]
  by_cases hle : k ≤ ceilDivF32 n BASIC_BLOCK_COUNT / 11
  · have hL1 : ∃ ef, ef < 2 ^ 110 ∧ idx.l1l2.getD k 0 =
        (wordSum bv (88 * k) - wordSum bv (4048 * (k / 46))) * 2 ^ 110 + ef := by
      by_cases hlast : k = ceilDivF32 n BASIC_BLOCK_COUNT / 11
      · obtain ⟨ef, e1, e2⟩ := hb.l1l2_last
        rw [← hlast, show ceilDivF32 n BASIC_BLOCK_COUNT / 506 = k / 46 by omega] at e2
        exact ⟨ef, e1, e2⟩
      · obtain ⟨ef, _, e1, e2⟩ := hb.l1l2_complete k (by omega)
        exact ⟨ef, e1, e2⟩
    obtain ⟨ef, e1, e2⟩ := hL1
    have hup := wordSum_add_le bv (4048 * (k / 46)) (88 * k - 4048 * (k / 46))
    rw [show 4048 * (k / 46) + (88 * k - 4048 * (k / 46)) = 88 * k by omega] at hup
    have hl1 : wordSum bv (88 * k) - wordSum bv (4048 * (k / 46)) ≤ 253440 := by omega
    rw [e2, shiftRight_record _ _ e1]
    refine ⟨by omega, by omega, ?_⟩
    have h128 : (2 : Nat) ^ 128 = 2 ^ 18 * 2 ^ 110 := by norm_num
    have h2 : (wordSum bv (88 * k) - wordSum bv (4048 * (k / 46))) * 2 ^ 110 + 2 ^ 110 ≤
        2 ^ 18 * 2 ^ 110 := by
      rw [← Nat.succ_mul]
      exact Nat.mul_le_mul_right _ (by rw [hpow]; omega)
    omega
  · rw [Orzo_l1l2_tail bv n idx h k (by omega)]
    refine ⟨?_, by decide, by decide⟩
    rw [show 0 >>> EF_TOTAL_COUNT = 0 by rfl]
    omega

/-- C14, instance: record 1 of the index built for `n = 6144` over 5632 ones followed by 512
zeros, whose stored L1 is 5632. -/
theorem l1_fits_its_field_witness :
    ∃ idx, Orzo onesThenZeros6144 6144 = .ok idx ∧
      idx.l1l2.getD 1 0 >>> EF_TOTAL_COUNT = 5632 ∧
      (idx.l1l2.getD 1 0 >>> EF_TOTAL_COUNT) +
        (countOnes onesThenZeros6144 ((1 + 1) * LOWER_BLOCK_COUNT) -
          countOnes onesThenZeros6144 (1 * LOWER_BLOCK_COUNT)) ≤ 2 ^ 18 ∧
      idx.l1l2.getD 1 0 >>> EF_TOTAL_COUNT < 2 ^ 18 ∧ idx.l1l2.getD 1 0 < 2 ^ 128 :=
  ⟨_, by rfl, by rfl, l1_fits_its_field onesThenZeros6144 6144 _ (by rfl) 1⟩

/-! ## Layout constants -/

/-- C15: `UPPER_BLOCK_COUNT = 259072 = LOWER_BLOCK_COUNT * floor(2^18 / LOWER_BLOCK_COUNT)` is a
multiple of `LOWER_BLOCK_COUNT = 5632`; `SELECT_UPPER_BLOCK_COUNT = 4294895616` is at most
`2^32`, a multiple of `LOWER_BLOCK_COUNT` and of `UPPER_BLOCK_COUNT`, and no smaller than any
other such number. -/
theorem layout_constants_derivation :
    LOWER_BLOCK_COUNT = 5632 ∧ UPPER_BLOCK_COUNT = 259072 ∧
      UPPER_BLOCK_COUNT = LOWER_BLOCK_COUNT * (2 ^ 18 / LOWER_BLOCK_COUNT) ∧
      LOWER_BLOCK_COUNT ∣ UPPER_BLOCK_COUNT ∧
      SELECT_UPPER_BLOCK_COUNT = 4294895616 ∧ SELECT_UPPER_BLOCK_COUNT ≤ 2 ^ 32 ∧
      LOWER_BLOCK_COUNT ∣ SELECT_UPPER_BLOCK_COUNT ∧
      UPPER_BLOCK_COUNT ∣ SELECT_UPPER_BLOCK_COUNT ∧
      ∀ m, m ≤ 2 ^ 32 → LOWER_BLOCK_COUNT ∣ m → UPPER_BLOCK_COUNT ∣ m →
        m ≤ SELECT_UPPER_BLOCK_COUNT := by
  refine ⟨rfl, rfl, by rfl, ⟨46, by rfl⟩, rfl, by decide, ⟨762588, by rfl⟩, ⟨16578, by rfl⟩, ?_⟩
  intro m hm _ hu
  obtain ⟨c, rfl⟩ := hu
  show 259072 * c ≤ 4294895616
  have : 259072 * c ≤ 4294967296 := hm
  omega

/-- C15, instance of its last part at `m = 16577 * UPPER_BLOCK_COUNT`. -/
theorem layout_constants_derivation_witness :
    (4294636544 ≤ 2 ^ 32 ∧ LOWER_BLOCK_COUNT ∣ 4294636544 ∧ UPPER_BLOCK_COUNT ∣ 4294636544) ∧
      4294636544 ≤ SELECT_UPPER_BLOCK_COUNT :=
  ⟨⟨by decide, ⟨762542, by rfl⟩, ⟨16577, by rfl⟩⟩, by decide⟩

/-! ## Block counts in single precision -/

/-- C18, evaluated at failing inputs: for `n = 2^24 + 1` the constructor visits 32768 basic
blocks where `ceil(n / 512) = 32769`, and over the buffer that is zero except for bit `2^24` it
returns an index with `get_one_count() = 0`, although one bit is set below `n`; for
`n = 23068673` it allocates 4096 records where `ceil(n / 5632) = 4097`; for `n = 16839681` it
allocates `65 + 1` L0 entries where `ceil(n / 259072) + 1 = 67`. -/
theorem float_block_counts_not_ceilings :
    ceilDivF32 16777217 BASIC_BLOCK_COUNT = 32768 ∧ ceilDiv 16777217 BASIC_BLOCK_COUNT = 32769 ∧
      ceilDivF32 23068673 LOWER_BLOCK_COUNT = 4096 ∧ ceilDiv 23068673 LOWER_BLOCK_COUNT = 4097 ∧
      ceilDivF32 16839681 UPPER_BLOCK_COUNT + 1 = 66 ∧
      ceilDiv 16839681 UPPER_BLOCK_COUNT + 1 = 67 ∧
      Padded zerosThenOne 16777217 ∧ countOnes zerosThenOne 16777217 = 1 ∧
      ∃ idx, Orzo zerosThenOne 16777217 = .ok idx ∧ get_one_count idx = 0 := by
  have hbb : ceilDivF32 16777217 BASIC_BLOCK_COUNT = 32768 := by rfl
  have hlb : ceilDivF32 16777217 LOWER_BLOCK_COUNT = 2979 := by rfl
  have hl0 : ceilDivF32 16777217 UPPER_BLOCK_COUNT = 65 := by rfl
  have hsel : ceilDivF32 16777217 SELECT_UPPER_BLOCK_COUNT = 1 := by rfl
  have hlen : zerosThenOne.length = 262152 := length_zeros_one 262144
  obtain ⟨idx, h1, hb⟩ := Orzo_ok zerosThenOne 16777217
    (by rw [hbb, hlen]; decide) (by rw [hbb, hlb]; decide) (by rw [hbb, hl0]; decide)
    (by rw [hbb, hsel]; decide)
    (by
      rw [hsel, hlen]
      intro t ht
      have : t = 0 := by omega
      subst this
      decide)
  have hw : wordSum zerosThenOne (8 * 32768) = 0 := by
    unfold zerosThenOne
    rw [List.append_assoc]
    exact wordSum_replicate_zero 262144 _ _ (by decide)
  have h2 := hb.one_count
  rw [hbb, hw] at h2
  exact ⟨hbb, by rfl, by rfl, by rfl, by rfl, by rfl, padded_zeros_one 262144,
    countOnes_zeros_one 262144, idx, h1, h2⟩

/-! ## The bit-vector container -/

/-- C16, evaluated at failing inputs: `OrzoBitvector(100, 5632)` allocates 2 words, where
`ceil(100 / 64) = 2` rounded up to a multiple of `5632 / 64 = 88` is 88; and
`OrzoBitvector(5633, 5632)` allocates 88 words, where `ceil(5633 / 64) = 89` rounded up is 176. -/
theorem container_word_count_not_rounded_up :
    OrzoBitvector.construct 100 5632 = .ok { bv := [0, 0] } ∧ paddedWordCount 100 5632 = 88 ∧
      OrzoBitvector.construct 5633 5632 = .ok { bv := List.replicate 88 0 } ∧
      ceilDiv 5633 64 = 89 ∧ paddedWordCount 5633 5632 = 176 :=
  ⟨by rfl, by rfl, by rfl, by rfl, by rfl⟩

/-- C19, evaluated at failing inputs: for `size = 100` the container holds 2 words, fewer than
`8 * ceil(100 / 512) = 8`, and the build pass of `Orzo(data(), 100)` reads word 2; for
`size = 5633` the container holds 88 words and `set_bit(5632)` writes word 88. -/
theorem container_padding_too_short :
    (OrzoBitvector.construct 100 5632).map (fun b => b.data.length) = .ok 2 ∧
      BASIC_BLOCK_WORDS * ceilDiv 100 BASIC_BLOCK_COUNT = 8 ∧
      compareBuild 100 [] = .ok (.error (.bvRead 2)) ∧
      (OrzoBitvector.construct 5633 5632).map (fun b => b.data.length) = .ok 88 ∧
      compareBuild 5633 [5632] = .error (.write 88) :=
  ⟨by rfl, by rfl, by rfl, by rfl, by rfl⟩

/-- C20, evaluated at a failing input: in a container of one word, after `set_bit(40)` the word
is `2^40`; its bit 31 is clear, yet `get_bit(31)` returns true, because the mask `1 << 31` is
the `int` `-2^31`, which converts to `2^64 - 2^31`; and `get_bit(40)` shifts an `int` by 40
bits, which has no defined value. -/
theorem get_bit_differs_from_set_bit :
    (OrzoBitvector.construct 64 64 >>= fun b => b.set_bit 40) = .ok { bv := [2 ^ 40] } ∧
      Nat.testBit (2 ^ 40) 31 = false ∧ intShiftMask 31 = 2 ^ 64 - 2 ^ 31 ∧
      (OrzoBitvector.construct 64 64 >>= fun b => b.set_bit 40 >>= fun b => b.get_bit 31) =
        .ok true ∧
      (OrzoBitvector.construct 64 64 >>= fun b => b.set_bit 40 >>= fun b => b.get_bit 40) =
        .error (.shiftCount 40) :=
  ⟨by rfl, by rfl, by rfl, by rfl, by rfl⟩

/-! ## Decoding of a pack of values in any order -/

theorem bucketCounts_congr (v w : List Nat)
    (h : (w.map (fun e => e >>> EF_LOWER_ELE_COUNT)).Perm (v.map (fun e => e >>> EF_LOWER_ELE_COUNT))) :
    bucketCounts w = bucketCounts v := by
  unfold bucketCounts
  apply List.map_congr_left
  intro b _
  have e1 : ∀ l : List Nat, l.countP (fun e => decide (e >>> EF_LOWER_ELE_COUNT = b)) =
      (l.map (fun e => e >>> EF_LOWER_ELE_COUNT)).countP (fun u => decide (u = b)) := by
    intro l
    rw [List.countP_map]
    rfl
  rw [e1 w, e1 v]
  exact h.countP_eq _

/-- The bucket of the `j`-th unary one is the `j`-th smallest upper part of the input. -/
theorem upperAt_eq_sortedUpperParts (v : List Nat) (hlen : v.length = 10)
    (hv : ∀ e ∈ v, e < 5632) (j : Nat) (hj : j < 10) :
    upperAt (bucketCounts v) j = (sortedUpperParts v).getD j 0 := by
  have hperm : (sortedUpperParts v).Perm (v.map (fun e => e >>> EF_LOWER_ELE_COUNT)) :=
    List.perm_insertionSort _ _
  have hsorted : (sortedUpperParts v).Pairwise (· ≤ ·) := List.sorted_insertionSort _ _
  have hmem : ∀ u ∈ sortedUpperParts v, u ≤ 10 := by
    intro u hu
    obtain ⟨e, he, rfl⟩ := List.mem_map.mp (hperm.mem_iff.mp hu)
    have := hv e he
    show e >>> 9 ≤ 10
    rw [Nat.shiftRight_eq_div_pow]
    omega
  have hshift : ∀ u : Nat, (u * 512) >>> EF_LOWER_ELE_COUNT = u := by
    intro u
    show (u * 512) >>> 9 = u
    rw [Nat.shiftRight_eq_div_pow]
    omega
  have hmap : ((sortedUpperParts v).map (· * 512)).map (fun e => e >>> EF_LOWER_ELE_COUNT) =
      sortedUpperParts v := by
    rw [List.map_map]
    conv_rhs => rw [← List.map_id (sortedUpperParts v)]
    apply List.map_congr_left
    intro u _
    exact hshift u
  have hb : bucketCounts ((sortedUpperParts v).map (· * 512)) = bucketCounts v :=
    bucketCounts_congr v _ (by rw [hmap]; exact hperm)
  have hlen' : ((sortedUpperParts v).map (· * 512)).length = 10 := by
    rw [List.length_map, hperm.length_eq, List.length_map, hlen]
  have hv' : ∀ e ∈ (sortedUpperParts v).map (· * 512), e < 5632 := by
    intro e he
    obtain ⟨u, hu, rfl⟩ := List.mem_map.mp he
    have := hmem u hu
    show u * 512 < 5632
    omega
  have hs' : ((sortedUpperParts v).map (· * 512)).Pairwise (· ≤ ·) :=
    hsorted.map _ (fun a b hab => Nat.mul_le_mul_right 512 hab)
  rw [← hb, upperAt_sorted _ hlen' hv' hs' j hj]
  have hjl : j < (sortedUpperParts v).length := by
    rw [hperm.length_eq, List.length_map, hlen]; exact hj
  rw [List.getD_eq_getElem _ _ (by rw [List.length_map]; exact hjl), List.getElem_map,
    List.getD_eq_getElem _ _ hjl]
  omega

/-- C25: for every sequence `v` of `N_L2 = 10` values in `[0, L2_UNIVERSE]`, in any order, and
every `j` in `0..9`, `elias_fano_encode` returns a record `r`, and decoding entry `j` of `r` the
way `select1` does (and the way `rank1` does, for `iob = j + 1`) returns
`(u_j << 9) | (v[j] & 511)`, where `u_j` is the `j`-th smallest upper part of `v`. -/
theorem elias_fano_decode_any_order (v : List Nat) (hlen : v.length = N_L2)
    (hbound : ∀ e ∈ v, e ≤ L2_UNIVERSE) (j : Nat) (hj : j < N_L2) :
    ∃ r, elias_fano_encode v = .ok r ∧
      ef_decode_select r j =
        ((sortedUpperParts v).getD j 0 <<< 9) ||| (v.getD j 0 &&& 511) ∧
      ef_decode_rank r (j + 1) =
        ((sortedUpperParts v).getD j 0 <<< 9) ||| (v.getD j 0 &&& 511) := by
  have hlen' : v.length = 10 := hlen
  have hv : ∀ e ∈ v, e < 5632 := by
    intro e he
    have : e ≤ 5120 := hbound e he
    omega
  obtain ⟨r, hr, _, h1, h2⟩ := decode_encode_general v hlen' hv 0 j hj
  rw [Nat.zero_mul, Nat.zero_add] at h1 h2
  refine ⟨r, hr, ?_, ?_⟩
  all_goals
    rw [Nat.shiftLeft_eq, show (2 : Nat) ^ 9 = 512 by norm_num,
      show v.getD j 0 &&& 511 = v.getD j 0 % 512 from Nat.and_pow_two_sub_one_eq_mod _ 9,
      Nat.lor_comm, or_shift9 _ _ (Nat.mod_lt _ (by decide)),
      ← upperAt_eq_sortedUpperParts v hlen' hv j hj]
  · exact h1
  · exact h2

/-- C25, instance: entry 2 of the unsorted input `[600, 5, 5000, 0, 1024, 512, 3, 4000, 700, 1]`,
whose third smallest upper part is 0 and whose `v[2] & 511` is 392. -/
theorem elias_fano_decode_any_order_witness :
    ([600, 5, 5000, 0, 1024, 512, 3, 4000, 700, 1].length = N_L2 ∧
      (∀ e ∈ [600, 5, 5000, 0, 1024, 512, 3, 4000, 700, 1], e ≤ L2_UNIVERSE) ∧ 2 < N_L2) ∧
    sortedUpperParts [600, 5, 5000, 0, 1024, 512, 3, 4000, 700, 1] =
      [0, 0, 0, 0, 1, 1, 1, 2, 7, 9] ∧
    ∃ r, elias_fano_encode [600, 5, 5000, 0, 1024, 512, 3, 4000, 700, 1] = .ok r ∧
      ef_decode_select r 2 =
        ((sortedUpperParts [600, 5, 5000, 0, 1024, 512, 3, 4000, 700, 1]).getD 2 0 <<< 9) |||
          ([600, 5, 5000, 0, 1024, 512, 3, 4000, 700, 1].getD 2 0 &&& 511) ∧
      ef_decode_rank r (2 + 1) =
        ((sortedUpperParts [600, 5, 5000, 0, 1024, 512, 3, 4000, 700, 1]).getD 2 0 <<< 9) |||
          ([600, 5, 5000, 0, 1024, 512, 3, 4000, 700, 1].getD 2 0 &&& 511) :=
  ⟨⟨by rfl, by decide, by decide⟩, by decide,
    elias_fano_decode_any_order _ (by rfl) (by decide) 2 (by decide)⟩

theorem countP_range_getD (bs : List Bool) :
    (List.range bs.length).countP (fun p => bs.getD p false) = bs.count true := by
  induction bs using List.reverseRecOn with
  | nil => rfl
  | append_singleton bs b ih =>
    rw [List.length_append, List.length_singleton, List.range_succ, List.countP_append,
      List.count_append]
    have h1 : (List.range bs.length).countP (fun p => (bs ++ [b]).getD p false) =
        (List.range bs.length).countP (fun p => bs.getD p false) := by
      apply List.countP_congr
      intro p hp
      have hp' : p < bs.length := List.mem_range.mp hp
      simp only [List.getD_eq_getElem?_getD, List.getElem?_append_left hp']
    rw [h1, ih]
    congr 1
    cases b <;> simp [List.countP_cons, List.getD_eq_getElem?_getD]

/-- C26: for every sequence `v` of `N_L2 = 10` values in `[0, L2_UNIVERSE]`, in any order,
`elias_fano_encode` returns a record `r` below `2^110` with exactly 10 set bits among the bits
`[0, 20)`; for every `L1 < 2^18` the record `(L1 << 110) | r` shifted right by 110 is `L1`, and
for every `j` in `0..9` the position `tzcnt(pdep(1 << j, low 64 bits))` of the `(j+1)`-th set
bit of its low 64 bits is below `EF_UPPER_BV_COUNT = 20`. -/
theorem payload_leaves_l1_field (v : List Nat) (hlen : v.length = N_L2)
    (hbound : ∀ e ∈ v, e ≤ L2_UNIVERSE) :
    ∃ r, elias_fano_encode v = .ok r ∧ r < 2 ^ EF_TOTAL_COUNT ∧
      (List.range EF_UPPER_BV_COUNT).countP (fun p => r.testBit p) = 10 ∧
      ∀ L1, L1 < 2 ^ 18 →
        ((L1 <<< EF_TOTAL_COUNT) ||| r) >>> EF_TOTAL_COUNT = L1 ∧
        ∀ j, j < N_L2 →
          tzcnt (pdep (1 <<< j) (((L1 <<< EF_TOTAL_COUNT) ||| r) % 2 ^ 64)) <
            EF_UPPER_BV_COUNT := by
  have hlen' : v.length = 10 := hlen
  have hv : ∀ e ∈ v, e < 5632 := by
    intro e he
    have : e ≤ 5120 := hbound e he
    omega
  obtain ⟨henc, hU, hsum⟩ := elias_fano_encode_eq v hlen' hv
  obtain ⟨r, hr, hlt, _⟩ := decode_encode_general v hlen' hv 0 0 (by decide)
  rw [henc] at hr
  have hU' : ofBits (unaryBits (bucketCounts v)) < 2 ^ 20 := by omega
  have hcs : (bucketCounts v).length = 11 := by
    unfold bucketCounts
    rw [List.length_map, List.length_range]
    rfl
  refine ⟨_, henc, ?_, ?_, ?_⟩
  · cases hr; exact hlt
  · -- the bits below 20 are those of the unary vector, whose 21st entry is its closing zero
    have hbits : (List.range 20).countP
        (fun p => (ofBits (unaryBits (bucketCounts v)) + 2 ^ 20 * packLower v).testBit p) =
        (List.range 20).countP (fun p => (unaryBits (bucketCounts v)).getD p false) := by
      apply List.countP_congr
      intro p hp
      have hp' : p < 20 := List.mem_range.mp hp
      rw [Nat.add_comm, Nat.testBit_mul_pow_two_add _ hU', if_pos hp', testBit_ofBits]
    obtain ⟨bs, hbs⟩ := unaryBits_snoc (bucketCounts v) (by
      intro h0; rw [h0] at hcs; cases hcs)
    have hl := length_unaryBits (bucketCounts v)
    rw [hsum, hcs, hbs, List.length_append, List.length_singleton] at hl
    have hbl : bs.length = 20 := by omega
    have hc := count_unaryBits (bucketCounts v)
    rw [hsum, hbs, List.count_append] at hc
    have hc' : bs.count true = 10 := by
      have : [false].count true = 0 := by decide
      omega
    show (List.range 20).countP _ = 10
    rw [hbits, hbs, ← hc', ← countP_range_getD bs, hbl]
    apply List.countP_congr
    intro p hp
    have hp' : p < bs.length := by rw [hbl]; exact List.mem_range.mp hp
    simp only [List.getD_eq_getElem?_getD, List.getElem?_append_left hp']
  · intro L1 _
    have hor : (L1 <<< EF_TOTAL_COUNT) |||
        (ofBits (unaryBits (bucketCounts v)) + 2 ^ 20 * packLower v) =
        L1 * 2 ^ 110 + (ofBits (unaryBits (bucketCounts v)) + 2 ^ 20 * packLower v) := by
      show (L1 <<< 110) ||| _ = _
      have := Nat.mul_add_lt_is_or (show ofBits (unaryBits (bucketCounts v)) +
        2 ^ 20 * packLower v < 2 ^ 110 by cases hr; exact hlt) L1
      rw [Nat.shiftLeft_eq, Nat.mul_comm L1 (2 ^ 110)]
      exact this.symm
    rw [hor]
    refine ⟨shiftRight_record _ _ (by cases hr; exact hlt), ?_⟩
    intro j hj
    have hre : L1 * 2 ^ 110 + (ofBits (unaryBits (bucketCounts v)) + 2 ^ 20 * packLower v) =
        ofBits (unaryBits (bucketCounts v)) + 2 ^ 20 * (packLower v + 2 ^ 90 * L1) := by ring
    obtain ⟨h1, h2⟩ := decode_upper v hlen' hv (packLower v + 2 ^ 90 * L1) j hj
    rw [hre, h1]
    have hj' : j < 10 := hj
    show j + upperAt (bucketCounts v) j < 20
    omega

/-- C26, instance: the unsorted input `[600, 5, 5000, 0, 1024, 512, 3, 4000, 700, 1]`. -/
theorem payload_leaves_l1_field_witness :
    ([600, 5, 5000, 0, 1024, 512, 3, 4000, 700, 1].length = N_L2 ∧
      ∀ e ∈ [600, 5, 5000, 0, 1024, 512, 3, 4000, 700, 1], e ≤ L2_UNIVERSE) ∧
    ∃ r, elias_fano_encode [600, 5, 5000, 0, 1024, 512, 3, 4000, 700, 1] = .ok r ∧
      r < 2 ^ EF_TOTAL_COUNT ∧
      (List.range EF_UPPER_BV_COUNT).countP (fun p => r.testBit p) = 10 ∧
      ∀ L1, L1 < 2 ^ 18 →
        ((L1 <<< EF_TOTAL_COUNT) ||| r) >>> EF_TOTAL_COUNT = L1 ∧
        ∀ j, j < N_L2 →
          tzcnt (pdep (1 <<< j) (((L1 <<< EF_TOTAL_COUNT) ||| r) % 2 ^ 64)) <
            EF_UPPER_BV_COUNT :=
  ⟨⟨by rfl, by decide⟩, payload_leaves_l1_field _ (by rfl) (by decide)⟩

/-! ## Buffers with a single run of ones -/

theorem length_zerosOnesZeros (a b c : Nat) : (zerosOnesZeros a b c).length = a + b + c := by
  unfold zerosOnesZeros
  rw [List.length_append, List.length_append, List.length_replicate, List.length_replicate,
    List.length_replicate]

theorem getD_zerosOnesZeros (a b c k : Nat) :
    (zerosOnesZeros a b c).getD k 0 = if a ≤ k ∧ k < a + b then 2 ^ 64 - 1 else 0 := by
  unfold zerosOnesZeros
  rw [List.append_assoc, List.getD_eq_getElem?_getD, List.getElem?_append, List.length_replicate]
  by_cases h1 : k < a
  · rw [if_pos h1, List.getElem?_replicate, if_pos h1, if_neg (by omega)]
    rfl
  · rw [if_neg h1, List.getElem?_append, List.length_replicate]
    by_cases h2 : k - a < b
    · rw [if_pos h2, List.getElem?_replicate, if_pos h2, if_pos (by omega)]
      rfl
    · rw [if_neg h2, List.getElem?_replicate,
        if_neg (show ¬ (a ≤ k ∧ k < a + b) by omega)]
      split <;> rfl

theorem popcount_ones : popcount (2 ^ 64 - 1) = 64 := by rfl

theorem wordSum_zerosOnesZeros (a b c : Nat) : ∀ k,
    wordSum (zerosOnesZeros a b c) k = 64 * (min k (a + b) - min k a) := by
  intro k
  induction k with
  | zero => simp [wordSum_zero]
  | succ k ih =>
    rw [wordSum_succ, ih, getD_zerosOnesZeros]
    by_cases h : a ≤ k ∧ k < a + b
    · rw [if_pos h, popcount_ones]
      omega
    · rw [if_neg h, popcount_zero]
      omega

theorem padded_zerosOnesZeros (a b c n : Nat) (hn : 0 < n) (hones : 64 * (a + b) ≤ n)
    (hlen : 8 * ((n + 512 - 1) / 512) ≤ a + b + c) : Padded (zerosOnesZeros a b c) n := by
  refine ⟨hn, ?_, ?_⟩
  · rw [length_zerosOnesZeros]; exact hlen
  · intro k _
    rw [getD_zerosOnesZeros]
    by_cases h : a ≤ k ∧ k < a + b
    · rw [if_pos h, Nat.min_eq_left (by omega)]
      norm_num
    · rw [if_neg h]
      exact Nat.pow_pos (by decide)

theorem countOnes_zerosOnesZeros (a b c k : Nat) :
    countOnes (zerosOnesZeros a b c) (64 * k) = 64 * (min k (a + b) - min k a) := by
  rw [countOnes_words, wordSum_zerosOnesZeros]

/-- The sample loop over words without set bits leaves the samples as they are. -/
theorem sampleLoop_zeros (bv : List Nat) (base : Nat) : ∀ k j cum next tmp,
    base + j + k ≤ bv.length → cum < next →
    (∀ t, t < k → bv.getD (base + j + t) 0 = 0) →
    sampleLoop bv base k j cum next tmp = .ok tmp := by
  intro k
  induction k with
  | zero => intro j cum next tmp _ _ _; rfl
  | succ k ih =>
    intro j cum next tmp hlen hc hz
    have h0 := hz 0 (by omega)
    rw [Nat.add_zero] at h0
    rw [sampleLoop, readAt_ok (by omega), h0]
    simp only [popcount_zero, Nat.add_zero]
    rw [if_neg (by omega)]
    exact ih (j + 1) cum next tmp (by omega) hc (by
      intro t ht
      have := hz (t + 1) (by omega)
      rw [← this]
      congr 1
      omega)

/-- The sample loop skips a run of words without set bits. -/
theorem sampleLoop_skip (bv : List Nat) (base : Nat) (k2 : Nat) : ∀ k1 j cum next tmp,
    base + j + k1 ≤ bv.length → cum < next →
    (∀ t, t < k1 → bv.getD (base + j + t) 0 = 0) →
    sampleLoop bv base (k1 + k2) j cum next tmp =
      sampleLoop bv base k2 (j + k1) cum next tmp := by
  intro k1
  induction k1 with
  | zero => intro j cum next tmp _ _ _; rw [Nat.zero_add, Nat.add_zero]
  | succ k1 ih =>
    intro j cum next tmp hlen hc hz
    have h0 := hz 0 (by omega)
    rw [Nat.add_zero] at h0
    rw [show k1 + 1 + k2 = (k1 + k2) + 1 by omega, sampleLoop, readAt_ok (by omega), h0]
    simp only [popcount_zero, Nat.add_zero]
    rw [if_neg (by omega), ih (j + 1) cum next tmp (by omega) hc (by
      intro t ht
      have := hz (t + 1) (by omega)
      rw [← this]
      congr 1
      omega)]
    congr 1
    omega

/-- The scan of `select_l0` runs to the last entry when every entry is below `i`. -/
theorem selectL0Scan_all (select_l0 : List Nat) (i : Nat) : ∀ fuel l0_idx,
    l0_idx + fuel < select_l0.length →
    (∀ t, t < fuel → select_l0.getD (l0_idx + 1 + t) 0 < i) →
    selectL0Scan select_l0 i fuel l0_idx = .ok (l0_idx + fuel) := by
  intro fuel
  induction fuel with
  | zero => intro l0_idx _ _; rfl
  | succ fuel ih =>
    intro l0_idx hlen h
    have h0 := h 0 (by omega)
    rw [Nat.add_zero] at h0
    rw [selectL0Scan, readAt_ok (by omega)]
    simp only
    rw [if_pos h0, ih (l0_idx + 1) (by omega) (by
      intro t ht
      have := h (t + 1) (by omega)
      rw [show l0_idx + 1 + 1 + t = l0_idx + 1 + (t + 1) by omega]
      exact this)]
    congr 1
    omega

/-- The buckets the sample construction returns are those of `sampleBucket`, in order. -/
theorem sampleBuckets_getD (bv : List Nat) (n nsel : Nat) : ∀ k i acc r,
    sampleBuckets bv n nsel k i acc = .ok r →
    r.length = acc.length + k ∧ (∀ t, t < acc.length → r[t]? = acc[t]?) ∧
      ∀ t, t < k → ∃ b, sampleBucket bv n nsel (i + t) = .ok b ∧ r[acc.length + t]? = some b := by
  intro k
  induction k with
  | zero =>
    intro i acc r h
    rw [sampleBuckets] at h
    cases h
    exact ⟨rfl, fun _ _ => rfl, fun t ht => absurd ht (Nat.not_lt_zero t)⟩
  | succ k ih =>
    intro i acc r h
    rw [sampleBuckets] at h
    cases hb : sampleBucket bv n nsel i with
    | error e => rw [hb] at h; cases h
    | ok b =>
      rw [hb] at h
      obtain ⟨h1, h2, h3⟩ := ih (i + 1) (acc ++ [b]) r h
      rw [List.length_append, List.length_singleton] at h1 h2 h3
      refine ⟨by omega, ?_, ?_⟩
      · intro t ht
        rw [h2 t (by omega), List.getElem?_append_left ht]
      · intro t ht
        cases t with
        | zero =>
          refine ⟨b, hb, ?_⟩
          rw [Nat.add_zero, h2 _ (by omega), List.getElem?_append_right (Nat.le_refl _),
            Nat.sub_self]
          rfl
        | succ t =>
          obtain ⟨b', hb', hr'⟩ := h3 t (by omega)
          refine ⟨b', ?_, ?_⟩
          · rw [show i + (t + 1) = i + 1 + t by omega]; exact hb'
          · rw [show acc.length + (t + 1) = acc.length + 1 + t by omega]; exact hr'

/-- The samples of a returned index are the buckets of the sample construction, empty buckets
replaced by `[0]`. -/
theorem Orzo_samples (bv : List Nat) (n : Nat) (idx : Index) (h : Orzo bv n = .ok idx) :
    ∃ tmp, sampleBuckets bv n (ceilDivF32 n SELECT_UPPER_BLOCK_COUNT)
        (ceilDivF32 n SELECT_UPPER_BLOCK_COUNT) 0 [] = .ok tmp ∧
      idx.select_samples = tmp.map fixBucket := by
  obtain ⟨hbv, hlb, hl0, hsel, hsamp⟩ := Orzo_in_range bv n idx h
  obtain ⟨s, hs, inv⟩ := buildLoop_ok bv (ceilDivF32 n UPPER_BLOCK_COUNT)
    (ceilDivF32 n SELECT_UPPER_BLOCK_COUNT) (ceilDivF32 n LOWER_BLOCK_COUNT)
    (ceilDivF32 n BASIC_BLOCK_COUNT) 0 _ (buildInv_init bv _ _ _)
    (by omega) (by omega) (by omega) (by omega)
  rw [Nat.zero_add] at hs inv
  obtain ⟨h1, h2, h3, h4, h5, h6, h7, h8, h9, h10, h11, h12, h13, h14, h15, h16, h17, h18, h19,
    h20⟩ := inv
  have hw0 : s.l0_idx < s.l0.length := by rw [h3, h9]; omega
  obtain ⟨ef, _, heflt, hw⟩ := writeRecord_ok s.l1l2 s.l1l2_idx s.count_within_upper s.l2_counts
    (by rw [h2, h11]; exact hlb) h7 h8
  have hws : s.select_l0_idx < s.select_l0.length := by rw [h4, h10]; omega
  obtain ⟨tmp, htmp, htl⟩ := sampleBuckets_ok bv n (ceilDivF32 n SELECT_UPPER_BLOCK_COUNT)
    (ceilDivF32 n SELECT_UPPER_BLOCK_COUNT) 0 [] (by
      intro t _ ht; exact hsamp t (by omega))
  rw [h2] at hw
  refine ⟨tmp, htmp, ?_⟩
  unfold Orzo at h
  simp only [hs, writeAt, hw0, hws, if_true, h2, hw, htmp] at h
  cases h
  rfl

/-- Bucket `t` of the samples of a returned index. -/
theorem Orzo_sample_bucket (bv : List Nat) (n : Nat) (idx : Index) (h : Orzo bv n = .ok idx)
    (t : Nat) (ht : t < ceilDivF32 n SELECT_UPPER_BLOCK_COUNT) :
    ∃ b, sampleBucket bv n (ceilDivF32 n SELECT_UPPER_BLOCK_COUNT) t = .ok b ∧
      idx.select_samples[t]? = some (fixBucket b) := by
  obtain ⟨tmp, h1, h2⟩ := Orzo_samples bv n idx h
  obtain ⟨_, _, h3⟩ := sampleBuckets_getD bv n _ _ 0 [] tmp h1
  obtain ⟨b, hb, hr⟩ := h3 t ht
  refine ⟨b, by rw [Nat.zero_add] at hb; exact hb, ?_⟩
  rw [h2, List.getElem?_map]
  rw [List.length_nil, Nat.zero_add] at hr
  rw [hr]
  rfl

theorem readAt_error {fault : Nat → Fault} {arr : List Nat} {idx : Nat}
    (h : arr.length ≤ idx) : readAt fault arr idx = .error (fault idx) := by
  unfold readAt
  rw [List.getElem?_eq_none h]

/-- The constructor returns an index for `n = 137439043583` over any buffer of 2147485056
words: it computes 268435616 basic blocks, 24403238 records, 530506 upper blocks and 33 select
upper blocks. -/
theorem Orzo_built_137439043583 (bv : List Nat) (hlen : bv.length = 2147485056) :
    ∃ idx, Orzo bv 137439043583 = .ok idx ∧ BuiltIndex bv 137439043583 idx := by
  have hbb : ceilDivF32 137439043583 BASIC_BLOCK_COUNT = 268435616 := by rfl
  have hlb : ceilDivF32 137439043583 LOWER_BLOCK_COUNT = 24403238 := by rfl
  have hl0 : ceilDivF32 137439043583 UPPER_BLOCK_COUNT = 530506 := by rfl
  have hsel : ceilDivF32 137439043583 SELECT_UPPER_BLOCK_COUNT = 33 := by rfl
  refine Orzo_ok bv 137439043583
    (by rw [hbb, hlen]; decide) (by rw [hbb, hlb]; decide) (by rw [hbb, hl0]; decide)
    (by rw [hbb, hsel]; decide) ?_
  rw [hsel, hlen]
  intro t ht
  unfold wordsInBucket
  have hW : SELECT_UPPER_BLOCK_COUNT / 64 = 67107744 := by rfl
  have hp : 137439043583 / 64 % 67107744 = 37247 := by rfl
  rw [hW, hp]
  split <;> omega

/-- The constructor returns an index for `n = 73013225536` over any buffer of 1140831656 words:
it computes 142603952 basic blocks, 12963996 records, 281826 upper blocks and 17 select upper
blocks. -/
theorem Orzo_built_73013225536 (bv : List Nat) (hlen : bv.length = 1140831656) :
    ∃ idx, Orzo bv 73013225536 = .ok idx ∧ BuiltIndex bv 73013225536 idx := by
  have hbb : ceilDivF32 73013225536 BASIC_BLOCK_COUNT = 142603952 := by rfl
  have hlb : ceilDivF32 73013225536 LOWER_BLOCK_COUNT = 12963996 := by rfl
  have hl0 : ceilDivF32 73013225536 UPPER_BLOCK_COUNT = 281826 := by rfl
  have hsel : ceilDivF32 73013225536 SELECT_UPPER_BLOCK_COUNT = 17 := by rfl
  refine Orzo_ok bv 73013225536
    (by rw [hbb, hlen]; decide) (by rw [hbb, hlb]; decide) (by rw [hbb, hl0]; decide)
    (by rw [hbb, hsel]; decide) ?_
  rw [hsel, hlen]
  intro t ht
  unfold wordsInBucket
  have hW : SELECT_UPPER_BLOCK_COUNT / 64 = 67107744 := by rfl
  have hp : 73013225536 / 64 % 67107744 = 1 := by rfl
  rw [hW, hp]
  split <;> omega

/-- `rank1` reads the record of the lower block of `i` first. -/
theorem rank1_l1l2_fault (self : Index) (bv : List Nat) (i : Nat)
    (h : self.l1l2.length ≤ i / LOWER_BLOCK_COUNT) :
    rank1 self bv i = .error (.l1l2Read (i / LOWER_BLOCK_COUNT)) := by
  unfold rank1
  simp only
  rw [readAt_error h]

/-- `select1` up to the sample lookup, when the slot lies behind the samples of the bucket. -/
theorem select1_sample_fault (self : Index) (bv : List Nat) (i l0_idx l0 : Nat) (b : List Nat)
    (h1 : selectL0Scan self.select_l0 i (self.SELECT_L0_ENTRY_COUNT - 1) 0 = .ok l0_idx)
    (h2 : readAt .selectL0Read self.select_l0 l0_idx = .ok l0)
    (h3 : self.select_samples[l0_idx]? = some b)
    (h4 : b.length ≤ sub64 (sub64 i l0) 1 / SELECT_SAMPLE) :
    select1 self bv i = .error (.sampleRead l0_idx (sub64 (sub64 i l0) 1 / SELECT_SAMPLE)) := by
  unfold select1
  simp only [h1, h2, h3]
  rw [List.getElem?_eq_none h4]

/-- `select1` up to the read of the sampled record, when the record lies behind `l1l2`. -/
theorem select1_l1l2_fault (self : Index) (bv : List Nat) (i l0_idx l0 sample : Nat)
    (b : List Nat)
    (h1 : selectL0Scan self.select_l0 i (self.SELECT_L0_ENTRY_COUNT - 1) 0 = .ok l0_idx)
    (h2 : readAt .selectL0Read self.select_l0 l0_idx = .ok l0)
    (h3 : self.select_samples[l0_idx]? = some b)
    (h4 : b[sub64 (sub64 i l0) 1 / SELECT_SAMPLE]? = some sample)
    (h5 : (sample + l0_idx * L1L2_PER_SELECT_UPPER) / LOWER_PER_UPPER < self.l0.length)
    (h6 : self.l1l2.length ≤ sample + l0_idx * L1L2_PER_SELECT_UPPER) :
    select1 self bv i = .error (.l1l2Read (sample + l0_idx * L1L2_PER_SELECT_UPPER)) := by
  unfold select1
  simp only [h1, h2, h3, h4, readAt_ok h5, readAt_error h6]

/-- The samples of a bucket whose scanned words are `k1` zero words, one word of ones and `k2`
zero words: the single sample is the local lower block of the word of ones. -/
theorem sampleLoop_zeros_ones_zeros (bv : List Nat) (base k1 k2 : Nat)
    (hlen : base + k1 + 1 + k2 ≤ bv.length)
    (hz1 : ∀ t, t < k1 → bv.getD (base + t) 0 = 0)
    (hone : bv.getD (base + k1) 0 = 2 ^ 64 - 1)
    (hz2 : ∀ t, t < k2 → bv.getD (base + k1 + 1 + t) 0 = 0) :
    sampleLoop bv base (k1 + (1 + k2)) 0 0 1 [] = .ok [(k1 / LOWER_BLOCK_WORDS) % 2 ^ 32] := by
  rw [sampleLoop_skip bv base (1 + k2) k1 0 0 1 [] (by omega) (by decide) (by
    intro t ht; rw [Nat.add_zero]; exact hz1 t ht)]
  rw [Nat.zero_add, Nat.add_comm 1 k2, sampleLoop, readAt_ok (by omega), hone]
  simp only [popcount_ones, Nat.zero_add]
  rw [if_pos (by decide)]
  exact sampleLoop_zeros bv base k2 (k1 + 1) 64 (1 + SELECT_SAMPLE) _ (by omega) (by decide) (by
    intro t ht
    rw [← Nat.add_assoc]
    exact hz2 t ht)

/-! ## Queries on indexes built with rounded block counts -/

theorem sampleBucket_eq (bv : List Nat) (n nsel i : Nat) :
    sampleBucket bv n nsel i =
      sampleLoop bv (i * (SELECT_UPPER_BLOCK_COUNT / 64)) (wordsInBucket n nsel i) 0 0 1 [] := rfl

theorem bitAt_zerosOnesZeros (a b c p : Nat) (h : a ≤ p / 64 ∧ p / 64 < a + b) :
    bitAt (zerosOnesZeros a b c) p = 1 := by
  unfold bitAt
  rw [getD_zerosOnesZeros, if_pos h, Nat.shiftRight_eq_div_pow]
  have hk : p % 64 < 64 := Nat.mod_lt _ (by decide)
  have := Nat.testBit_two_pow_sub_one 64 (p % 64)
  rw [Nat.testBit_to_div_mod, decide_eq_true hk] at this
  exact of_decide_eq_true this

/-- The last bucket of the samples for `n = 73013225536` over a buffer of 1140831656 words whose
word 1073723904 is zero: one word is scanned and the bucket is `[0]`. -/
theorem last_bucket_73013225536 (bv : List Nat) (hlen : bv.length = 1140831656)
    (hz : bv.getD 1073723904 0 = 0) (idx : Index) (h : Orzo bv 73013225536 = .ok idx) :
    idx.select_samples[16]? = some [0] := by
  have hsel : ceilDivF32 73013225536 SELECT_UPPER_BLOCK_COUNT = 17 := by rfl
  obtain ⟨b, hbk, hsamp⟩ := Orzo_sample_bucket bv 73013225536 idx h 16 (by rw [hsel]; decide)
  have hwords : wordsInBucket 73013225536 17 16 = 1 := by rfl
  have hbase : 16 * (SELECT_UPPER_BLOCK_COUNT / 64) = 1073723904 := by rfl
  rw [hsel, sampleBucket_eq, hwords, hbase,
    sampleLoop_zeros bv 1073723904 1 0 0 1 [] (by rw [hlen]; decide) (by decide) (by
      intro t ht
      have : t = 0 := by omega
      subst this
      exact hz)] at hbk
  cases hbk
  exact hsamp

/-- C21, evaluated at failing inputs: for `n = 137439043583` the constructor computes
`(float) n / 5632` and allocates 24403238 records, although B has
`floor(n / 5632) = 24403239` complete lower blocks. Over the padded buffer whose only set bits
are the 64 bits of word 2147484944 the index is built, and `rank1(B, 137439036480)`, a position
inside the complete lower block 24403238 with 64 set bits before it, reads `l1l2[24403238]`.
For `n = 11263` and B all ones, `ceil(n / 512) = 22` is a multiple of 11 and the constructor
writes `l1l2[2]` of 2 records, so there is no index for the complete lower block 0. -/
theorem rank1_reads_past_l1l2 :
    Padded onesInLastCompleteBlock 137439043583 ∧
      137439043583 / LOWER_BLOCK_COUNT = 24403239 ∧
      137439036480 < 137439043583 / LOWER_BLOCK_COUNT * LOWER_BLOCK_COUNT ∧
      countOnes onesInLastCompleteBlock 137439036480 = 64 ∧
      ceilDivF32 137439043583 LOWER_BLOCK_COUNT = 24403238 ∧
      (∃ idx, Orzo onesInLastCompleteBlock 137439043583 = .ok idx ∧
        idx.l1l2.length = 24403238 ∧
        rank1 idx onesInLastCompleteBlock 137439036480 = .error (.l1l2Read 24403238)) ∧
      Padded ones11263 11263 ∧ 11263 / LOWER_BLOCK_COUNT = 1 ∧
      Orzo ones11263 11263 = .error (.l1l2Write 2) := by
  have hlen : onesInLastCompleteBlock.length = 2147485056 := length_zerosOnesZeros _ _ _
  obtain ⟨idx, h1, hb⟩ := Orzo_built_137439043583 _ hlen
  have hlb : ceilDivF32 137439043583 LOWER_BLOCK_COUNT = 24403238 := by rfl
  have hl := hb.l1l2_len
  rw [hlb] at hl
  have e : 137439036480 / LOWER_BLOCK_COUNT = 24403238 := by rfl
  have hr := rank1_l1l2_fault idx onesInLastCompleteBlock 137439036480 (by rw [hl, e])
  rw [e] at hr
  exact ⟨padded_zerosOnesZeros _ _ _ _ (by decide) (by decide) (by decide), by rfl, by decide,
    (countOnes_zerosOnesZeros 2147484944 1 111 2147484945).trans (by decide), hlb,
    ⟨idx, h1, hl, hr⟩, by decide, by rfl, by rfl⟩

/-- C22, evaluated at a failing input: for `n = 137439043583` and the padded buffer whose only
set bits are the 64 bits of word 2147484944, the first set bit lies at position 137439036416,
inside the complete lower block 24403238 (`floor(n / 5632) = 24403239`). The index is built
with 24403238 records, the sample of select upper block 32 is the local record 422, and
`select1(B, 1)` reads `l1l2[422 + 32 * 762588] = l1l2[24403238]`. -/
theorem select1_reads_past_l1l2 :
    Padded onesInLastCompleteBlock 137439043583 ∧
      countOnes onesInLastCompleteBlock 137439036416 = 0 ∧
      bitAt onesInLastCompleteBlock 137439036416 = 1 ∧
      137439036416 < 137439043583 / LOWER_BLOCK_COUNT * LOWER_BLOCK_COUNT ∧
      ∃ idx, Orzo onesInLastCompleteBlock 137439043583 = .ok idx ∧
        idx.l1l2.length = 24403238 ∧ idx.select_samples[32]? = some [422] ∧
        select1 idx onesInLastCompleteBlock 1 = .error (.l1l2Read 24403238) := by
  have hdef : onesInLastCompleteBlock = zerosOnesZeros 2147484944 1 111 := rfl
  have hlen : onesInLastCompleteBlock.length = 2147485056 := length_zerosOnesZeros _ _ _
  obtain ⟨idx, h1, hb⟩ := Orzo_built_137439043583 _ hlen
  have hbb : ceilDivF32 137439043583 BASIC_BLOCK_COUNT = 268435616 := by rfl
  have hlb : ceilDivF32 137439043583 LOWER_BLOCK_COUNT = 24403238 := by rfl
  have hl0 : ceilDivF32 137439043583 UPPER_BLOCK_COUNT = 530506 := by rfl
  have hsel : ceilDivF32 137439043583 SELECT_UPPER_BLOCK_COUNT = 33 := by rfl
  have hl := hb.l1l2_len
  have hl0len := hb.l0_len
  have hsl := hb.sel_len
  have hsc := hb.sel_count
  rw [hlb] at hl
  rw [hl0] at hl0len
  rw [hsel] at hsl hsc
  have hcontent : ∀ k, k ≤ 32 → idx.select_l0.getD k 0 = 0 := by
    intro k hk
    rw [hb.sel_content k (by rw [hbb]; exact hk), hdef, wordSum_zerosOnesZeros]
    omega
  -- the scan of select_l0 ends in the last select upper block
  have s1 : selectL0Scan idx.select_l0 1 (idx.SELECT_L0_ENTRY_COUNT - 1) 0 = .ok 32 := by
    rw [hsc]
    exact selectL0Scan_all idx.select_l0 1 32 0 (by rw [hsl]; decide) (by
      intro t ht
      rw [hcontent _ (by omega)]
      decide)
  have s2 : readAt .selectL0Read idx.select_l0 32 = .ok 0 := by
    rw [readAt_ok (by rw [hsl]; decide), hcontent 32 (Nat.le_refl _)]
  -- the samples of bucket 32
  obtain ⟨b, hbk, hsamp⟩ := Orzo_sample_bucket _ _ idx h1 32 (by rw [hsel]; decide)
  have hwords : wordsInBucket 137439043583 33 32 = 37136 + (1 + 110) := by rfl
  have hbase : 32 * (SELECT_UPPER_BLOCK_COUNT / 64) = 2147447808 := by rfl
  rw [hsel, sampleBucket_eq, hwords, hbase, hdef,
    sampleLoop_zeros_ones_zeros (zerosOnesZeros 2147484944 1 111) 2147447808 37136 110
      (by rw [length_zerosOnesZeros]; decide)
      (by intro t ht; rw [getD_zerosOnesZeros, if_neg (by omega)])
      (by rw [getD_zerosOnesZeros, if_pos (by omega)])
      (by intro t ht; rw [getD_zerosOnesZeros, if_neg (by omega)])] at hbk
  have hbe : b = [422] := by
    cases hbk
    rfl
  subst hbe
  have s3 : idx.select_samples[32]? = some [422] := hsamp
  have eslot : sub64 (sub64 1 0) 1 / SELECT_SAMPLE = 0 := by rfl
  have eidx : 422 + 32 * L1L2_PER_SELECT_UPPER = 24403238 := by rfl
  have hsel1 := select1_l1l2_fault idx onesInLastCompleteBlock 1 32 0 422 [422] s1 s2 s3
    (by rw [eslot]; rfl)
    (by rw [eidx, hl0len]; decide)
    (by rw [eidx, hl])
  rw [eidx] at hsel1
  refine ⟨padded_zerosOnesZeros _ _ _ _ (by decide) (by decide) (by decide), ?_, ?_, by decide,
    idx, h1, hl, s3, hsel1⟩
  · exact (countOnes_zerosOnesZeros 2147484944 1 111 2147484944).trans (by decide)
  · exact bitAt_zerosOnesZeros 2147484944 1 111 137439036416 ⟨by decide, by decide⟩

/-- C23, evaluated at a failing input: `n = 73013225536 = 17 * SELECT_UPPER_BLOCK_COUNT + 64` is
a multiple of 64, `(float) n / (float) SELECT_UPPER_BLOCK_COUNT` rounds to 17 and the constructor
scans `(n / 64) % 67107744 = 1` word for the samples of the last select upper block 16. Over
the padded buffer whose 8256 set bits are the words 1073723905..1073724033 the index is built
with `get_one_count() = 8256` and the samples `[0]` for block 16, and `select1(B, 8193)` looks
up slot 1 of them before the walk starts. -/
theorem walk_starts_from_missing_sample :
    Padded onesAfterFirstWord 73013225536 ∧ 73013225536 % 64 = 0 ∧
      countOnes onesAfterFirstWord 73013225536 = 8256 ∧
      ceilDivF32 73013225536 SELECT_UPPER_BLOCK_COUNT = 17 ∧
      ceilDiv 73013225536 SELECT_UPPER_BLOCK_COUNT = 18 ∧
      ∃ idx, Orzo onesAfterFirstWord 73013225536 = .ok idx ∧ get_one_count idx = 8256 ∧
        idx.select_samples[16]? = some [0] ∧
        select1 idx onesAfterFirstWord 8193 = .error (.sampleRead 16 1) := by
  have hdef : onesAfterFirstWord = zerosOnesZeros 1073723905 129 67107622 := rfl
  have hlen : onesAfterFirstWord.length = 1140831656 := length_zerosOnesZeros _ _ _
  obtain ⟨idx, h1, hb⟩ := Orzo_built_73013225536 _ hlen
  have hbb : ceilDivF32 73013225536 BASIC_BLOCK_COUNT = 142603952 := by rfl
  have hsel : ceilDivF32 73013225536 SELECT_UPPER_BLOCK_COUNT = 17 := by rfl
  have hsl := hb.sel_len
  have hsc := hb.sel_count
  have hone := hb.one_count
  rw [hsel] at hsl hsc
  rw [hbb, hdef, wordSum_zerosOnesZeros] at hone
  have hcontent : ∀ k, k ≤ 16 → idx.select_l0.getD k 0 = 0 := by
    intro k hk
    rw [hb.sel_content k (by rw [hbb]; exact hk), hdef, wordSum_zerosOnesZeros]
    omega
  have s1 : selectL0Scan idx.select_l0 8193 (idx.SELECT_L0_ENTRY_COUNT - 1) 0 = .ok 16 := by
    rw [hsc]
    exact selectL0Scan_all idx.select_l0 8193 16 0 (by rw [hsl]; decide) (by
      intro t ht
      rw [hcontent _ (by omega)]
      decide)
  have s2 : readAt .selectL0Read idx.select_l0 16 = .ok 0 := by
    rw [readAt_ok (by rw [hsl]; decide), hcontent 16 (Nat.le_refl _)]
  have s3 : idx.select_samples[16]? = some [0] :=
    last_bucket_73013225536 onesAfterFirstWord hlen (by
      rw [hdef, getD_zerosOnesZeros, if_neg (by omega)]) idx h1
  have eslot : sub64 (sub64 8193 0) 1 / SELECT_SAMPLE = 1 := by rfl
  have hsel1 := select1_sample_fault idx onesAfterFirstWord 8193 16 0 [0] s1 s2 s3
    (by rw [eslot]; decide)
  rw [eslot] at hsel1
  refine ⟨padded_zerosOnesZeros _ _ _ _ (by decide) (by decide) (by decide), by rfl, ?_, hsel,
    by rfl, idx, h1, ?_, s3, hsel1⟩
  · exact (countOnes_zerosOnesZeros 1073723905 129 67107622 1140831649).trans (by decide)
  · show idx.one_count = 8256
    rw [hone]
    decide

/-- C24, evaluated at a failing input: for `n = 73013225536 = 17 * SELECT_UPPER_BLOCK_COUNT + 64`
and the padded buffer whose only set bits are the 64 bits of word 1073723992, select upper block
16 lies inside B and holds `c = 64` set bits, the first of them in word `88` of the block, so
`S_16` should be the `ceil(64 / 8192) = 1` sample `floor(88 / 88) = 1`. The constructor scans
one word of the block and stores `S_16 = [0]`. -/
theorem last_select_block_sample_wrong :
    Padded onesInSecondLowerBlock 73013225536 ∧ 73013225536 % 64 = 0 ∧
      17 * SELECT_UPPER_BLOCK_COUNT ≤ 73013225536 ∧
      countOnes onesInSecondLowerBlock (17 * SELECT_UPPER_BLOCK_COUNT) -
        countOnes onesInSecondLowerBlock (16 * SELECT_UPPER_BLOCK_COUNT) = 64 ∧
      countOnes onesInSecondLowerBlock (64 * 1073723992) = 0 ∧
      bitAt onesInSecondLowerBlock (64 * 1073723992) = 1 ∧
      (1073723992 - 16 * (SELECT_UPPER_BLOCK_COUNT / 64)) / LOWER_BLOCK_WORDS = 1 ∧
      ∃ idx, Orzo onesInSecondLowerBlock 73013225536 = .ok idx ∧
        idx.select_samples[16]? = some [0] := by
  have hdef : onesInSecondLowerBlock = zerosOnesZeros 1073723992 1 67107663 := rfl
  have hlen : onesInSecondLowerBlock.length = 1140831656 := length_zerosOnesZeros _ _ _
  obtain ⟨idx, h1, _⟩ := Orzo_built_73013225536 _ hlen
  have s3 : idx.select_samples[16]? = some [0] :=
    last_bucket_73013225536 onesInSecondLowerBlock hlen (by
      rw [hdef, getD_zerosOnesZeros, if_neg (by omega)]) idx h1
  have e17 : 17 * SELECT_UPPER_BLOCK_COUNT = 64 * 1140831648 := by rfl
  have e16 : 16 * SELECT_UPPER_BLOCK_COUNT = 64 * 1073723904 := by rfl
  refine ⟨padded_zerosOnesZeros _ _ _ _ (by decide) (by decide) (by decide), by rfl, by decide,
    ?_, ?_, ?_, by rfl, idx, h1, s3⟩
  · rw [e17, e16, hdef, countOnes_zerosOnesZeros, countOnes_zerosOnesZeros]
    decide
  · rw [hdef, countOnes_zerosOnesZeros]
    decide
  · exact bitAt_zerosOnesZeros 1073723992 1 67107663 (64 * 1073723992) ⟨by decide, by decide⟩

/-! ## rank1 on the lower blocks the build loop completed -/

theorem popcountAux_mod (r : Nat) : ∀ w, popcountAux r (w % 2 ^ r) = popcountAux r w := by
  induction r with
  | zero => intro w; rfl
  | succ r ih =>
    intro w
    rw [popcountAux, popcountAux, Nat.pow_succ, Nat.mul_comm (2 ^ r) 2,
      Nat.mod_mul_right_div_self, ih, Nat.mod_mod_of_dvd _ (Dvd.intro _ rfl)]

theorem popcountAux_shift (r : Nat) (w : Nat) : ∀ s,
    popcountAux (s + r) ((w * 2 ^ s) % 2 ^ (s + r)) = popcountAux r w := by
  intro s
  induction s with
  | zero => rw [Nat.zero_add, Nat.pow_zero, Nat.mul_one, popcountAux_mod]
  | succ s ih =>
    have e : (w * 2 ^ (s + 1)) % 2 ^ (s + 1 + r) = 2 * ((w * 2 ^ s) % 2 ^ (s + r)) := by
      rw [show s + 1 + r = (s + r) + 1 by omega, Nat.pow_succ, Nat.pow_succ,
        Nat.mul_comm (2 ^ s) 2, Nat.mul_comm (2 ^ (s + r)) 2, ← Nat.mul_assoc,
        Nat.mul_comm w 2, Nat.mul_assoc, Nat.mul_mod_mul_left]
    rw [e, show s + 1 + r = (s + r) + 1 by omega, popcountAux, Nat.mul_mod_right,
      Nat.mul_div_cancel_left _ (by decide : 0 < 2), ih, Nat.zero_add]

/-- The popcount `rank1` takes of the last, partial word counts its low `r` bits. -/
theorem popcount_low_bits (w r : Nat) (hr : r ≤ 64) :
    popcount ((w <<< (64 - r)) % 2 ^ 64) = ((List.range r).map (fun t => (w >>> t) % 2)).sum := by
  have h := popcountAux_shift r w (64 - r)
  rw [show 64 - r + r = 64 by omega] at h
  rw [popcount, Nat.shiftLeft_eq, h, popcountAux_eq_sum]

theorem rankWordLoop_ok (bv : List Nat) (off : Nat) : ∀ k j acc, off + j + k ≤ bv.length →
    rankWordLoop bv off k j acc =
      .ok (acc + (wordSum bv (off + j + k) - wordSum bv (off + j))) := by
  intro k
  induction k with
  | zero => intro j acc _; simp [rankWordLoop]
  | succ k ih =>
    intro j acc h
    rw [rankWordLoop, readAt_ok (by omega)]
    simp only
    rw [ih (j + 1) _ (by omega)]
    have h1 := wordSum_succ bv (off + j)
    have h2 := wordSum_mono bv (show off + j + 1 ≤ off + (j + 1) + k by omega)
    rw [show off + (j + 1) + k = off + j + (k + 1) by omega] at *
    rw [show off + (j + 1) = off + j + 1 by omega] at *
    have h3 : acc + popcount (bv.getD (off + j) 0) +
        (wordSum bv (off + j + (k + 1)) - wordSum bv (off + j + 1)) =
        acc + (wordSum bv (off + j + (k + 1)) - wordSum bv (off + j)) := by omega
    rw [h3]

/-- Bits of the buffer below a position inside a word. -/
theorem countOnes_partial_word (bv : List Nat) (k r : Nat) (hr : r ≤ 64) :
    countOnes bv (64 * k + r) =
      wordSum bv k + popcount ((bv.getD k 0 <<< (64 - r)) % 2 ^ 64) := by
  rw [countOnes_add, countOnes_words, popcount_low_bits _ _ hr]
  congr 2
  apply List.map_congr_left
  intro b hb
  have hb' : b < r := by simpa using hb
  unfold bitAt
  rw [show (64 * k + b) / 64 = k by omega, show (64 * k + b) % 64 = b by omega]

/-- `rank1` on a lower block whose record the build loop completed: the result is the number
of set bits of the buffer below `i`, and every read is in bounds. -/
theorem rank1_complete_record (bv : List Nat) (n : Nat) (idx : Index)
    (h : Orzo bv n = .ok idx) (i : Nat)
    (hi : i / LOWER_BLOCK_COUNT < ceilDivF32 n BASIC_BLOCK_COUNT / 11) :
    rank1 idx bv i = .ok (countOnes bv i) := by
  have hb := Orzo_built bv n idx h
  obtain ⟨hbv, hlb, hl0, _, _⟩ := Orzo_in_range bv n idx h
  have hi' : i / 5632 < ceilDivF32 n BASIC_BLOCK_COUNT / 11 := hi
  -- the decomposition of i
  have hk : i / LOWER_BLOCK_COUNT = i / 5632 := rfl
  have hu : i / UPPER_BLOCK_COUNT = i / 5632 / 46 := by
    show i / 259072 = i / 5632 / 46
    omega
  have hbbo : i / 512 * 8 = 88 * (i / 5632) + 8 * ((i - i / 5632 * 5632) / 512) := by
    omega
  -- the reads of the index
  have r1 : readAt .l1l2Read idx.l1l2 (i / 5632) = .ok (idx.l1l2.getD (i / 5632) 0) :=
    readAt_ok (by rw [hb.l1l2_len]; omega)
  have r0 : readAt .l0Read idx.l0 (i / 5632 / 46) = .ok (idx.l0.getD (i / 5632 / 46) 0) :=
    readAt_ok (by rw [hb.l0_len]; omega)
  -- L0 + L1
  have hc := built_l0_l1_consistency bv n idx hb (i / 5632) (by omega)
  rw [show i / 5632 / LOWER_PER_UPPER = i / 5632 / 46 from rfl,
    show i / 5632 * LOWER_BLOCK_COUNT = 64 * (88 * (i / 5632)) by
      show i / 5632 * 5632 = _; omega, countOnes_words] at hc
  have hl1 : (idx.l1l2.getD (i / 5632) 0 >>> EF_TOTAL_COUNT) % 2 ^ 64 =
      idx.l1l2.getD (i / 5632) 0 >>> EF_TOTAL_COUNT := by
    obtain ⟨ef, _, e1, e2⟩ := hb.l1l2_complete (i / 5632) hi'
    rw [e2, shiftRight_record _ _ e1]
    have hup := wordSum_add_le bv (4048 * (i / 5632 / 46)) (88 * (i / 5632) - 4048 * (i / 5632 / 46))
    rw [show 4048 * (i / 5632 / 46) + (88 * (i / 5632) - 4048 * (i / 5632 / 46)) =
      88 * (i / 5632) by omega] at hup
    apply Nat.mod_eq_of_lt
    have h64 : (2 : Nat) ^ 64 = 18446744073709551616 := by norm_num
    rw [h64]
    omega
  -- the payload
  have hpay : (if (i - i / 5632 * 5632) / 512 ≠ 0 then
        (idx.l1l2.getD (i / 5632) 0 >>> EF_TOTAL_COUNT) + idx.l0.getD (i / 5632 / 46) 0 +
          ef_decode_rank (idx.l1l2.getD (i / 5632) 0) ((i - i / 5632 * 5632) / 512)
      else (idx.l1l2.getD (i / 5632) 0 >>> EF_TOTAL_COUNT) + idx.l0.getD (i / 5632 / 46) 0) =
      wordSum bv (88 * (i / 5632) + 8 * ((i - i / 5632 * 5632) / 512)) := by
    by_cases hz : (i - i / 5632 * 5632) / 512 = 0
    · rw [if_neg (by rw [hz]; exact fun hne => hne rfl), hz, Nat.mul_zero, Nat.add_zero]
      omega
    · rw [if_pos hz]
      have hj : (i - i / 5632 * 5632) / 512 - 1 < N_L2 := by
        show _ < 10
        omega
      obtain ⟨_, hd⟩ := built_payload_complete bv n idx hb (i / 5632) hi' _ hj
      rw [show (i - i / 5632 * 5632) / 512 - 1 + 1 = (i - i / 5632 * 5632) / 512 by omega,
        show i / 5632 * LOWER_BLOCK_COUNT + (i - i / 5632 * 5632) / 512 * BASIC_BLOCK_COUNT =
          64 * (88 * (i / 5632) + 8 * ((i - i / 5632 * 5632) / 512)) by
            show i / 5632 * 5632 + (i - i / 5632 * 5632) / 512 * 512 = _; omega,
        show i / 5632 * LOWER_BLOCK_COUNT = 64 * (88 * (i / 5632)) by
          show i / 5632 * 5632 = _; omega,
        countOnes_words, countOnes_words] at hd
      rw [hd]
      have := wordSum_mono bv (show 88 * (i / 5632) ≤
        88 * (i / 5632) + 8 * ((i - i / 5632 * 5632) / 512) by omega)
      omega
  -- the words of the basic block
  have hwords : 88 * (i / 5632) + 8 * ((i - i / 5632 * 5632) / 512) + i % 512 / 64 + 1 ≤
      bv.length := by omega
  have hloop := rankWordLoop_ok bv (88 * (i / 5632) + 8 * ((i - i / 5632 * 5632) / 512))
    (i % 512 / 64) 0
    (wordSum bv (88 * (i / 5632) + 8 * ((i - i / 5632 * 5632) / 512))) (by omega)
  rw [Nat.add_zero] at hloop
  have hmono := wordSum_mono bv (show 88 * (i / 5632) + 8 * ((i - i / 5632 * 5632) / 512) ≤
    88 * (i / 5632) + 8 * ((i - i / 5632 * 5632) / 512) + i % 512 / 64 by omega)
  rw [show wordSum bv (88 * (i / 5632) + 8 * ((i - i / 5632 * 5632) / 512)) +
      (wordSum bv (88 * (i / 5632) + 8 * ((i - i / 5632 * 5632) / 512) + i % 512 / 64) -
        wordSum bv (88 * (i / 5632) + 8 * ((i - i / 5632 * 5632) / 512))) =
      wordSum bv (88 * (i / 5632) + 8 * ((i - i / 5632 * 5632) / 512) + i % 512 / 64) by
        omega] at hloop
  have hpos : i = 64 * (88 * (i / 5632) + 8 * ((i - i / 5632 * 5632) / 512) + i % 512 / 64) +
      i % 512 % 64 := by omega
  have hfinal := countOnes_partial_word bv
    (88 * (i / 5632) + 8 * ((i - i / 5632 * 5632) / 512) + i % 512 / 64) (i % 512 % 64)
    (by omega)
  rw [← hpos] at hfinal
  unfold rank1
  simp only [hk, hu, r1, r0, hl1, hbbo, hpay, hloop,
    show i - i / 5632 * LOWER_BLOCK_COUNT = i - i / 5632 * 5632 from rfl,
    show ∀ x : Nat, x / BASIC_BLOCK_COUNT = x / 512 from fun _ => rfl,
    show i % BASIC_BLOCK_COUNT = i % 512 from rfl]
  by_cases hrem : i % 512 % 64 = 0
  · rw [if_neg (by rw [hrem]; exact fun hne => hne rfl), hfinal, hrem, Nat.sub_zero]
    have : popcount ((bv.getD (88 * (i / 5632) + 8 * ((i - i / 5632 * 5632) / 512) +
        i % 512 / 64) 0 <<< 64) % 2 ^ 64) = 0 := by
      rw [Nat.shiftLeft_eq, Nat.mul_mod_left]
      rfl
    rw [this, Nat.add_zero]
  · rw [if_pos hrem, readAt_ok (by omega)]
    simp only
    rw [hfinal]

/-- `rank1` is correct on every complete lower block of B when the constructor returns an index
and the number of basic blocks it computed is the exact ceiling: for
`i < floor(n / LOWER_BLOCK_COUNT) * LOWER_BLOCK_COUNT`, `rank1(B, i)` returns the number of set
bits below `i`, every read in bounds. -/
theorem rank1_complete_blocks_exact_counts (bv : List Nat) (n : Nat) (idx : Index)
    (h : Orzo bv n = .ok idx)
    (hexact : ceilDivF32 n BASIC_BLOCK_COUNT = ceilDiv n BASIC_BLOCK_COUNT)
    (i : Nat) (hi : i < n / LOWER_BLOCK_COUNT * LOWER_BLOCK_COUNT) :
    rank1 idx bv i = .ok (countOnes bv i) := by
  apply rank1_complete_record bv n idx h
  rw [hexact]
  have hi' : i < n / 5632 * 5632 := hi
  show i / 5632 < (n + 512 - 1) / 512 / 11
  omega

/-- Instance of `rank1_complete_blocks_exact_counts`: `n = 6144`, 5632 ones followed by 512
zeros, `i = 3008`. -/
theorem rank1_complete_blocks_instance :
    ∃ idx, Orzo onesThenZeros6144 6144 = .ok idx ∧
      ceilDivF32 6144 BASIC_BLOCK_COUNT = ceilDiv 6144 BASIC_BLOCK_COUNT ∧
      3008 < 6144 / LOWER_BLOCK_COUNT * LOWER_BLOCK_COUNT ∧
      countOnes onesThenZeros6144 3008 = 3008 ∧
      rank1 idx onesThenZeros6144 3008 = .ok (countOnes onesThenZeros6144 3008) :=
  ⟨_, by rfl, by rfl, by decide, (countOnes_words onesThenZeros6144 47).trans (by rfl),
    rank1_complete_blocks_exact_counts onesThenZeros6144 6144 _ (by rfl) (by rfl) 3008
      (by decide)⟩

/-! ## The select samples the constructor stores -/

/-- The sample loop, for a state that holds `L` samples after `j` words with `cum` set bits:
the result has `ceil(c / 8192)` samples, `c` the set bits of all `j + k` words, it keeps the
samples it had, and each new sample `m` is the lower block of the word in which the count of
set bits reaches `1 + 8192 m`. -/
theorem sampleLoop_spec (bv : List Nat) (base : Nat) : ∀ k j cum next tmp,
    base + j + k ≤ bv.length →
    wordSum bv base + cum = wordSum bv (base + j) → next = 1 + SELECT_SAMPLE * tmp.length →
    cum < next → SELECT_SAMPLE * tmp.length ≤ cum + 8191 →
    ∃ r, sampleLoop bv base k j cum next tmp = .ok r ∧
      wordSum bv base + SELECT_SAMPLE * r.length ≤ wordSum bv (base + j + k) + 8191 ∧
      wordSum bv (base + j + k) ≤ wordSum bv base + SELECT_SAMPLE * r.length ∧
      tmp.length ≤ r.length ∧
      (∀ m, m < tmp.length → r.getD m 0 = tmp.getD m 0) ∧
      ∀ m, tmp.length ≤ m → m < r.length → ∃ w, j ≤ w ∧ w < j + k ∧
        wordSum bv (base + w) < wordSum bv base + (1 + SELECT_SAMPLE * m) ∧
        wordSum bv base + (1 + SELECT_SAMPLE * m) ≤ wordSum bv (base + w + 1) ∧
        r.getD m 0 = (w / LOWER_BLOCK_WORDS) % 2 ^ 32 := by
  intro k
  induction k with
  | zero =>
    intro j cum next tmp _ hc hn hlt hge
    have e8 : SELECT_SAMPLE = 8192 := rfl
    rw [e8] at hn hge
    refine ⟨tmp, rfl, ?_, ?_, Nat.le_refl _, fun _ _ => rfl, ?_⟩
    · show wordSum bv base + SELECT_SAMPLE * tmp.length ≤ wordSum bv (base + j) + 8191
      rw [e8]; omega
    · show wordSum bv (base + j) ≤ wordSum bv base + SELECT_SAMPLE * tmp.length
      rw [e8]; omega
    · intro m h1 h2; omega
  | succ k ih =>
    intro j cum next tmp hlen hc hn hlt hge
    have hs := wordSum_succ bv (base + j)
    have hp := popcount_le (bv.getD (base + j) 0)
    have e8 : SELECT_SAMPLE = 8192 := rfl
    rw [e8] at hn hge
    rw [sampleLoop, readAt_ok (by omega)]
    simp only
    by_cases hpush : next ≤ cum + popcount (bv.getD (base + j) 0)
    · rw [if_pos hpush]
      obtain ⟨r, hr, h1, h2, h3, h4, h5⟩ := ih (j + 1) (cum + popcount (bv.getD (base + j) 0))
        (next + SELECT_SAMPLE) (tmp ++ [(j / LOWER_BLOCK_WORDS) % 2 ^ 32]) (by omega)
        (by rw [← Nat.add_assoc base j 1, hs]; omega)
        (by rw [List.length_append, List.length_singleton, e8]; omega)
        (by rw [e8]; omega)
        (by rw [List.length_append, List.length_singleton, e8]; omega)
      rw [List.length_append, List.length_singleton] at h3 h4 h5
      rw [show base + (j + 1) + k = base + j + (k + 1) by omega] at h1 h2
      refine ⟨r, hr, h1, h2, by omega, ?_, ?_⟩
      · intro m hm
        rw [h4 m (by omega), List.getD_eq_getElem?_getD, List.getD_eq_getElem?_getD,
          List.getElem?_append_left hm]
      · intro m hm1 hm2
        by_cases hm : m = tmp.length
        · refine ⟨j, Nat.le_refl _, by omega, ?_, ?_, ?_⟩
          · rw [e8, hm]; omega
          · rw [e8, hm, hs]; omega
          · rw [h4 m (by omega), hm, List.getD_eq_getElem?_getD,
              List.getElem?_append_right (Nat.le_refl _), Nat.sub_self]
            rfl
        · obtain ⟨w, hw1, hw2, hw3, hw4, hw5⟩ := h5 m (by omega) hm2
          exact ⟨w, by omega, by omega, hw3, hw4, hw5⟩
    · rw [if_neg hpush]
      obtain ⟨r, hr, h1, h2, h3, h4, h5⟩ := ih (j + 1) (cum + popcount (bv.getD (base + j) 0))
        next tmp (by omega)
        (by rw [← Nat.add_assoc base j 1, hs]; omega)
        (by rw [e8]; exact hn) (by omega) (by rw [e8]; omega)
      rw [show base + (j + 1) + k = base + j + (k + 1) by omega] at h1 h2
      refine ⟨r, hr, h1, h2, h3, h4, ?_⟩
      intro m hm1 hm2
      obtain ⟨w, hw1, hw2, hw3, hw4, hw5⟩ := h5 m hm1 hm2
      exact ⟨w, by omega, by omega, hw3, hw4, hw5⟩

/-- The samples of select upper block `k` of a returned index, in terms of the words the
constructor scans for it (`wordsInBucket`, from word `k * 67107744`): with `c` set bits in these
words, an empty block has the samples `[0]`; otherwise there are `ceil(c / 8192)` samples and
sample `m` is the lower block, inside the select upper block, of the word in which the count of
set bits reaches `1 + 8192 m`. -/
theorem built_select_samples (bv : List Nat) (n : Nat) (idx : Index) (h : Orzo bv n = .ok idx)
    (k : Nat) (hk : k < ceilDivF32 n SELECT_UPPER_BLOCK_COUNT) :
    ∃ Sk, idx.select_samples[k]? = some Sk ∧
      (wordSum bv (k * 67107744 +
          wordsInBucket n (ceilDivF32 n SELECT_UPPER_BLOCK_COUNT) k) =
        wordSum bv (k * 67107744) → Sk = [0]) ∧
      (wordSum bv (k * 67107744) < wordSum bv (k * 67107744 +
          wordsInBucket n (ceilDivF32 n SELECT_UPPER_BLOCK_COUNT) k) →
        wordSum bv (k * 67107744) + SELECT_SAMPLE * Sk.length ≤
          wordSum bv (k * 67107744 +
            wordsInBucket n (ceilDivF32 n SELECT_UPPER_BLOCK_COUNT) k) + 8191 ∧
        wordSum bv (k * 67107744 +
            wordsInBucket n (ceilDivF32 n SELECT_UPPER_BLOCK_COUNT) k) ≤
          wordSum bv (k * 67107744) + SELECT_SAMPLE * Sk.length ∧
        ∀ m, m < Sk.length → ∃ w,
          w < wordsInBucket n (ceilDivF32 n SELECT_UPPER_BLOCK_COUNT) k ∧
          wordSum bv (k * 67107744 + w) < wordSum bv (k * 67107744) + (1 + SELECT_SAMPLE * m) ∧
          wordSum bv (k * 67107744) + (1 + SELECT_SAMPLE * m) ≤
            wordSum bv (k * 67107744 + w + 1) ∧
          Sk.getD m 0 = w / LOWER_BLOCK_WORDS) := by
  obtain ⟨_, _, _, _, hsamp⟩ := Orzo_in_range bv n idx h
  obtain ⟨b, hbk, hsk⟩ := Orzo_sample_bucket bv n idx h k hk
  have hW : SELECT_UPPER_BLOCK_COUNT / 64 = 67107744 := rfl
  have hrange := hsamp k hk
  rw [hW] at hrange
  obtain ⟨r, hr, h1, h2, _, _, h5⟩ := sampleLoop_spec bv (k * 67107744)
    (wordsInBucket n (ceilDivF32 n SELECT_UPPER_BLOCK_COUNT) k) 0 0 1 []
    (by omega) (by rw [Nat.add_zero, Nat.add_zero]) (by rfl) (by decide) (by decide)
  rw [sampleBucket_eq, hW, hr] at hbk
  have hbr : b = r := (Except.ok.inj hbk).symm
  subst hbr
  have e8 : SELECT_SAMPLE = 8192 := rfl
  simp only [Nat.add_zero, List.length_nil] at h1 h2 h5
  have hwords : wordsInBucket n (ceilDivF32 n SELECT_UPPER_BLOCK_COUNT) k ≤ 67107744 := by
    unfold wordsInBucket
    rw [hW]
    split
    · exact Nat.le_of_lt (Nat.mod_lt _ (by decide))
    · exact Nat.le_refl _
  refine ⟨fixBucket b, hsk, ?_, ?_⟩
  · intro hz
    have : b.length = 0 := by rw [e8] at h1; omega
    unfold fixBucket
    rw [if_pos this]
  · intro hpos
    have hlen : b.length ≠ 0 := by rw [e8] at h2; omega
    have hfix : fixBucket b = b := by
      unfold fixBucket
      rw [if_neg hlen]
    rw [hfix]
    refine ⟨h1, h2, ?_⟩
    intro m hm
    obtain ⟨w, _, hw2, hw3, hw4, hw5⟩ := h5 m (Nat.zero_le _) hm
    refine ⟨w, by omega, hw3, hw4, ?_⟩
    rw [hw5]
    apply Nat.mod_eq_of_lt
    have : w / LOWER_BLOCK_WORDS ≤ w := Nat.div_le_self _ _
    have h32 : (2 : Nat) ^ 32 = 4294967296 := by norm_num
    rw [h32]
    omega

/-- The words the constructor scans for select upper block `k` are the words of the block below
`n`, when `n` is a multiple of 64 and the number of select upper blocks is the exact ceiling. -/
theorem wordsInBucket_exact (n k : Nat) (h64 : n % 64 = 0)
    (hk : k < ceilDiv n SELECT_UPPER_BLOCK_COUNT) :
    k * 67107744 + wordsInBucket n (ceilDiv n SELECT_UPPER_BLOCK_COUNT) k =
      min ((k + 1) * 67107744) (n / 64) := by
  unfold wordsInBucket
  have hW : SELECT_UPPER_BLOCK_COUNT / 64 = 67107744 := rfl
  have hk' : k < (n + 4294895616 - 1) / 4294895616 := hk
  have hc : ceilDiv n SELECT_UPPER_BLOCK_COUNT = (n + 4294895616 - 1) / 4294895616 := rfl
  rw [hW, hc]
  split
  · rename_i hcond
    obtain ⟨hlast, _⟩ := hcond
    omega
  · rename_i hcond
    have : ¬ k = (n + 4294895616 - 1) / 4294895616 - 1 ∨ n / 64 % 67107744 = 0 := by
      by_cases hl : k = (n + 4294895616 - 1) / 4294895616 - 1
      · right
        by_contra hne
        exact hcond ⟨hl, hne⟩
      · left; exact hl
    omega

/-- The select samples are those of the specification when `n` is a multiple of 64, the
constructor returns an index and the number of select upper blocks it computed is the exact
ceiling: with `c` set bits of B in select upper block `k`, `S_k = [0]` if `c = 0`; otherwise
`S_k` has `ceil(c / SELECT_SAMPLE)` entries, and `S_k[m]` is `floor(w / LOWER_BLOCK_WORDS)` for
the word `w` of the block in which the count of set bits reaches `1 + m * SELECT_SAMPLE`. -/
theorem select_samples_exact_counts (bv : List Nat) (n : Nat) (idx : Index)
    (h : Orzo bv n = .ok idx) (h64 : n % 64 = 0)
    (hexact : ceilDivF32 n SELECT_UPPER_BLOCK_COUNT = ceilDiv n SELECT_UPPER_BLOCK_COUNT)
    (k : Nat) (hk : k < ceilDiv n SELECT_UPPER_BLOCK_COUNT) :
    ∃ Sk, idx.select_samples[k]? = some Sk ∧
      (countOnes bv (min ((k + 1) * SELECT_UPPER_BLOCK_COUNT) n) =
          countOnes bv (k * SELECT_UPPER_BLOCK_COUNT) → Sk = [0]) ∧
      (countOnes bv (k * SELECT_UPPER_BLOCK_COUNT) <
          countOnes bv (min ((k + 1) * SELECT_UPPER_BLOCK_COUNT) n) →
        Sk.length = ceilDiv (countOnes bv (min ((k + 1) * SELECT_UPPER_BLOCK_COUNT) n) -
          countOnes bv (k * SELECT_UPPER_BLOCK_COUNT)) SELECT_SAMPLE ∧
        ∀ m, m < Sk.length → ∃ w,
          k * SELECT_UPPER_BLOCK_COUNT + 64 * w <
            min ((k + 1) * SELECT_UPPER_BLOCK_COUNT) n ∧
          countOnes bv (k * SELECT_UPPER_BLOCK_COUNT + 64 * w) <
            countOnes bv (k * SELECT_UPPER_BLOCK_COUNT) + (1 + SELECT_SAMPLE * m) ∧
          countOnes bv (k * SELECT_UPPER_BLOCK_COUNT) + (1 + SELECT_SAMPLE * m) ≤
            countOnes bv (k * SELECT_UPPER_BLOCK_COUNT + 64 * (w + 1)) ∧
          Sk.getD m 0 = w / LOWER_BLOCK_WORDS) := by
  have hk' : k < ceilDivF32 n SELECT_UPPER_BLOCK_COUNT := by rw [hexact]; exact hk
  obtain ⟨Sk, h1, h2, h3⟩ := built_select_samples bv n idx h k hk'
  have hwb := wordsInBucket_exact n k h64 hk
  rw [hexact, hwb] at h2 h3
  have eS : SELECT_UPPER_BLOCK_COUNT = 4294895616 := rfl
  have e8 : SELECT_SAMPLE = 8192 := rfl
  have cw : ∀ w, countOnes bv (k * SELECT_UPPER_BLOCK_COUNT + 64 * w) =
      wordSum bv (k * 67107744 + w) := by
    intro w
    have e : k * SELECT_UPPER_BLOCK_COUNT + 64 * w = 64 * (k * 67107744 + w) := by
      rw [eS]; omega
    exact (congrArg (countOnes bv) e).trans (countOnes_words bv _)
  have cbase : countOnes bv (k * SELECT_UPPER_BLOCK_COUNT) = wordSum bv (k * 67107744) := by
    have e : k * SELECT_UPPER_BLOCK_COUNT = 64 * (k * 67107744) := by
      rw [eS]; omega
    exact (congrArg (countOnes bv) e).trans (countOnes_words bv _)
  have ctop : countOnes bv (min ((k + 1) * SELECT_UPPER_BLOCK_COUNT) n) =
      wordSum bv (min ((k + 1) * 67107744) (n / 64)) := by
    have e : min ((k + 1) * SELECT_UPPER_BLOCK_COUNT) n =
        64 * min ((k + 1) * 67107744) (n / 64) := by
      rw [eS]; omega
    exact (congrArg (countOnes bv) e).trans (countOnes_words bv _)
  refine ⟨Sk, h1, fun hz => h2 (ctop.symm.trans (hz.trans cbase)), ?_⟩
  intro hpos
  obtain ⟨h4, h5, h6⟩ := h3 (lt_of_eq_of_lt cbase.symm (lt_of_lt_of_eq hpos ctop))
  rw [e8] at h4 h5
  refine ⟨?_, ?_⟩
  · have hlen : Sk.length = (wordSum bv (min ((k + 1) * 67107744) (n / 64)) -
        wordSum bv (k * 67107744) + 8192 - 1) / 8192 := by omega
    exact hlen.trans (congrArg (fun c => (c + 8192 - 1) / 8192)
      (congrArg₂ (· - ·) ctop.symm cbase.symm))
  · intro m hm
    obtain ⟨w, hw1, hw2, hw3, hw4⟩ := h6 m hm
    have hin : k * SELECT_UPPER_BLOCK_COUNT + 64 * w <
        min ((k + 1) * SELECT_UPPER_BLOCK_COUNT) n := by
      rw [eS]; omega
    have hw3' := hw3
    rw [Nat.add_assoc (k * 67107744) w 1] at hw3'
    exact ⟨w, hin, lt_of_eq_of_lt (cw w) (lt_of_lt_of_eq hw2 (congrArg (· + _) cbase.symm)),
      le_of_eq_of_le (congrArg (· + _) cbase) (le_of_le_of_eq hw3' (cw (w + 1)).symm), hw4⟩

/-! ## The walk of select1 over the records -/

/-- The walk over the records from record `s` with `fuel` records ahead of it, when the records
and the `l0` entries it reads exist, the absolute ranks `l0[k / 46] + (l1l2[k] >> 110)` do not
decrease along them and that of `s` is below `i`: the walk returns the greatest record `k` among
them whose absolute rank is below `i`, together with that rank. -/
theorem lowerWalk_spec (self : Index) (i : Nat) : ∀ fuel s,
    s + fuel < self.l1l2.length → (s + fuel) / LOWER_PER_UPPER < self.l0.length →
    self.l0.getD (s / LOWER_PER_UPPER) 0 + (self.l1l2.getD s 0 >>> EF_TOTAL_COUNT) < i →
    (∀ a, s ≤ a → a < s + fuel →
      self.l0.getD (a / LOWER_PER_UPPER) 0 + (self.l1l2.getD a 0 >>> EF_TOTAL_COUNT) ≤
        self.l0.getD ((a + 1) / LOWER_PER_UPPER) 0 +
          (self.l1l2.getD (a + 1) 0 >>> EF_TOTAL_COUNT)) →
    ∃ k, lowerWalk self i fuel s
        (self.l0.getD (s / LOWER_PER_UPPER) 0 + (self.l1l2.getD s 0 >>> EF_TOTAL_COUNT)) =
        .ok (k, self.l0.getD (k / LOWER_PER_UPPER) 0 +
          (self.l1l2.getD k 0 >>> EF_TOTAL_COUNT)) ∧
      s ≤ k ∧ k ≤ s + fuel ∧
      self.l0.getD (k / LOWER_PER_UPPER) 0 + (self.l1l2.getD k 0 >>> EF_TOTAL_COUNT) < i ∧
      ∀ j, k < j → j ≤ s + fuel →
        i ≤ self.l0.getD (j / LOWER_PER_UPPER) 0 + (self.l1l2.getD j 0 >>> EF_TOTAL_COUNT) := by
  intro fuel
  induction fuel with
  | zero =>
    intro s _ _ hlt _
    exact ⟨s, rfl, Nat.le_refl _, Nat.le_refl _, hlt, fun j h1 h2 => by omega⟩
  | succ fuel ih =>
    intro s h1 h2 hlt hmono
    have e46 : LOWER_PER_UPPER = 46 := rfl
    rw [e46] at h2
    rw [lowerWalk, readAt_ok (show (s + 1) / LOWER_PER_UPPER < self.l0.length by
      rw [e46]; omega), readAt_ok (show s + 1 < self.l1l2.length by omega)]
    simp only
    by_cases hstop : i ≤ self.l0.getD ((s + 1) / LOWER_PER_UPPER) 0 +
        (self.l1l2.getD (s + 1) 0 >>> EF_TOTAL_COUNT)
    · rw [if_pos hstop]
      refine ⟨s, rfl, Nat.le_refl _, by omega, hlt, ?_⟩
      -- every later record has at least the rank of record s + 1
      have hall : ∀ d, s + 1 + d ≤ s + (fuel + 1) →
          i ≤ self.l0.getD ((s + 1 + d) / LOWER_PER_UPPER) 0 +
            (self.l1l2.getD (s + 1 + d) 0 >>> EF_TOTAL_COUNT) := by
        intro d
        induction d with
        | zero => intro _; exact hstop
        | succ d ihd =>
          intro hd
          have := hmono (s + 1 + d) (by omega) (by omega)
          have := ihd (by omega)
          rw [show s + 1 + (d + 1) = s + 1 + d + 1 by omega]
          omega
      intro j hj1 hj2
      have := hall (j - (s + 1)) (by omega)
      rw [show s + 1 + (j - (s + 1)) = j by omega] at this
      exact this
    · rw [if_neg hstop]
      obtain ⟨k, hk1, hk2, hk3, hk4, hk5⟩ := ih (s + 1) (by omega)
        (by rw [e46]; rw [show s + 1 + fuel = s + (fuel + 1) by omega]; exact h2)
        (by omega)
        (by intro a ha1 ha2; exact hmono a (by omega) (by omega))
      exact ⟨k, hk1, by omega, by omega, hk4, fun j hj1 hj2 => hk5 j hj1 (by omega)⟩

theorem countOnes_mono (bv : List Nat) {a b : Nat} (h : a ≤ b) :
    countOnes bv a ≤ countOnes bv b := by
  obtain ⟨m, rfl⟩ := Nat.exists_eq_add_of_le h
  rw [countOnes_add]
  exact Nat.le_add_right _ _

/-- The walk of `select1` on a built index, started at a record `s` with fewer than `i` set
bits before its lower block and bounded by a record `s + fuel` the build loop reached: it ends
on the record `k` of the last lower block among them with fewer than `i` set bits before it, so
the `i`-th set bit is not before lower block `k`, and it is before lower block `k + 1` when
`k < s + fuel`. -/
theorem built_lowerWalk (bv : List Nat) (n : Nat) (idx : Index) (h : Orzo bv n = .ok idx)
    (i s fuel : Nat) (hlim : s + fuel ≤ ceilDivF32 n BASIC_BLOCK_COUNT / 11)
    (hs : countOnes bv (s * LOWER_BLOCK_COUNT) < i) :
    ∃ k, lowerWalk idx i fuel s
        (idx.l0.getD (s / LOWER_PER_UPPER) 0 + (idx.l1l2.getD s 0 >>> EF_TOTAL_COUNT)) =
        .ok (k, countOnes bv (k * LOWER_BLOCK_COUNT)) ∧
      s ≤ k ∧ k ≤ s + fuel ∧ countOnes bv (k * LOWER_BLOCK_COUNT) < i ∧
      ∀ j, k < j → j ≤ s + fuel → i ≤ countOnes bv (j * LOWER_BLOCK_COUNT) := by
  have hb := Orzo_built bv n idx h
  obtain ⟨_, hlb, hl0, _, _⟩ := Orzo_in_range bv n idx h
  have hR : ∀ k, k ≤ ceilDivF32 n BASIC_BLOCK_COUNT / 11 →
      idx.l0.getD (k / LOWER_PER_UPPER) 0 + (idx.l1l2.getD k 0 >>> EF_TOTAL_COUNT) =
        countOnes bv (k * LOWER_BLOCK_COUNT) :=
    fun k hk => built_l0_l1_consistency bv n idx hb k hk
  obtain ⟨k, h1, h2, h3, h4, h5⟩ := lowerWalk_spec idx i fuel s
    (by rw [hb.l1l2_len]; omega)
    (by rw [hb.l0_len]; show (s + fuel) / 46 < _; omega)
    (by rw [hR s (by omega)]; exact hs)
    (by
      intro a ha1 ha2
      rw [hR a (by omega), hR (a + 1) (by omega)]
      exact countOnes_mono bv (Nat.mul_le_mul_right _ (Nat.le_succ a)))
  rw [hR k (by omega)] at h1 h4
  refine ⟨k, h1, h2, h3, h4, ?_⟩
  intro j hj1 hj2
  rw [← hR j (by omega)]
  exact h5 j hj1 hj2

end Orzo
